import Mathlib

/-!
# DeuligneHiScores: a high-score table mirrored to EEPROM

A shallow embedding of `DeuligneHiScores.cpp` / `DeuligneHiScores.h`.

* `unsigned int` is the 16-bit type of the AVR boards the Arduino library targets,
  `unsigned long` is 32 bits; arithmetic in these types is written with an explicit
  `% UINT` / `% ULONG`.
* A `char` of a name is represented by its byte (0..255), the value that
  `EEPROM.write` stores and `EEPROM.read` returns for it.
* The EEPROM is a map from addresses to cells together with the log of the
  `EEPROM.write` calls issued so far, oldest first.
* The two dialogues on the LCD keypad (`confirmOverwrite`, `enterName`) are
  external: the value they end with (the Yes/No choice, the three characters)
  is an argument of the operation that runs the dialogue, and the number of
  confirmation dialogues run is counted in the state.
-/

namespace DeuligneHiScores


/-- Number of values of an `unsigned int` (16 bits). -/
def UINT : Nat := 65536

/-- Number of values of an `unsigned long` (32 bits). -/
def ULONG : Nat := 4294967296

/-- Arduino `lowByte(w)`, that is `(uint8_t) ((w) & 0xff)`. -/
def lowByte (w : Nat) : Nat := (w &&& 0xff) % 256

/-- Arduino `highByte(w)`, that is `(uint8_t) ((w) >> 8)`. -/
def highByte (w : Nat) : Nat := (w >>> 8) % 256

/-- The three characters of a name, `char name[3]`. -/
structure Name where
  c0 : Nat
  c1 : Nat
  c2 : Nat
  deriving DecidableEq, Repr

/-- Read `name[j]`. -/
def Name.get (n : Name) (j : Nat) : Nat :=
  match j with
  | 0 => n.c0
  | 1 => n.c1
  | _ => n.c2

/-- The name `{ 'A', 'A', 'A' }`. -/
def nameAAA : Name := ⟨65, 65, 65⟩

/-- Class `DeuligneHiScore`: `value` is the rank key (score in the upper 28 bits,
insertion-order disambiguator in the 4 least significant bits). -/
structure DeuligneHiScore where
  value : Nat
  name : Name
  deriving DecidableEq, Repr

/-- The byte store behind the global `EEPROM` object. -/
structure EEPROMClass where
  cells : Nat → Nat
  writes : List (Nat × Nat)

/-- `EEPROM.read(address)`: the byte (`uint8_t`) held by the cell. -/
def EEPROMClass.read (e : EEPROMClass) (address : Nat) : Nat :=
  e.cells address % 256

/-- `EEPROM.write(address, value)`: the cell takes the byte and the call is logged. -/
def EEPROMClass.write (e : EEPROMClass) (address value : Nat) : EEPROMClass :=
  { cells := fun a => if a = address then value % 256 else e.cells a
    writes := e.writes ++ [(address, value % 256)] }

/-- Class `DeuligneHiScores` together with its environment: the global `EEPROM`
and the number of overwrite confirmations requested on the LCD so far. -/
structure State where
  number_ : Nat
  address_ : Nat
  magic_ : Nat
  scores : Nat → DeuligneHiScore
  validMagicNumber_ : Bool
  writeMagic_ : Bool
  EEPROM : EEPROMClass
  confirms : Nat

/-- Assignment to `scores[i]`. -/
def setScore (scores : Nat → DeuligneHiScore) (i : Nat) (e : DeuligneHiScore) :
    Nat → DeuligneHiScore :=
  fun k => if k = i then e else scores k

/-- The loop of `begin` (lines 47-55) and of `reset` without its write:
`scores[i].value = 0x0f - i`, name `AAA`, for `i < number_`. The subtraction does
not wrap since `number_ ≤ 5`. -/
def initScores (scores : Nat → DeuligneHiScore) (number_ : Nat) : Nat → DeuligneHiScore :=
  (List.range number_).foldl (fun sc i => setScore sc i ⟨0x0f - i, nameAAA⟩) scores

/-- Lines 77-83 of `begin`: four bytes at `address .. address + 3`, read from the
most significant one down, accumulated in an `unsigned long`. -/
def readValue (e : EEPROMClass) (address : Nat) : Nat :=
  (List.range 4).foldl
    (fun value j => ((value <<< 8) % ULONG + e.read ((address + 3 - j) % UINT)) % ULONG) 0

/-- One round of the loop at lines 75-100 of `begin`: load record `i` at `address`
and advance `address` by 7. -/
def readScoreStep (e : EEPROMClass) (st : (Nat → DeuligneHiScore) × Nat) (i : Nat) :
    (Nat → DeuligneHiScore) × Nat :=
  let value := readValue e st.2
  let a0 := (st.2 + 4) % UINT
  let a1 := (a0 + 1) % UINT
  let a2 := (a1 + 1) % UINT
  let a3 := (a2 + 1) % UINT
  (setScore st.1 i ⟨value, ⟨e.read a0, e.read a1, e.read a2⟩⟩, a3)

/-- The loop at lines 75-100 of `begin`: the loaded table and the address that
follows the last record. -/
def readScores (e : EEPROMClass) (scores : Nat → DeuligneHiScore) (number_ address : Nat) :
    (Nat → DeuligneHiScore) × Nat :=
  (List.range number_).foldl (readScoreStep e) (scores, address)

/-- The loop at lines 118-129 of `begin`: true when every one of the `7*number_`
bytes from `address` on reads `0xff`. -/
def regionErased (e : EEPROMClass) (number_ address : Nat) : Bool :=
  (List.range ((7 * number_) % UINT)).all (fun i => e.read ((address + i) % UINT) == 0xff)

/-- `confirmOverwrite()`: the dialogue ends with the choice `overwrite` shown when
the select key is pressed, and `validMagicNumber_` takes it. -/
def confirmOverwrite (s : State) (overwrite : Bool) : State :=
  { s with validMagicNumber_ := overwrite, confirms := s.confirms + 1 }

/-- `begin(number, address, magic)`; `overwrite` is the answer the user gives if
the confirmation dialogue is run. -/
def begin (s : State) (number address magic : Nat) (overwrite : Bool) : State :=
  let s := { s with number_ := number, address_ := address, magic_ := magic,
                    writeMagic_ := false }
  let s := if s.number_ > 5 then { s with number_ := 5 } else s
  if s.number_ < 1 then { s with validMagicNumber_ := false }
  else
    let s := { s with scores := initScores s.scores s.number_ }
    let byteL := lowByte s.magic_
    let byteH := highByte s.magic_
    let b0 := s.EEPROM.read address
    let address := (address + 1) % UINT
    let b1 := s.EEPROM.read address
    let address := (address + 1) % UINT
    let s :=
      if b0 = byteH ∧ b1 = byteL then
        let r := readScores s.EEPROM s.scores s.number_ address
        let address := r.2
        let b0 := s.EEPROM.read address
        let address := (address + 1) % UINT
        let b1 := s.EEPROM.read address
        { s with scores := r.1, validMagicNumber_ := decide (b0 = byteH ∧ b1 = byteL) }
      else if b0 = 0xff ∧ b1 = 0xff then
        { s with writeMagic_ := true,
                 validMagicNumber_ := regionErased s.EEPROM s.number_ address }
      else
        { s with validMagicNumber_ := false, writeMagic_ := true }
    if !s.validMagicNumber_ then confirmOverwrite s overwrite else s

/-- Lines 312-338 of `writeScore`: the 4 bytes of `scores[index].value`, least
significant first, then the 3 name bytes, at `address_ + 2 + index * 7`. -/
def writeRecord (s : State) (index : Nat) : State :=
  let address := (s.address_ + 2 + index * 7) % UINT
  let value := (s.scores index).value
  let e := s.EEPROM
  let e := e.write ((address + 0) % UINT) (value &&& 0xff)
  let value := value >>> 8
  let e := e.write ((address + 1) % UINT) (value &&& 0xff)
  let value := value >>> 8
  let e := e.write ((address + 2) % UINT) (value &&& 0xff)
  let value := value >>> 8
  let e := e.write ((address + 3) % UINT) (value &&& 0xff)
  let address := (address + 4) % UINT
  let e := e.write ((address + 0) % UINT) ((s.scores index).name.get 0)
  let e := e.write ((address + 1) % UINT) ((s.scores index).name.get 1)
  let e := e.write ((address + 2) % UINT) ((s.scores index).name.get 2)
  { s with EEPROM := e }

/-- Lines 300-310 of `writeScore`, the part run when `writeMagic_` is set: the flag
is cleared, then the leading magic, the `number_` records (the self-calls at line
307 run with the flag cleared, so each is the record part alone) and the trailing
magic are written. -/
def writeFrame (s : State) : State :=
  let s := { s with writeMagic_ := false }
  let byteL := lowByte s.magic_
  let byteH := highByte s.magic_
  let s := { s with EEPROM := s.EEPROM.write s.address_ byteH }
  let s := { s with EEPROM := s.EEPROM.write ((s.address_ + 1) % UINT) byteL }
  let s := (List.range s.number_).foldl writeRecord s
  let s := { s with EEPROM := s.EEPROM.write ((s.address_ + 2 + 7 * s.number_) % UINT) byteH }
  { s with EEPROM := s.EEPROM.write ((s.address_ + 3 + 7 * s.number_) % UINT) byteL }

/-- `writeScore(index)`: the framing first when `writeMagic_` is set, then the
record `index`. -/
def writeScore (s : State) (index : Nat) : State :=
  writeRecord (if s.writeMagic_ then writeFrame s else s) index

/-- `enterName(index)`: the dialogue ends with the three characters `entered`,
which are copied to `scores[index].name`. -/
def enterName (s : State) (index : Nat) (entered : Name) : State :=
  { s with scores := setScore s.scores index ⟨(s.scores index).value, entered⟩ }

/-- Lines 201-207 of `insert`: is some `scores[i].value`, `i < number_`, below `value`? -/
def isBestScore (s : State) (value : Nat) : Bool :=
  (List.range s.number_).any (fun i => decide ((s.scores i).value < value))

/-- Loop state of lines 220-231 of `insert`. -/
structure Scan where
  lowest : Nat
  indexLowest : Nat
  same : Nat
  deriving DecidableEq, Repr

/-- One round of the loop at lines 223-231; `~0x0fL` is `0xFFFFFFF0` as an
`unsigned long`. -/
def scanStep (scores : Nat → DeuligneHiScore) (value : Nat) (st : Scan) (i : Nat) : Scan :=
  let st := if (scores i).value &&& 0xFFFFFFF0 = value then { st with same := st.same + 1 } else st
  if (scores i).value < st.lowest then
    { st with lowest := (scores i).value, indexLowest := i }
  else st

/-- The loop at lines 220-231 of `insert`. -/
def scan (s : State) (value : Nat) : Scan :=
  (List.range s.number_).foldl (scanStep s.scores value) ⟨value, 0, 0⟩

/-- `insert(value, checkOnly)`; `entered` is the name the user gives if the
name dialogue is run. -/
def insert (s : State) (value : Nat) (checkOnly : Bool) (entered : Name) : Bool × State :=
  let value := (value <<< 4) % ULONG
  let best := isBestScore s value
  if checkOnly then (best, s)
  else if !best then (false, s)
  else
    let sc := scan s value
    let e : DeuligneHiScore :=
      ⟨(value + 0xf + ULONG - sc.same) % ULONG, (s.scores sc.indexLowest).name⟩
    let s := { s with scores := setScore s.scores sc.indexLowest e }
    let s :=
      if s.validMagicNumber_ then writeScore (enterName s sc.indexLowest entered) sc.indexLowest
      else s
    (true, s)

/-- `reset()`. -/
def reset (s : State) : State :=
  (List.range s.number_).foldl
    (fun s i => writeScore { s with scores := setScore s.scores i ⟨0x0f - i, nameAAA⟩ } i) s

/-- Loop state of the inner loop of `display` (lines 359-370). -/
structure Pick where
  mask : Nat
  maxScore : Nat
  maxIndex : Nat
  deriving DecidableEq, Repr

/-- One round of the inner loop of `display`. -/
def pickStep (scores : Nat → DeuligneHiScore) (displayed : Nat) (p : Pick) (j : Nat) : Pick :=
  let p :=
    if displayed &&& p.mask = 0 then
      if (scores j).value > p.maxScore then
        { p with maxScore := (scores j).value, maxIndex := j }
      else p
    else p
  { p with mask := (p.mask <<< 1) % UINT }

/-- One row of `display`: the index shown and the updated `displayed` bit set. -/
def displayRow (s : State) (displayed : Nat) : Nat × Nat :=
  let p := (List.range s.number_).foldl (pickStep s.scores displayed) ⟨1, 0, 0⟩
  (p.maxIndex, (displayed ||| ((1 <<< p.maxIndex) % UINT)) % UINT)

/-- `display()`: the indices `maxIndex` of the rows shown, first row first. -/
def display (s : State) : List Nat :=
  ((List.range s.number_).foldl
    (fun (acc : List Nat × Nat) _ =>
      let r := displayRow s acc.2
      (acc.1 ++ [r.1], r.2)) ([], 0)).1

/-- A call on the object after construction. -/
inductive Call where
  | begin (overwrite : Bool)
  | insert (value : Nat) (checkOnly : Bool) (entered : Name)
  | reset
  deriving DecidableEq, Repr

/-- Run one call; `begin` is called with the given configuration. -/
def step (number address magic : Nat) (s : State) (c : Call) : State :=
  match c with
  | Call.begin overwrite => begin s number address magic overwrite
  | Call.insert value checkOnly entered => (insert s value checkOnly entered).2
  | Call.reset => reset s

/-- Run a sequence of calls, first call first. -/
def run (number address magic : Nat) (s : State) (cs : List Call) : State :=
  cs.foldl (step number address magic) s

/-! ## Concrete states used as test inputs -/

/-- A table given by the list of its rank keys, every name `AAA`. -/
def tableOf (keys : List Nat) : Nat → DeuligneHiScore :=
  fun i => ⟨keys.getD i 0, nameAAA⟩

/-- The table with scores `[100, 90, 80, 70, 60]`, each with disambiguator 15. -/
def exampleTable : Nat → DeuligneHiScore :=
  tableOf [100 * 16 + 15, 90 * 16 + 15, 80 * 16 + 15, 70 * 16 + 15, 60 * 16 + 15]

/-- An EEPROM whose cells all hold `b`, with an empty write log. -/
def constStore (b : Nat) : EEPROMClass := ⟨fun _ => b, []⟩

/-- An object on which `begin` has not been called yet, next to the store `e`. -/
def fresh (e : EEPROMClass) : State :=
  ⟨0, 0, 0, tableOf [], false, false, e, 0⟩

/-- Five slots at address 0 holding `exampleTable`, region owned, framing written. -/
def exampleState : State :=
  ⟨5, 0, 0xC15E, exampleTable, true, false, constStore 0xff, 0⟩

/-! ## Tables: the properties the claims speak about -/

/-- The user-visible score of a rank key, `value >> 4`. -/
def scoreOf (value : Nat) : Nat := value >>> 4

/-- The `n` rank keys of the table are pairwise distinct. -/
def Distinct (scores : Nat → DeuligneHiScore) (n : Nat) : Prop :=
  ∀ i, i < n → ∀ j, j < n → (scores i).value = (scores j).value → i = j

/-- The table that `begin` builds before it looks at the store. -/
def sentinel (n : Nat) : Nat → DeuligneHiScore :=
  initScores (tableOf []) n

/-! ## Auxiliary definitions used by the statements and proofs -/

/-- Number of entries among the first `n` whose key with the low 4 bits cleared is `cand`. -/
def sameCount (scores : Nat → DeuligneHiScore) (cand n : Nat) : Nat :=
  (List.range n).countP (fun i => decide ((scores i).value &&& 0xFFFFFFF0 = cand))

/-- What the scan knows about the minimum after `n` rounds. -/
def ScanLow (scores : Nat → DeuligneHiScore) (cand n : Nat) (st : Scan) : Prop :=
  (st.lowest = cand ∧ st.indexLowest = 0 ∧ ∀ j, j < n → cand ≤ (scores j).value) ∨
  (st.indexLowest < n ∧ (scores st.indexLowest).value = st.lowest ∧ st.lowest < cand ∧
    (∀ j, j < n → st.lowest ≤ (scores j).value) ∧
    ∀ j, j < st.indexLowest → st.lowest < (scores j).value)

/-- The fields of the object that a write to the store never touches. -/
def SameObject (s t : State) : Prop :=
  t.number_ = s.number_ ∧ t.address_ = s.address_ ∧ t.magic_ = s.magic_ ∧
  t.scores = s.scores ∧ t.validMagicNumber_ = s.validMagicNumber_ ∧ t.confirms = s.confirms

/-- The object after the leading magic has been written (lines 300-305). -/
def frameHead (s : State) : State :=
  { s with writeMagic_ := false,
           EEPROM := (s.EEPROM.write s.address_ (highByte s.magic_)).write
             ((s.address_ + 1) % UINT) (lowByte s.magic_) }

/-- The object after the leading magic and the records have been written. -/
def frameBody (s : State) : State :=
  (List.range s.number_).foldl writeRecord (frameHead s)

/-- The rank key an accepted `insert` stores. -/
def newKey (s : State) (v : Nat) : Nat :=
  ((v <<< 4) % ULONG + 0xf + ULONG - (scan s ((v <<< 4) % ULONG)).same) % ULONG

/-- The slot an accepted `insert` overwrites. -/
def evicted (s : State) (v : Nat) : Nat :=
  (scan s ((v <<< 4) % ULONG)).indexLowest

/-- The object after line 232 of `insert`: the new key is in the evicted slot. -/
def placed (s : State) (v : Nat) : State :=
  { s with scores := setScore s.scores (evicted s v) ⟨newKey s v, (s.scores (evicted s v)).name⟩ }

/-- The keys of the example table after the first `insert(90)`. -/
def afterFirst : State :=
  { exampleState with scores := tableOf [1615, 1455, 1295, 1135, 1454] }

/-- The 7 bytes of a record: the rank key, least significant byte first, then the name. -/
def recordBytes (e : DeuligneHiScore) : List Nat :=
  [e.value % 256, e.value / 256 % 256, e.value / 65536 % 256, e.value / 16777216 % 256,
   e.name.c0 % 256, e.name.c1 % 256, e.name.c2 % 256]

/-- The 7 store writes of record `i`: address and byte, in the order issued. -/
def recordWrites (s : State) (i : Nat) : List (Nat × Nat) :=
  (List.range 7).map
    (fun j => ((s.address_ + 2 + 7 * i + j) % UINT, (recordBytes (s.scores i)).getD j 0))

/-- The store `e'` comes from `e` by writes to addresses in `[A, A + 4 + 7N)` only. -/
def Framed (A N : Nat) (e e' : EEPROMClass) : Prop :=
  (∃ l, e'.writes = e.writes ++ l ∧ ∀ w, w ∈ l → A ≤ w.1 ∧ w.1 < A + 4 + 7 * N) ∧
  ∀ a, ¬ (A ≤ a ∧ a < A + 4 + 7 * N) → e'.cells a = e.cells a

/-- The store holds the framed table: magic, `N` records, magic, from address `A`. -/
def RegionHolds (e : EEPROMClass) (A N M : Nat) (sc : Nat → DeuligneHiScore) : Prop :=
  e.cells A = highByte M ∧ e.cells (A + 1) = lowByte M ∧
  (∀ i j, i < N → j < 7 → e.cells (A + 2 + 7 * i + j) = (recordBytes (sc i)).getD j 0) ∧
  e.cells (A + 2 + 7 * N) = highByte M ∧ e.cells (A + 3 + 7 * N) = lowByte M

/-- Two slots at address 10 with a table in memory and the framing still to be written. -/
def pendingState : State :=
  ⟨2, 10, 0xC15E, fun i => ⟨[1455, 975].getD i 0, ⟨66, 79, 66⟩⟩, true, true, constStore 0xff, 0⟩

/-- The slots among the first `n` whose score bits are those of `c`. -/
def classOf (sc : Nat → DeuligneHiScore) (c n : Nat) : Finset ℕ :=
  (Finset.range n).filter (fun i => (sc i).value / 16 * 16 = c)

/-- The invariant of the table: keys are 32-bit and pairwise distinct, and for every
entry each disambiguator above its own, up to 15, is held by an entry of the same
score. -/
def Ranked (sc : Nat → DeuligneHiScore) (n : Nat) : Prop :=
  (∀ i, i < n → (sc i).value < ULONG) ∧ Distinct sc n ∧
  ∀ i, i < n → ∀ d, (sc i).value % 16 < d → d ≤ 15 →
    ∃ j, j < n ∧ (sc j).value = (sc i).value / 16 * 16 + d

/-- Is the call a call of `begin`? -/
def Call.isBegin (c : Call) : Bool :=
  match c with
  | Call.begin _ => true
  | _ => false

/-- The states reached from a sentinel table of `N` slots by `insert` and `reset` calls. -/
def Reachable (N : Nat) (s : State) : Prop :=
  ∃ (A M : Nat) (s0 : State) (cs : List Call), s0.number_ = N ∧
    (∀ i, i < N → (s0.scores i).value = 0x0f - i) ∧
    (∀ c, c ∈ cs → c.isBegin = false) ∧ s = run N A M s0 cs

/-- Two slots, sentinel table from `begin` over an erased store, then `insert(5)`:
the keys are 15 and `5 * 16 + 15 = 95`. -/
def afterFive : State :=
  run 2 0 0xC15E (begin (fresh (constStore 0xff)) 2 0 0xC15E false)
    [Call.insert 5 false nameAAA]

/-- A valid region of two slots at address 0, magic `0xC15E`: record 0 holds key 95
and `AAA`, record 1 holds four zero key bytes and `BBB`. -/
def zeroKeyStore : EEPROMClass :=
  ⟨fun a => [0xC1, 0x5E, 95, 0, 0, 0, 65, 65, 65, 0, 0, 0, 0, 66, 66, 66, 0xC1, 0x5E].getD a 0xff,
    []⟩

/-- The write log of `e'` is the write log of `e` followed by further writes. -/
def Extends (e e' : EEPROMClass) : Prop := ∃ l, e'.writes = e.writes ++ l

/-- The reset loop after its first `m` rounds. -/
def resetUpTo (s : State) (m : Nat) : State :=
  (List.range m).foldl
    (fun s i => writeScore { s with scores := setScore s.scores i ⟨0x0f - i, nameAAA⟩ } i) s

/-- The cells after the writes of `l`, first write first. -/
def applyWrites (cells : Nat → Nat) (l : List (Nat × Nat)) : Nat → Nat :=
  l.foldl (fun c w => fun a => if a = w.1 then w.2 else c a) cells

/-- The store `e'` comes from `e` by exactly the writes `l`. -/
def Tracks (e e' : EEPROMClass) (l : List (Nat × Nat)) : Prop :=
  e'.writes = e.writes ++ l ∧ e'.cells = applyWrites e.cells l

/-- The writes of lines 304-310 of `writeScore`: leading magic, all records,
trailing magic. -/
def frameWrites (s : State) : List (Nat × Nat) :=
  [(s.address_, highByte s.magic_), ((s.address_ + 1) % UINT, lowByte s.magic_)] ++
  (List.range s.number_).flatMap (recordWrites s) ++
  [((s.address_ + 2 + 7 * s.number_) % UINT, highByte s.magic_),
   ((s.address_ + 3 + 7 * s.number_) % UINT, lowByte s.magic_)]

/-- The byte the framed table has at offset `x` of the region. -/
def regionByte (s : State) (x : Nat) : Nat :=
  if x = 0 then highByte s.magic_
  else if x = 1 then lowByte s.magic_
  else if x < 2 + 7 * s.number_ then (recordBytes (s.scores ((x - 2) / 7))).getD ((x - 2) % 7) 0
  else if x = 2 + 7 * s.number_ then highByte s.magic_
  else lowByte s.magic_

/-- The write puts the byte of the layout at an offset below `bound` of the region. -/
def InLayout (s : State) (bound : Nat) (w : Nat × Nat) : Prop :=
  ∃ x, x < bound ∧ w = ((s.address_ + x) % UINT, regionByte s x)

/-- The leading magic and the records: the writes that precede the trailing magic. -/
def frameFront (s : State) : List (Nat × Nat) :=
  [(s.address_, highByte s.magic_), ((s.address_ + 1) % UINT, lowByte s.magic_)] ++
  (List.range s.number_).flatMap (recordWrites s)

/-- The trailing magic. -/
def frameTail (s : State) : List (Nat × Nat) :=
  [((s.address_ + 2 + 7 * s.number_) % UINT, highByte s.magic_),
   ((s.address_ + 3 + 7 * s.number_) % UINT, lowByte s.magic_)]

/-- A region whose leading magic is in place and whose trailing magic is not: one
slot at address 0, magic `0xC15E`, all other cells 0. -/
def tornStore : EEPROMClass :=
  ⟨fun a => if a = 0 then 0xC1 else if a = 1 then 0x5E else 0, []⟩

/-- The writes of the first persisted write: the framing, then the record asked for. -/
def firstWrites (s : State) (idx : Nat) : List (Nat × Nat) :=
  frameWrites s ++ recordWrites s idx

/-- The store after only the writes `p` have reached it. -/
def storeAfter (e : EEPROMClass) (p : List (Nat × Nat)) : EEPROMClass :=
  ⟨applyWrites e.cells p, e.writes ++ p⟩

/-- What the inner loop of `display` knows after `n` rounds: the mask, and the
largest key among the entries not displayed yet, if one is above 0. -/
def PickInv (sc : Nat → DeuligneHiScore) (d n : Nat) (p : Pick) : Prop :=
  p.mask = 2 ^ n ∧
  ((p.maxScore = 0 ∧ p.maxIndex = 0 ∧ ∀ j, j < n → d.testBit j = false → (sc j).value = 0) ∨
   (p.maxIndex < n ∧ d.testBit p.maxIndex = false ∧ (sc p.maxIndex).value = p.maxScore ∧
     0 < p.maxScore ∧ ∀ j, j < n → d.testBit j = false → (sc j).value ≤ p.maxScore))

/-- The rows shown and the bit set `displayed` after the first `r` rows of `display`. -/
def displayUpTo (s : State) (r : Nat) : List Nat × Nat :=
  (List.range r).foldl
    (fun (acc : List Nat × Nat) _ =>
      let row := displayRow s acc.2
      (acc.1 ++ [row.1], row.2)) ([], 0)

/-- The state of `display` after `r` rows: the rows are `r` different indices, their
bits and only theirs are set, their keys go down, and every entry not shown yet has
a key below those shown. -/
def RowsInv (s : State) (r : Nat) (acc : List Nat × Nat) : Prop :=
  acc.1.length = r ∧ (∀ i, i < 16 → (acc.2.testBit i = true ↔ i ∈ acc.1)) ∧ acc.1.Nodup ∧
  (∀ x, x ∈ acc.1 → x < s.number_) ∧
  acc.1.Pairwise (fun a b => (s.scores a).value > (s.scores b).value) ∧
  ∀ x, x ∈ acc.1 → ∀ i, i < s.number_ → i ∉ acc.1 → (s.scores i).value < (s.scores x).value

/-- The multiset `T` is made of `n` elements of `U`, and no element of `U` left out
is above an element of `T`: `T` is the multiset of the `n` largest elements of `U`. -/
def IsTopN (n : Nat) (T U : Multiset Nat) : Prop :=
  ∃ R, U = T + R ∧ Multiset.card T = n ∧ ∀ x, x ∈ T → ∀ y, y ∈ R → y ≤ x

/-- The `n` largest elements of a list: sort it in descending order, keep the first `n`. -/
def topN (n : Nat) (l : List Nat) : List Nat :=
  (l.insertionSort (fun a b => a ≥ b)).take n

/-- The user-visible scores `value >> 4` of the table, as a multiset. -/
def scoresOf (s : State) : Multiset Nat :=
  ((List.range s.number_).map (fun i => scoreOf (s.scores i).value) : List Nat)

/-- Insert the given scores one after the other, each with the name entered for it. -/
def insertAll (s : State) (vs : List (Nat × Name)) : State :=
  vs.foldl (fun s p => (insert s p.1 false p.2).2) s

/-! ## Bit operations as arithmetic -/

theorem and_ff (v : Nat) : v &&& 0xff = v % 256 := by
  have := Nat.and_pow_two_sub_one_eq_mod v 8
  simpa using this

theorem shr8 (v : Nat) : v >>> 8 = v / 256 := by
  simp [Nat.shiftRight_eq_div_pow]

theorem shr4 (v : Nat) : v >>> 4 = v / 16 := by
  simp [Nat.shiftRight_eq_div_pow]

theorem shl4 (v : Nat) : v <<< 4 = v * 16 := by
  simp [Nat.shiftLeft_eq]

theorem shl8 (v : Nat) : v <<< 8 = v * 256 := by
  simp [Nat.shiftLeft_eq]

theorem testBit_mask (i : Nat) : Nat.testBit 0xFFFFFFF0 i = (decide (4 ≤ i) && decide (i < 32)) := by
  by_cases h : i < 32
  · interval_cases i <;> decide
  · have : Nat.testBit 0xFFFFFFF0 i = false := by
      apply Nat.testBit_eq_false_of_lt
      calc 0xFFFFFFF0 < 2 ^ 32 := by norm_num
        _ ≤ 2 ^ i := Nat.pow_le_pow_right (by norm_num) (by omega)
    simp [this, h]

theorem and_mask (v : Nat) (h : v < 4294967296) : v &&& 0xFFFFFFF0 = v / 16 * 16 := by
  apply Nat.eq_of_testBit_eq
  intro i
  rw [Nat.testBit_and, testBit_mask]
  have e : v / 16 * 16 = (v >>> 4) <<< 4 := by
    simp [Nat.shiftRight_eq_div_pow, Nat.shiftLeft_eq]
  rw [e, Nat.testBit_shiftLeft, Nat.testBit_shiftRight]
  by_cases h4 : 4 ≤ i
  · have : 4 + (i - 4) = i := by omega
    rw [this]
    by_cases h32 : i < 32
    · simp [h4, h32]
    · have : Nat.testBit v i = false := by
        apply Nat.testBit_eq_false_of_lt
        calc v < 2 ^ 32 := by simpa using h
          _ ≤ 2 ^ i := Nat.pow_le_pow_right (by norm_num) (by omega)
      simp [this]
  · simp [h4]

/-! ## The two loops of `insert` -/

theorem isBestScore_iff (s : State) (cand : Nat) :
    isBestScore s cand = true ↔ ∃ i, i < s.number_ ∧ (s.scores i).value < cand := by
  simp [isBestScore, List.any_eq_true]

theorem scanStep_same (scores : Nat → DeuligneHiScore) (cand : Nat) (st : Scan) (i : Nat) :
    (scanStep scores cand st i).same =
      st.same + (if (scores i).value &&& 0xFFFFFFF0 = cand then 1 else 0) := by
  unfold scanStep
  by_cases h : (scores i).value &&& 0xFFFFFFF0 = cand
  · simp only [h, if_true]; split <;> rfl
  · simp only [h, if_false]; split <;> rfl

theorem scanStep_lowest (scores : Nat → DeuligneHiScore) (cand : Nat) (st : Scan) (i : Nat) :
    (scanStep scores cand st i).lowest =
      if (scores i).value < st.lowest then (scores i).value else st.lowest := by
  unfold scanStep
  by_cases h : (scores i).value &&& 0xFFFFFFF0 = cand
  · simp only [h, if_true]; split <;> rfl
  · simp only [h, if_false]; split <;> rfl

theorem scanStep_indexLowest (scores : Nat → DeuligneHiScore) (cand : Nat) (st : Scan) (i : Nat) :
    (scanStep scores cand st i).indexLowest =
      if (scores i).value < st.lowest then i else st.indexLowest := by
  unfold scanStep
  by_cases h : (scores i).value &&& 0xFFFFFFF0 = cand
  · simp only [h, if_true]; split <;> rfl
  · simp only [h, if_false]; split <;> rfl

theorem scan_fold_same (scores : Nat → DeuligneHiScore) (cand n : Nat) (st0 : Scan) :
    ((List.range n).foldl (scanStep scores cand) st0).same = st0.same + sameCount scores cand n := by
  induction n with
  | zero => simp [sameCount]
  | succ n ih =>
    simp only [sameCount] at ih ⊢
    rw [List.range_succ, List.foldl_append, List.countP_append]
    simp only [List.foldl_cons, List.foldl_nil, List.countP_cons, List.countP_nil]
    rw [scanStep_same, ih]
    by_cases h : (scores n).value &&& 0xFFFFFFF0 = cand
    · simp [h]; omega
    · simp [h]

theorem scan_fold_low (scores : Nat → DeuligneHiScore) (cand n : Nat) :
    ScanLow scores cand n ((List.range n).foldl (scanStep scores cand) ⟨cand, 0, 0⟩) := by
  induction n with
  | zero => left; simp
  | succ n ih =>
    rw [List.range_succ, List.foldl_append]
    simp only [List.foldl_cons, List.foldl_nil]
    generalize (List.range n).foldl (scanStep scores cand) ⟨cand, 0, 0⟩ = st at ih
    unfold ScanLow at ih ⊢
    rw [scanStep_lowest, scanStep_indexLowest]
    by_cases hlt : (scores n).value < st.lowest
    · simp only [if_pos hlt]
      right
      rcases ih with ⟨a, _, c⟩ | ⟨a, b, c, d, e⟩
      · refine ⟨by omega, trivial, by omega, ?_, ?_⟩
        · intro j hj
          rcases Nat.lt_succ_iff_lt_or_eq.mp hj with h | h
          · have := c j h; omega
          · subst h; exact le_refl _
        · intro j hj
          have := c j hj; omega
      · refine ⟨by omega, trivial, by omega, ?_, ?_⟩
        · intro j hj
          rcases Nat.lt_succ_iff_lt_or_eq.mp hj with h | h
          · have := d j h; omega
          · subst h; exact le_refl _
        · intro j hj
          have := d j hj; omega
    · simp only [if_neg hlt]
      rcases ih with ⟨a, b, c⟩ | ⟨a, b, c, d, e⟩
      · left
        refine ⟨a, b, ?_⟩
        intro j hj
        rcases Nat.lt_succ_iff_lt_or_eq.mp hj with h | h
        · exact c j h
        · subst h; omega
      · right
        refine ⟨by omega, b, c, ?_, e⟩
        intro j hj
        rcases Nat.lt_succ_iff_lt_or_eq.mp hj with h | h
        · exact d j h
        · subst h; omega

theorem sameCount_le (scores : Nat → DeuligneHiScore) (cand n : Nat) :
    sameCount scores cand n ≤ n := by
  unfold sameCount
  calc _ ≤ (List.range n).length := List.countP_le_length _
    _ = n := List.length_range n

/-- The scan of an accepted insert: the evicted slot is the first slot holding the
minimum key, which is below the candidate, and `same` is the number of entries
with the candidate's score. -/
theorem scan_spec (s : State) (cand : Nat)
    (h : ∃ i, i < s.number_ ∧ (s.scores i).value < cand) :
    (scan s cand).indexLowest < s.number_ ∧
    (s.scores (scan s cand).indexLowest).value < cand ∧
    (∀ j, j < s.number_ → (s.scores (scan s cand).indexLowest).value ≤ (s.scores j).value) ∧
    (∀ j, j < (scan s cand).indexLowest →
      (s.scores (scan s cand).indexLowest).value < (s.scores j).value) ∧
    (scan s cand).same = sameCount s.scores cand s.number_ := by
  have hs := scan_fold_same s.scores cand s.number_ ⟨cand, 0, 0⟩
  have hl := scan_fold_low s.scores cand s.number_
  unfold scan
  rcases hl with ⟨_, _, c⟩ | ⟨a, b, c, d, e⟩
  · obtain ⟨i, hi, hlt⟩ := h
    have := c i hi
    omega
  · refine ⟨a, by omega, ?_, ?_, by simpa using hs⟩
    · intro j hj; rw [b]; exact d j hj
    · intro j hj; rw [b]; exact e j hj

/-! ## What the write path leaves alone -/

theorem sameObject_refl (s : State) : SameObject s s :=
  ⟨rfl, rfl, rfl, rfl, rfl, rfl⟩

theorem sameObject_trans {s t u : State} (h1 : SameObject s t) (h2 : SameObject t u) :
    SameObject s u :=
  ⟨h2.1.trans h1.1, h2.2.1.trans h1.2.1, h2.2.2.1.trans h1.2.2.1,
    h2.2.2.2.1.trans h1.2.2.2.1, h2.2.2.2.2.1.trans h1.2.2.2.2.1,
    h2.2.2.2.2.2.trans h1.2.2.2.2.2⟩

theorem writeRecord_same (s : State) (i : Nat) : SameObject s (writeRecord s i) :=
  ⟨rfl, rfl, rfl, rfl, rfl, rfl⟩

theorem writeRecord_writeMagic (s : State) (i : Nat) :
    (writeRecord s i).writeMagic_ = s.writeMagic_ := rfl

theorem foldl_writeRecord_same (l : List Nat) (s : State) :
    SameObject s (l.foldl writeRecord s) ∧ (l.foldl writeRecord s).writeMagic_ = s.writeMagic_ := by
  induction l generalizing s with
  | nil => exact ⟨sameObject_refl s, rfl⟩
  | cons i l ih =>
    simp only [List.foldl_cons]
    obtain ⟨h1, h2⟩ := ih (writeRecord s i)
    exact ⟨sameObject_trans (writeRecord_same s i) h1, h2⟩

theorem frameBody_same (s : State) :
    SameObject s (frameBody s) ∧ (frameBody s).writeMagic_ = false := by
  obtain ⟨h1, h2⟩ := foldl_writeRecord_same (List.range s.number_) (frameHead s)
  obtain ⟨a1, a2, a3, a4, a5, a6⟩ := h1
  exact ⟨⟨a1, a2, a3, a4, a5, a6⟩, h2⟩

theorem writeFrame_EEPROM (s : State) :
    (writeFrame s).EEPROM =
      ((frameBody s).EEPROM.write ((s.address_ + 2 + 7 * s.number_) % UINT)
        (highByte s.magic_)).write ((s.address_ + 3 + 7 * s.number_) % UINT) (lowByte s.magic_) := by
  obtain ⟨⟨a1, a2, _⟩, _⟩ := frameBody_same s
  unfold frameBody at a1 a2
  unfold frameHead at a1 a2
  simp only [writeFrame, frameBody, frameHead, a1, a2]

theorem writeFrame_same (s : State) :
    SameObject s (writeFrame s) ∧ (writeFrame s).writeMagic_ = false := by
  obtain ⟨⟨a1, a2, a3, a4, a5, a6⟩, h2⟩ := frameBody_same s
  exact ⟨⟨a1, a2, a3, a4, a5, a6⟩, h2⟩

theorem writeScore_steady (s : State) (i : Nat) (h : s.writeMagic_ = false) :
    writeScore s i = writeRecord s i := by
  simp [writeScore, h]

theorem writeScore_pending (s : State) (i : Nat) (h : s.writeMagic_ = true) :
    writeScore s i = writeRecord (writeFrame s) i := by
  simp [writeScore, h]

theorem writeScore_same (s : State) (i : Nat) : SameObject s (writeScore s i) := by
  cases h : s.writeMagic_
  · rw [writeScore_steady s i h]; exact writeRecord_same s i
  · rw [writeScore_pending s i h]
    exact sameObject_trans (writeFrame_same s).1 (writeRecord_same _ i)

theorem writeScore_writeMagic (s : State) (i : Nat) : (writeScore s i).writeMagic_ = false := by
  cases h : s.writeMagic_
  · rw [writeScore_steady s i h, writeRecord_writeMagic]; exact h
  · rw [writeScore_pending s i h, writeRecord_writeMagic]
    exact (writeFrame_same s).2

/-! ## `insert` on the table -/

theorem insert_checkOnly (s : State) (v : Nat) (entered : Name) :
    insert s v true entered = (isBestScore s ((v <<< 4) % ULONG), s) := by
  simp [insert]

theorem insert_rejected (s : State) (v : Nat) (entered : Name)
    (h : isBestScore s ((v <<< 4) % ULONG) = false) :
    insert s v false entered = (false, s) := by
  simp [insert, h]

theorem insert_accepted_eq (s : State) (v : Nat) (entered : Name)
    (h : isBestScore s ((v <<< 4) % ULONG) = true) :
    insert s v false entered =
      (true, if s.validMagicNumber_ then
          writeScore (enterName (placed s v) (evicted s v) entered) (evicted s v)
        else placed s v) := by
  unfold insert
  simp only [h, Bool.false_eq_true, if_false, Bool.not_true]
  rfl

/-- The table after an accepted `insert`, as seen through the returned state: the
evicted slot holds the new key, with the entered name when the region is owned;
all other slots are as before. -/
theorem insert_accepted (s : State) (v : Nat) (entered : Name)
    (h : isBestScore s ((v <<< 4) % ULONG) = true) :
    (insert s v false entered).1 = true ∧
    (insert s v false entered).2.scores =
      setScore s.scores (evicted s v)
        ⟨newKey s v, if s.validMagicNumber_ then entered else (s.scores (evicted s v)).name⟩ ∧
    (insert s v false entered).2.number_ = s.number_ ∧
    (insert s v false entered).2.address_ = s.address_ ∧
    (insert s v false entered).2.magic_ = s.magic_ ∧
    (insert s v false entered).2.validMagicNumber_ = s.validMagicNumber_ := by
  rw [insert_accepted_eq s v entered h]
  by_cases hv : s.validMagicNumber_ = true
  · simp only [hv, if_true]
    obtain ⟨a1, a2, a3, a4, a5, _⟩ :=
      writeScore_same (enterName (placed s v) (evicted s v) entered) (evicted s v)
    refine ⟨trivial, ?_, a1, a2, a3, ?_⟩
    · rw [a4]
      funext k
      simp only [enterName, setScore, placed]
      by_cases hk : k = evicted s v <;> simp [hk]
    · rw [a5]; exact hv
  · have hf : s.validMagicNumber_ = false := by simpa using hv
    simp only [hf]
    refine ⟨trivial, ?_, rfl, rfl, rfl, ?_⟩
    · simp [placed]
    · simp [placed, hf]

/-! ## The key of an accepted insert -/

theorem scan_same (s : State) (cand : Nat) :
    (scan s cand).same = sameCount s.scores cand s.number_ := by
  have hs := scan_fold_same s.scores cand s.number_ ⟨cand, 0, 0⟩
  unfold scan
  simpa using hs

theorem cand_facts (v : Nat) :
    (v <<< 4) % ULONG = (v % 268435456) * 16 := by
  rw [shl4]; unfold ULONG; omega

theorem cand_small (v : Nat) (hv : v < 268435456) : (v <<< 4) % ULONG = v <<< 4 := by
  rw [shl4]; unfold ULONG; omega

/-- With at most 15 slots the subtraction at line 232 does not borrow: the new key
is the candidate plus `15 - same`. -/
theorem newKey_eq (s : State) (v : Nat) (hN : s.number_ ≤ 15) :
    newKey s v = (v <<< 4) % ULONG + 0xf - sameCount s.scores ((v <<< 4) % ULONG) s.number_ := by
  unfold newKey
  rw [scan_same]
  have h1 := sameCount_le s.scores ((v <<< 4) % ULONG) s.number_
  have h2 := cand_facts v
  generalize sameCount s.scores ((v <<< 4) % ULONG) s.number_ = c at h1 ⊢
  generalize (v <<< 4) % ULONG = cand at h2 ⊢
  unfold ULONG
  omega

theorem newKey_score (s : State) (v : Nat) (hN : s.number_ ≤ 15) :
    scoreOf (newKey s v) = v % 268435456 ∧
    newKey s v % 16 = 15 - sameCount s.scores ((v <<< 4) % ULONG) s.number_ ∧
    (v <<< 4) % ULONG ≤ newKey s v ∧ newKey s v < ULONG := by
  rw [newKey_eq s v hN]
  have h1 := sameCount_le s.scores ((v <<< 4) % ULONG) s.number_
  have h2 := cand_facts v
  generalize sameCount s.scores ((v <<< 4) % ULONG) s.number_ = c at h1 ⊢
  generalize (v <<< 4) % ULONG = cand at h2 ⊢
  unfold scoreOf ULONG
  rw [shr4]
  omega

theorem and_f (v : Nat) : v &&& 0xf = v % 16 := by
  have := Nat.and_pow_two_sub_one_eq_mod v 4
  simpa using this

/-! ## The scan looks at rank keys only -/

theorem scanStep_congr (sc tc : Nat → DeuligneHiScore)
    (hv : ∀ i, (sc i).value = (tc i).value) (c : Nat) :
    scanStep sc c = scanStep tc c := by
  funext st i
  simp only [scanStep, hv]

theorem scan_congr (s t : State) (c : Nat) (hn : s.number_ = t.number_)
    (hv : ∀ i, (s.scores i).value = (t.scores i).value) : scan s c = scan t c := by
  unfold scan
  rw [hn, scanStep_congr s.scores t.scores hv]

theorem isBestScore_congr (s t : State) (c : Nat) (hn : s.number_ = t.number_)
    (hv : ∀ i, (s.scores i).value = (t.scores i).value) :
    isBestScore s c = isBestScore t c := by
  unfold isBestScore
  rw [hn]
  simp only [hv]

theorem evicted_congr (s t : State) (v : Nat) (hn : s.number_ = t.number_)
    (hv : ∀ i, (s.scores i).value = (t.scores i).value) : evicted s v = evicted t v := by
  unfold evicted
  rw [scan_congr s t _ hn hv]

theorem newKey_congr (s t : State) (v : Nat) (hn : s.number_ = t.number_)
    (hv : ∀ i, (s.scores i).value = (t.scores i).value) : newKey s v = newKey t v := by
  unfold newKey
  rw [scan_congr s t _ hn hv]

/-! ## Claims on `insert` -/

/-- C6: a check-only insert returns the top-score flag and leaves the whole state
(table and store) as it was; the real insert on the same state returns the same
flag; with at most 5 slots the real insert changes the score `value >> 4` of some
entry exactly when the flag is true; and the flag is true exactly when some entry
has a rank key below the shifted score (the 32-bit `value << 4`). -/
theorem C6_check_only_agrees_with_insert (s : State) (v : Nat) (entered : Name)
    (hN : s.number_ ≤ 5) :
    insert s v true entered = (isBestScore s ((v <<< 4) % ULONG), s) ∧
    (insert s v false entered).1 = isBestScore s ((v <<< 4) % ULONG) ∧
    ((∃ i, i < s.number_ ∧
        ((insert s v false entered).2.scores i).value >>> 4 ≠ (s.scores i).value >>> 4) ↔
      isBestScore s ((v <<< 4) % ULONG) = true) ∧
    (isBestScore s ((v <<< 4) % ULONG) = true ↔
      ∃ i, i < s.number_ ∧ (s.scores i).value < (v <<< 4) % ULONG) := by
  refine ⟨insert_checkOnly s v entered, ?_, ?_, isBestScore_iff s _⟩
  · cases h : isBestScore s ((v <<< 4) % ULONG)
    · rw [insert_rejected s v entered h]
    · exact (insert_accepted s v entered h).1
  · constructor
    · rintro ⟨i, _, hne⟩
      cases h : isBestScore s ((v <<< 4) % ULONG)
      · rw [insert_rejected s v entered h] at hne
        exact absurd rfl hne
      · rfl
    · intro h
      obtain ⟨_, hsc, _⟩ := insert_accepted s v entered h
      obtain ⟨hk, hlt, _⟩ := scan_spec s _ ((isBestScore_iff s _).mp h)
      refine ⟨evicted s v, hk, ?_⟩
      rw [hsc]
      simp only [setScore, if_true]
      have h1 := newKey_score s v (by omega)
      have h2 := cand_facts v
      change (s.scores (evicted s v)).value < (v <<< 4) % ULONG at hlt
      unfold scoreOf at h1
      rw [shr4] at h1
      rw [shr4, shr4]
      omega

/-- C7: with 1 to 5 slots, a score below `2^28` and some rank key below the shifted
score, `insert` is accepted and overwrites the slot `k` that holds the minimum
rank key (the first such slot): its new key is `(v << 4) + 0x0F - same` where
`same` counts the entries whose key with the low 4 bits cleared is `v << 4`; the
new key differs from the old one, `same ≤ 15`, the new key has score `v` and low
bits `15 - same`; any other slot keeps its key and its name. -/
theorem C7_accepted_insert_postcondition (s : State) (v : Nat) (entered : Name)
    (hN1 : 1 ≤ s.number_) (hN5 : s.number_ ≤ 5) (hv : v < 2 ^ 28)
    (hlow : ∃ i, i < s.number_ ∧ (s.scores i).value < v <<< 4) :
    ∃ k, k < s.number_ ∧
      (∀ j, j < s.number_ → (s.scores k).value ≤ (s.scores j).value) ∧
      (∀ j, j < k → (s.scores k).value < (s.scores j).value) ∧
      (insert s v false entered).1 = true ∧
      ((insert s v false entered).2.scores k).value =
        (v <<< 4) + 0x0F - sameCount s.scores (v <<< 4) s.number_ ∧
      ((insert s v false entered).2.scores k).value ≠ (s.scores k).value ∧
      sameCount s.scores (v <<< 4) s.number_ ≤ 15 ∧
      ((insert s v false entered).2.scores k).value >>> 4 = v ∧
      ((insert s v false entered).2.scores k).value &&& 0xf =
        15 - sameCount s.scores (v <<< 4) s.number_ ∧
      ∀ j, j ≠ k → (insert s v false entered).2.scores j = s.scores j := by
  have hv' : v < 268435456 := by simpa using hv
  have hc := cand_small v hv'
  rw [← hc] at hlow ⊢
  have hb := (isBestScore_iff s _).mpr hlow
  obtain ⟨h1, hsc, _⟩ := insert_accepted s v entered hb
  obtain ⟨hk, hlt, hmin, hfirst, _⟩ := scan_spec s _ hlow
  have hkey := newKey_eq s v (by omega)
  have hks := newKey_score s v (by omega)
  have hle := sameCount_le s.scores ((v <<< 4) % ULONG) s.number_
  refine ⟨evicted s v, hk, hmin, hfirst, h1, ?_, ?_, by omega, ?_, ?_, ?_⟩
  · rw [hsc]; simp only [setScore, if_true]; exact hkey
  · rw [hsc]; simp only [setScore, if_true]
    change (s.scores (evicted s v)).value < (v <<< 4) % ULONG at hlt
    omega
  · rw [hsc]; simp only [setScore, if_true]
    have := hks.1
    unfold scoreOf at this
    rw [this]; omega
  · rw [hsc]; simp only [setScore, if_true]
    rw [and_f]; exact hks.2.1
  · intro j hj
    rw [hsc]; simp [setScore, hj]

/-- C6 at the example table: score 90 is a top score, and both forms of `insert` say so. -/
theorem C6_check_only_agrees_with_insert_witness :
    exampleState.number_ ≤ 5 ∧
    (insert exampleState 90 true nameAAA).1 = true ∧
    (insert exampleState 90 false nameAAA).1 = isBestScore exampleState ((90 <<< 4) % ULONG) ∧
    ((∃ i, i < exampleState.number_ ∧
        ((insert exampleState 90 false nameAAA).2.scores i).value >>> 4 ≠
          (exampleState.scores i).value >>> 4) ↔
      isBestScore exampleState ((90 <<< 4) % ULONG) = true) :=
  ⟨by decide, by decide,
    (C6_check_only_agrees_with_insert exampleState 90 nameAAA (by decide)).2.1,
    (C6_check_only_agrees_with_insert exampleState 90 nameAAA (by decide)).2.2.1⟩

/-- C7 at the example table: `insert(90)` observes `same = 1` and sets the slot
that held 60 (index 4) to `(90 << 4) + 15 - 1 = 1454`. -/
theorem C7_accepted_insert_postcondition_witness :
    (1 ≤ exampleState.number_ ∧ exampleState.number_ ≤ 5 ∧ 90 < 2 ^ 28 ∧
      ∃ i, i < exampleState.number_ ∧ (exampleState.scores i).value < 90 <<< 4) ∧
    sameCount exampleState.scores (90 <<< 4) exampleState.number_ = 1 ∧
    (exampleState.scores 4).value >>> 4 = 60 ∧
    ((insert exampleState 90 false nameAAA).2.scores 4).value = 1454 ∧
    ∃ k, k < exampleState.number_ ∧
      (∀ j, j < exampleState.number_ →
        (exampleState.scores k).value ≤ (exampleState.scores j).value) ∧
      (∀ j, j < k → (exampleState.scores k).value < (exampleState.scores j).value) ∧
      (insert exampleState 90 false nameAAA).1 = true ∧
      ((insert exampleState 90 false nameAAA).2.scores k).value =
        (90 <<< 4) + 0x0F - sameCount exampleState.scores (90 <<< 4) exampleState.number_ ∧
      ((insert exampleState 90 false nameAAA).2.scores k).value ≠ (exampleState.scores k).value ∧
      sameCount exampleState.scores (90 <<< 4) exampleState.number_ ≤ 15 ∧
      ((insert exampleState 90 false nameAAA).2.scores k).value >>> 4 = 90 ∧
      ((insert exampleState 90 false nameAAA).2.scores k).value &&& 0xf =
        15 - sameCount exampleState.scores (90 <<< 4) exampleState.number_ ∧
      ∀ j, j ≠ k → (insert exampleState 90 false nameAAA).2.scores j = exampleState.scores j :=
  ⟨⟨by decide, by decide, by decide, ⟨2, by decide, by decide⟩⟩, by decide, by decide, by decide,
    C7_accepted_insert_postcondition exampleState 90 nameAAA (by decide) (by decide) (by decide)
      ⟨2, by decide, by decide⟩⟩

/-- C8 as stated fails: on the example table the second `insert(90)` is not rejected. -/
theorem C8_second_insert_not_rejected :
    ¬ ((insert (insert exampleState 90 false nameAAA).2 90 false nameAAA).1 = false ∧
        ∀ i, i < 5 →
          (insert (insert exampleState 90 false nameAAA).2 90 false nameAAA).2.scores i =
            (insert exampleState 90 false nameAAA).2.scores i) := by
  intro h
  exact absurd h.1 (by decide)

/-- C8 amended: on the example table, whatever names are entered, the first
`insert(90)` is accepted and so is the second: it returns true, gives the slot that
held score 70 (index 3) the key `(90 << 4) + 15 - 2 = 1453` and leaves the other
four entries as the first insert left them. -/
theorem C8_second_insert_accepted (n1 n2 : Name) :
    (insert exampleState 90 false n1).1 = true ∧
    (insert (insert exampleState 90 false n1).2 90 false n2).1 = true ∧
    ((insert exampleState 90 false n1).2.scores 3).value >>> 4 = 70 ∧
    ((insert (insert exampleState 90 false n1).2 90 false n2).2.scores 3).value = 1453 ∧
    ∀ i, i ≠ 3 →
      (insert (insert exampleState 90 false n1).2 90 false n2).2.scores i =
        (insert exampleState 90 false n1).2.scores i := by
  have hb1 : isBestScore exampleState ((90 <<< 4) % ULONG) = true := by decide
  obtain ⟨r1, sc1, nb1, _, _, _⟩ := insert_accepted exampleState 90 n1 hb1
  have e1 : evicted exampleState 90 = 4 := by decide
  have k1 : newKey exampleState 90 = 1454 := by decide
  rw [e1, k1] at sc1
  have hn : (insert exampleState 90 false n1).2.number_ = afterFirst.number_ := nb1
  have hv : ∀ i, ((insert exampleState 90 false n1).2.scores i).value =
      (afterFirst.scores i).value := by
    intro i
    rw [sc1]
    simp only [setScore, afterFirst, exampleState, exampleTable, tableOf]
    by_cases h4 : i = 4
    · subst h4; rfl
    · simp only [if_neg h4]
      rcases i with _ | _ | _ | _ | _ | i <;> first | rfl | exact absurd rfl h4
  have hb2 : isBestScore (insert exampleState 90 false n1).2 ((90 <<< 4) % ULONG) = true := by
    rw [isBestScore_congr _ afterFirst _ hn hv]; decide
  obtain ⟨r2, sc2, _⟩ := insert_accepted (insert exampleState 90 false n1).2 90 n2 hb2
  have e2 : evicted (insert exampleState 90 false n1).2 90 = 3 := by
    rw [evicted_congr _ afterFirst _ hn hv]; decide
  have k2 : newKey (insert exampleState 90 false n1).2 90 = 1453 := by
    rw [newKey_congr _ afterFirst _ hn hv]; decide
  rw [e2, k2] at sc2
  refine ⟨r1, r2, ?_, ?_, ?_⟩
  · rw [hv 3]; decide
  · rw [sc2]; simp [setScore]
  · intro i hi
    rw [sc2]; simp [setScore, hi]

/-! ## The bytes of a record and the writes of `writeRecord` -/

theorem writeRecord_writes (s : State) (i : Nat) :
    (writeRecord s i).EEPROM.writes = s.EEPROM.writes ++ recordWrites s i := by
  have h0 : ((s.address_ + 2 + i * 7) % UINT + 0) % UINT = (s.address_ + 2 + 7 * i + 0) % UINT := by
    unfold UINT; omega
  have h1 : ((s.address_ + 2 + i * 7) % UINT + 1) % UINT = (s.address_ + 2 + 7 * i + 1) % UINT := by
    unfold UINT; omega
  have h2 : ((s.address_ + 2 + i * 7) % UINT + 2) % UINT = (s.address_ + 2 + 7 * i + 2) % UINT := by
    unfold UINT; omega
  have h3 : ((s.address_ + 2 + i * 7) % UINT + 3) % UINT = (s.address_ + 2 + 7 * i + 3) % UINT := by
    unfold UINT; omega
  have h4 : (((s.address_ + 2 + i * 7) % UINT + 4) % UINT + 0) % UINT =
      (s.address_ + 2 + 7 * i + 4) % UINT := by unfold UINT; omega
  have h5 : (((s.address_ + 2 + i * 7) % UINT + 4) % UINT + 1) % UINT =
      (s.address_ + 2 + 7 * i + 5) % UINT := by unfold UINT; omega
  have h6 : (((s.address_ + 2 + i * 7) % UINT + 4) % UINT + 2) % UINT =
      (s.address_ + 2 + 7 * i + 6) % UINT := by unfold UINT; omega
  have d2 : (s.scores i).value / 256 / 256 = (s.scores i).value / 65536 := by omega
  have d3 : (s.scores i).value / 65536 / 256 = (s.scores i).value / 16777216 := by omega
  unfold writeRecord recordWrites recordBytes
  simp only [EEPROMClass.write, h0, h1, h2, h3, h4, h5, h6, and_ff, shr8, Nat.mod_mod, d2, d3,
    Name.get]
  simp [List.range_succ, List.range_zero]

theorem writeRecord_cells (s : State) (i a : Nat) :
    (writeRecord s i).EEPROM.cells a =
      if a = (s.address_ + 2 + 7 * i + 6) % UINT then (s.scores i).name.c2 % 256
      else if a = (s.address_ + 2 + 7 * i + 5) % UINT then (s.scores i).name.c1 % 256
      else if a = (s.address_ + 2 + 7 * i + 4) % UINT then (s.scores i).name.c0 % 256
      else if a = (s.address_ + 2 + 7 * i + 3) % UINT then (s.scores i).value / 16777216 % 256
      else if a = (s.address_ + 2 + 7 * i + 2) % UINT then (s.scores i).value / 65536 % 256
      else if a = (s.address_ + 2 + 7 * i + 1) % UINT then (s.scores i).value / 256 % 256
      else if a = (s.address_ + 2 + 7 * i + 0) % UINT then (s.scores i).value % 256
      else s.EEPROM.cells a := by
  have h0 : ((s.address_ + 2 + i * 7) % UINT + 0) % UINT = (s.address_ + 2 + 7 * i + 0) % UINT := by
    unfold UINT; omega
  have h1 : ((s.address_ + 2 + i * 7) % UINT + 1) % UINT = (s.address_ + 2 + 7 * i + 1) % UINT := by
    unfold UINT; omega
  have h2 : ((s.address_ + 2 + i * 7) % UINT + 2) % UINT = (s.address_ + 2 + 7 * i + 2) % UINT := by
    unfold UINT; omega
  have h3 : ((s.address_ + 2 + i * 7) % UINT + 3) % UINT = (s.address_ + 2 + 7 * i + 3) % UINT := by
    unfold UINT; omega
  have h4 : (((s.address_ + 2 + i * 7) % UINT + 4) % UINT + 0) % UINT =
      (s.address_ + 2 + 7 * i + 4) % UINT := by unfold UINT; omega
  have h5 : (((s.address_ + 2 + i * 7) % UINT + 4) % UINT + 1) % UINT =
      (s.address_ + 2 + 7 * i + 5) % UINT := by unfold UINT; omega
  have h6 : (((s.address_ + 2 + i * 7) % UINT + 4) % UINT + 2) % UINT =
      (s.address_ + 2 + 7 * i + 6) % UINT := by unfold UINT; omega
  have d2 : (s.scores i).value / 256 / 256 = (s.scores i).value / 65536 := by omega
  have d3 : (s.scores i).value / 65536 / 256 = (s.scores i).value / 16777216 := by omega
  unfold writeRecord
  simp only [EEPROMClass.write, h0, h1, h2, h3, h4, h5, h6, and_ff, shr8, Nat.mod_mod, d2, d3,
    Name.get]

/-- A record write leaves every cell other than its 7 addresses as it was. -/
theorem writeRecord_cells_other (s : State) (i a : Nat)
    (h : ∀ j, j < 7 → a ≠ (s.address_ + 2 + 7 * i + j) % UINT) :
    (writeRecord s i).EEPROM.cells a = s.EEPROM.cells a := by
  rw [writeRecord_cells]
  rw [if_neg (h 6 (by omega)), if_neg (h 5 (by omega)), if_neg (h 4 (by omega)),
    if_neg (h 3 (by omega)), if_neg (h 2 (by omega)), if_neg (h 1 (by omega)),
    if_neg (h 0 (by omega))]

/-- After a record write the cell of byte `j` of the record holds that byte. -/
theorem writeRecord_cells_at (s : State) (i j : Nat) (hj : j < 7) :
    (writeRecord s i).EEPROM.cells ((s.address_ + 2 + 7 * i + j) % UINT) =
      (recordBytes (s.scores i)).getD j 0 := by
  rw [writeRecord_cells]
  generalize s.address_ + 2 + 7 * i = b
  have n (x y : Nat) (hx : x < 7) (hy : y < 7) (hxy : x ≠ y) :
      ¬ (b + x) % UINT = (b + y) % UINT := by
    unfold UINT; omega
  unfold recordBytes
  interval_cases j
  · rw [if_neg (n 0 6 (by omega) (by omega) (by omega)),
      if_neg (n 0 5 (by omega) (by omega) (by omega)),
      if_neg (n 0 4 (by omega) (by omega) (by omega)),
      if_neg (n 0 3 (by omega) (by omega) (by omega)),
      if_neg (n 0 2 (by omega) (by omega) (by omega)),
      if_neg (n 0 1 (by omega) (by omega) (by omega)), if_pos rfl]
    simp
  · rw [if_neg (n 1 6 (by omega) (by omega) (by omega)),
      if_neg (n 1 5 (by omega) (by omega) (by omega)),
      if_neg (n 1 4 (by omega) (by omega) (by omega)),
      if_neg (n 1 3 (by omega) (by omega) (by omega)),
      if_neg (n 1 2 (by omega) (by omega) (by omega)), if_pos rfl]
    simp
  · rw [if_neg (n 2 6 (by omega) (by omega) (by omega)),
      if_neg (n 2 5 (by omega) (by omega) (by omega)),
      if_neg (n 2 4 (by omega) (by omega) (by omega)),
      if_neg (n 2 3 (by omega) (by omega) (by omega)), if_pos rfl]
    simp
  · rw [if_neg (n 3 6 (by omega) (by omega) (by omega)),
      if_neg (n 3 5 (by omega) (by omega) (by omega)),
      if_neg (n 3 4 (by omega) (by omega) (by omega)), if_pos rfl]
    simp
  · rw [if_neg (n 4 6 (by omega) (by omega) (by omega)),
      if_neg (n 4 5 (by omega) (by omega) (by omega)), if_pos rfl]
    simp
  · rw [if_neg (n 5 6 (by omega) (by omega) (by omega)), if_pos rfl]
    simp
  · rw [if_pos rfl]
    simp

/-- C9: for any number of slots, with the region owned and no framing pending, an accepted insert issues
exactly 7 store writes, in order to the addresses `address_ + 2 + 7k + j`, `j < 7`
(in `unsigned int` arithmetic), where `k` is the evicted slot, the first slot that
holds the minimum key; they carry the 7 bytes of the new record; every other cell
of the store is unchanged. A rejected insert and a check-only insert leave the
store, cells and write log, exactly as it was. -/
theorem C9_steady_insert_writes_seven_bytes (s : State) (v : Nat) (entered : Name)
    (hvalid : s.validMagicNumber_ = true) (hwm : s.writeMagic_ = false) :
    (isBestScore s ((v <<< 4) % ULONG) = true →
      ∃ k, k < s.number_ ∧
        (∀ j, j < s.number_ → (s.scores k).value ≤ (s.scores j).value) ∧
        (∀ j, j < k → (s.scores k).value < (s.scores j).value) ∧
        (insert s v false entered).2.EEPROM.writes =
          s.EEPROM.writes ++ (List.range 7).map (fun j =>
            ((s.address_ + 2 + 7 * k + j) % UINT,
              (recordBytes ((insert s v false entered).2.scores k)).getD j 0)) ∧
        (insert s v false entered).2.EEPROM.writes.length = s.EEPROM.writes.length + 7 ∧
        ∀ a, (∀ j, j < 7 → a ≠ (s.address_ + 2 + 7 * k + j) % UINT) →
          (insert s v false entered).2.EEPROM.cells a = s.EEPROM.cells a) ∧
    (isBestScore s ((v <<< 4) % ULONG) = false →
      (insert s v false entered).1 = false ∧
      (insert s v false entered).2.EEPROM = s.EEPROM) ∧
    (insert s v true entered).2.EEPROM = s.EEPROM := by
  refine ⟨?_, ?_, ?_⟩
  · intro hb
    obtain ⟨hk, _, hmin, hfirst, _⟩ := scan_spec s _ ((isBestScore_iff s _).mp hb)
    have heq := insert_accepted_eq s v entered hb
    rw [hvalid] at heq
    simp only [if_true] at heq
    have hwm' : (enterName (placed s v) (evicted s v) entered).writeMagic_ = false := hwm
    rw [writeScore_steady _ _ hwm'] at heq
    have hw := writeRecord_writes (enterName (placed s v) (evicted s v) entered) (evicted s v)
    have hst : (insert s v false entered).2 =
        writeRecord (enterName (placed s v) (evicted s v) entered) (evicted s v) := by
      rw [heq]
    refine ⟨evicted s v, hk, hmin, hfirst, ?_, ?_, ?_⟩
    · rw [hst, hw]; rfl
    · rw [hst, hw]; simp [recordWrites]; rfl
    · intro a ha
      rw [hst]
      exact writeRecord_cells_other _ _ a ha
  · intro hb
    rw [insert_rejected s v entered hb]
    exact ⟨rfl, rfl⟩
  · rw [insert_checkOnly]

/-- C9 at the example table: `insert(90)` evicts slot 4 and writes the 7 cells 30..36. -/
theorem C9_steady_insert_writes_seven_bytes_witness :
    (exampleState.validMagicNumber_ = true ∧ exampleState.writeMagic_ = false) ∧
    isBestScore exampleState ((90 <<< 4) % ULONG) = true ∧
    (insert exampleState 90 false ⟨66, 79, 66⟩).2.EEPROM.writes =
      [(30, 174), (31, 5), (32, 0), (33, 0), (34, 66), (35, 79), (36, 66)] ∧
    (insert exampleState 90 true nameAAA).2.EEPROM = exampleState.EEPROM :=
  ⟨⟨by decide, by decide⟩, by decide, by decide,
    (C9_steady_insert_writes_seven_bytes exampleState 90 nameAAA (by decide) (by decide)).2.2⟩

/-! ## A refused overwrite does not stop `reset` -/

/-- C1 fails on the code: one slot at address 0 over a store of zero bytes (foreign
data), the user answers No, so `validMagicNumber_` is false; `reset()` then issues
18 store writes (framing, the record, the record again) and cell 0 changes from
0 to the high magic byte. -/
theorem C1_reset_writes_after_refusal :
    (begin (fresh (constStore 0)) 1 0 0xC15E false).validMagicNumber_ = false ∧
    (begin (fresh (constStore 0)) 1 0 0xC15E false).confirms = 1 ∧
    (begin (fresh (constStore 0)) 1 0 0xC15E false).EEPROM.writes = [] ∧
    (begin (fresh (constStore 0)) 1 0 0xC15E false).EEPROM.cells 0 = 0 ∧
    (reset (begin (fresh (constStore 0)) 1 0 0xC15E false)).EEPROM.writes.length = 18 ∧
    (reset (begin (fresh (constStore 0)) 1 0 0xC15E false)).EEPROM.cells 0 = 0xC1 := by
  decide

/-! ## `begin` -/

theorem readScoreStep_snd (e : EEPROMClass) (st : (Nat → DeuligneHiScore) × Nat) (i : Nat) :
    (readScoreStep e st i).2 = (st.2 + 7) % UINT := by
  unfold readScoreStep UINT
  simp only
  omega

theorem readScores_snd (e : EEPROMClass) (sc : Nat → DeuligneHiScore) (n a : Nat)
    (ha : a < UINT) : (readScores e sc n a).2 = (a + 7 * n) % UINT := by
  unfold readScores
  induction n with
  | zero => simp [Nat.mod_eq_of_lt ha]
  | succ n ih =>
    rw [List.range_succ, List.foldl_append]
    simp only [List.foldl_cons, List.foldl_nil]
    rw [readScoreStep_snd, ih]
    unfold UINT
    omega

/-- The store is only read by `begin`. -/
theorem begin_EEPROM (s : State) (number address magic : Nat) (overwrite : Bool) :
    (begin s number address magic overwrite).EEPROM = s.EEPROM := by
  unfold begin confirmOverwrite
  simp only
  split_ifs <;> rfl

/-- C10: with 1 to 5 slots, if the two leading bytes of the region are the high and
the low byte of the magic and one of the two bytes at `address + 2 + 7N`,
`address + 3 + 7N` (addresses in `unsigned int` arithmetic) is not, `begin` runs the
confirmation dialogue once and `validMagicNumber_` ends up equal to the answer:
true only after a Yes. -/
theorem C10_torn_region_asks_for_confirmation (s : State) (N A M : Nat) (overwrite : Bool)
    (hN1 : 1 ≤ N) (hN5 : N ≤ 5)
    (hlead0 : s.EEPROM.read A = highByte M)
    (hlead1 : s.EEPROM.read ((A + 1) % UINT) = lowByte M)
    (htrail : s.EEPROM.read ((A + 2 + 7 * N) % UINT) ≠ highByte M ∨
      s.EEPROM.read ((A + 3 + 7 * N) % UINT) ≠ lowByte M) :
    (begin s N A M overwrite).confirms = s.confirms + 1 ∧
    (begin s N A M overwrite).validMagicNumber_ = overwrite := by
  have h5 : ¬ N > 5 := by omega
  have h1 : ¬ N < 1 := by omega
  have ha : ((A + 1) % UINT + 1) % UINT < UINT := Nat.mod_lt _ (by unfold UINT; omega)
  have e2 : (((A + 1) % UINT + 1) % UINT + 7 * N) % UINT = (A + 2 + 7 * N) % UINT := by
    unfold UINT; omega
  have e3 : ((A + 2 + 7 * N) % UINT + 1) % UINT = (A + 3 + 7 * N) % UINT := by
    unfold UINT; omega
  unfold begin
  simp only [h5, h1, if_false, hlead0, hlead1, and_self, if_true]
  rw [readScores_snd _ _ _ _ ha, e2, e3]
  have hd : decide (s.EEPROM.read ((A + 2 + 7 * N) % UINT) = highByte M ∧
      s.EEPROM.read ((A + 3 + 7 * N) % UINT) = lowByte M) = false := by
    rw [decide_eq_false_iff_not]
    rintro ⟨x, y⟩
    rcases htrail with h | h
    · exact h x
    · exact h y
  simp only [hd]
  simp [confirmOverwrite]

/-- C10 on `tornStore`: the dialogue is run and a No leaves `validMagicNumber_` false. -/
theorem C10_torn_region_asks_for_confirmation_witness :
    (1 ≤ 1 ∧ 1 ≤ 5 ∧ (fresh tornStore).EEPROM.read 0 = highByte 0xC15E ∧
      (fresh tornStore).EEPROM.read ((0 + 1) % UINT) = lowByte 0xC15E ∧
      ((fresh tornStore).EEPROM.read ((0 + 2 + 7 * 1) % UINT) ≠ highByte 0xC15E ∨
        (fresh tornStore).EEPROM.read ((0 + 3 + 7 * 1) % UINT) ≠ lowByte 0xC15E)) ∧
    (begin (fresh tornStore) 1 0 0xC15E false).confirms = (fresh tornStore).confirms + 1 ∧
    (begin (fresh tornStore) 1 0 0xC15E false).validMagicNumber_ = false :=
  ⟨⟨by decide, by decide, by decide, by decide, by decide⟩,
    C10_torn_region_asks_for_confirmation (fresh tornStore) 1 0 0xC15E false
      (by decide) (by decide) (by decide) (by decide) (by decide)⟩

/-! ## Every write lands in the region -/

theorem framed_refl (A N : Nat) (e : EEPROMClass) : Framed A N e e :=
  ⟨⟨[], by simp, by simp⟩, fun _ _ => rfl⟩

theorem framed_trans {A N : Nat} {e1 e2 e3 : EEPROMClass}
    (h12 : Framed A N e1 e2) (h23 : Framed A N e2 e3) : Framed A N e1 e3 := by
  obtain ⟨⟨l1, w1, r1⟩, c1⟩ := h12
  obtain ⟨⟨l2, w2, r2⟩, c2⟩ := h23
  refine ⟨⟨l1 ++ l2, by rw [w2, w1, List.append_assoc], ?_⟩, ?_⟩
  · intro w hw
    rcases List.mem_append.mp hw with h | h
    · exact r1 w h
    · exact r2 w h
  · intro a ha
    rw [c2 a ha, c1 a ha]

theorem framed_write (A N : Nat) (e : EEPROMClass) (a v : Nat)
    (h : A ≤ a ∧ a < A + 4 + 7 * N) : Framed A N e (e.write a v) := by
  refine ⟨⟨[(a, v % 256)], rfl, ?_⟩, ?_⟩
  · intro w hw
    rw [List.mem_singleton] at hw
    subst hw
    exact h
  · intro b hb
    have : b ≠ a := by rintro rfl; exact hb h
    simp [EEPROMClass.write, this]

theorem writeRecord_framed (s : State) (i N : Nat) (hi : i < N)
    (hA : s.address_ + 4 + 7 * N ≤ UINT) :
    Framed s.address_ N s.EEPROM (writeRecord s i).EEPROM := by
  refine ⟨⟨recordWrites s i, writeRecord_writes s i, ?_⟩, ?_⟩
  · intro w hw
    unfold recordWrites at hw
    rw [List.mem_map] at hw
    obtain ⟨j, hj, rfl⟩ := hw
    rw [List.mem_range] at hj
    simp only
    unfold UINT at hA ⊢
    omega
  · intro a ha
    apply writeRecord_cells_other
    intro j hj
    unfold UINT at hA ⊢
    omega

theorem foldl_writeRecord_framed (l : List Nat) (s : State) (N : Nat)
    (hl : ∀ i, i ∈ l → i < N) (hA : s.address_ + 4 + 7 * N ≤ UINT) :
    Framed s.address_ N s.EEPROM (l.foldl writeRecord s).EEPROM := by
  induction l generalizing s with
  | nil => exact framed_refl _ _ _
  | cons i l ih =>
    simp only [List.foldl_cons]
    have h1 := writeRecord_framed s i N (hl i (List.mem_cons_self _ _)) hA
    have h2 := ih (writeRecord s i) (fun k hk => hl k (List.mem_cons_of_mem _ hk)) hA
    exact framed_trans h1 h2

theorem writeFrame_framed (s : State) (hA : s.address_ + 4 + 7 * s.number_ ≤ UINT) :
    Framed s.address_ s.number_ s.EEPROM (writeFrame s).EEPROM := by
  rw [writeFrame_EEPROM]
  have f1 := framed_write s.address_ s.number_ s.EEPROM s.address_ (highByte s.magic_)
    (by omega)
  have f2 := framed_write s.address_ s.number_ (s.EEPROM.write s.address_ (highByte s.magic_))
    ((s.address_ + 1) % UINT) (lowByte s.magic_) (by unfold UINT at hA ⊢; omega)
  have f3 : Framed s.address_ s.number_ (frameHead s).EEPROM (frameBody s).EEPROM :=
    foldl_writeRecord_framed (List.range s.number_) (frameHead s) s.number_
      (fun k hk => List.mem_range.mp hk) hA
  refine framed_trans (framed_trans (framed_trans f1 f2) f3) ?_
  refine framed_trans (framed_write _ _ _ _ _ ?_) (framed_write _ _ _ _ _ ?_)
  · unfold UINT at hA ⊢; omega
  · unfold UINT at hA ⊢; omega

theorem writeScore_framed (s : State) (i : Nat) (hi : i < s.number_)
    (hA : s.address_ + 4 + 7 * s.number_ ≤ UINT) :
    Framed s.address_ s.number_ s.EEPROM (writeScore s i).EEPROM := by
  cases h : s.writeMagic_
  · rw [writeScore_steady s i h]
    exact writeRecord_framed s i s.number_ hi hA
  · rw [writeScore_pending s i h]
    obtain ⟨⟨a1, a2, _⟩, _⟩ := writeFrame_same s
    have h2 := writeRecord_framed (writeFrame s) i s.number_ hi (by rw [a2]; exact hA)
    rw [a2] at h2
    exact framed_trans (writeFrame_framed s hA) h2

theorem insert_framed (s : State) (v : Nat) (checkOnly : Bool) (entered : Name)
    (hA : s.address_ + 4 + 7 * s.number_ ≤ UINT) :
    Framed s.address_ s.number_ s.EEPROM (insert s v checkOnly entered).2.EEPROM ∧
    (insert s v checkOnly entered).2.number_ = s.number_ ∧
    (insert s v checkOnly entered).2.address_ = s.address_ := by
  cases checkOnly
  · cases hb : isBestScore s ((v <<< 4) % ULONG)
    · rw [insert_rejected s v entered hb]
      exact ⟨framed_refl _ _ _, rfl, rfl⟩
    · obtain ⟨_, _, hn, ha, _⟩ := insert_accepted s v entered hb
      refine ⟨?_, hn, ha⟩
      rw [insert_accepted_eq s v entered hb]
      cases hv : s.validMagicNumber_
      · exact framed_refl _ _ _
      · obtain ⟨hk, _⟩ := scan_spec s _ ((isBestScore_iff s _).mp hb)
        exact writeScore_framed (enterName (placed s v) (evicted s v) entered) (evicted s v) hk hA
  · rw [insert_checkOnly]
    exact ⟨framed_refl _ _ _, rfl, rfl⟩

theorem reset_fold_framed (l : List Nat) (s : State) (hl : ∀ i, i ∈ l → i < s.number_)
    (hA : s.address_ + 4 + 7 * s.number_ ≤ UINT) :
    Framed s.address_ s.number_ s.EEPROM
      (l.foldl (fun s i => writeScore { s with scores := setScore s.scores i ⟨0x0f - i, nameAAA⟩ } i)
        s).EEPROM ∧
    (l.foldl (fun s i => writeScore { s with scores := setScore s.scores i ⟨0x0f - i, nameAAA⟩ } i)
        s).number_ = s.number_ ∧
    (l.foldl (fun s i => writeScore { s with scores := setScore s.scores i ⟨0x0f - i, nameAAA⟩ } i)
        s).address_ = s.address_ := by
  induction l generalizing s with
  | nil => exact ⟨framed_refl _ _ _, rfl, rfl⟩
  | cons i l ih =>
    simp only [List.foldl_cons]
    have hi := hl i (List.mem_cons_self _ _)
    have f1 := writeScore_framed { s with scores := setScore s.scores i ⟨0x0f - i, nameAAA⟩ } i hi hA
    obtain ⟨a1, a2, _⟩ := writeScore_same { s with scores := setScore s.scores i ⟨0x0f - i, nameAAA⟩ } i
    have a1' : (writeScore { s with scores := setScore s.scores i ⟨0x0f - i, nameAAA⟩ } i).number_ =
        s.number_ := a1
    have a2' : (writeScore { s with scores := setScore s.scores i ⟨0x0f - i, nameAAA⟩ } i).address_ =
        s.address_ := a2
    obtain ⟨g1, g2, g3⟩ := ih (writeScore { s with scores := setScore s.scores i ⟨0x0f - i, nameAAA⟩ } i)
      (fun k hk => by rw [a1']; exact hl k (List.mem_cons_of_mem _ hk))
      (by rw [a1', a2']; exact hA)
    rw [a1', a2'] at g1
    exact ⟨framed_trans f1 g1, g2.trans a1', g3.trans a2'⟩

theorem reset_framed (s : State) (hA : s.address_ + 4 + 7 * s.number_ ≤ UINT) :
    Framed s.address_ s.number_ s.EEPROM (reset s).EEPROM ∧
    (reset s).number_ = s.number_ ∧ (reset s).address_ = s.address_ :=
  reset_fold_framed (List.range s.number_) s (fun _ hk => List.mem_range.mp hk) hA

theorem begin_config (s : State) (N A M : Nat) (overwrite : Bool) (hN1 : 1 ≤ N) (hN5 : N ≤ 5) :
    (begin s N A M overwrite).number_ = N ∧ (begin s N A M overwrite).address_ = A ∧
    (begin s N A M overwrite).magic_ = M := by
  have h5 : ¬ N > 5 := by omega
  have h1 : ¬ N < 1 := by omega
  unfold begin confirmOverwrite
  simp only [h5, h1, if_false]
  split_ifs <;> exact ⟨rfl, rfl, rfl⟩

theorem run_framed (N A M : Nat) (hN1 : 1 ≤ N) (hN5 : N ≤ 5) (hA : A + 4 + 7 * N ≤ UINT)
    (cs : List Call) (s : State) (hn : s.number_ = N) (ha : s.address_ = A) :
    Framed A N s.EEPROM (run N A M s cs).EEPROM := by
  induction cs generalizing s with
  | nil => exact framed_refl _ _ _
  | cons c cs ih =>
    unfold run
    simp only [List.foldl_cons]
    have hstep : Framed A N s.EEPROM (step N A M s c).EEPROM ∧
        (step N A M s c).number_ = N ∧ (step N A M s c).address_ = A := by
      cases c with
      | begin overwrite =>
        obtain ⟨b1, b2, _⟩ := begin_config s N A M overwrite hN1 hN5
        refine ⟨?_, b1, b2⟩
        simp only [step, begin_EEPROM]
        exact framed_refl _ _ _
      | insert value checkOnly entered =>
        obtain ⟨f, b1, b2⟩ := insert_framed s value checkOnly entered (by rw [hn, ha]; exact hA)
        rw [hn, ha] at f
        exact ⟨f, b1.trans hn, b2.trans ha⟩
      | reset =>
        obtain ⟨f, b1, b2⟩ := reset_framed s (by rw [hn, ha]; exact hA)
        rw [hn, ha] at f
        exact ⟨f, b1.trans hn, b2.trans ha⟩
    obtain ⟨f, b1, b2⟩ := hstep
    exact framed_trans f (ih (step N A M s c) b1 b2)

/-- C2: with 1 to 5 slots and a region `[A, A + 4 + 7N)` inside the 16-bit address
range, `begin` on any state leaves the store (cells and write log) as it is, and
after `begin` followed by any sequence of `begin`, `insert` and `reset` calls the
write log is the initial log extended by writes to addresses of the region only,
and every cell outside the region holds what it held initially. -/
theorem C2_writes_stay_inside_region (s0 : State) (N A M : Nat) (overwrite : Bool)
    (cs : List Call) (hN1 : 1 ≤ N) (hN5 : N ≤ 5) (hA : A + 4 + 7 * N ≤ UINT) :
    (∀ (t : State) (ow : Bool), (begin t N A M ow).EEPROM = t.EEPROM) ∧
    (∃ l, (run N A M (begin s0 N A M overwrite) cs).EEPROM.writes = s0.EEPROM.writes ++ l ∧
      ∀ w, w ∈ l → A ≤ w.1 ∧ w.1 < A + 4 + 7 * N) ∧
    ∀ a, ¬ (A ≤ a ∧ a < A + 4 + 7 * N) →
      (run N A M (begin s0 N A M overwrite) cs).EEPROM.cells a = s0.EEPROM.cells a := by
  obtain ⟨b1, b2, _⟩ := begin_config s0 N A M overwrite hN1 hN5
  have f := run_framed N A M hN1 hN5 hA cs (begin s0 N A M overwrite) b1 b2
  rw [begin_EEPROM] at f
  exact ⟨fun t ow => begin_EEPROM t N A M ow, f.1, f.2⟩
/-- C2 on an erased store, two slots at address 10: an insert and a reset issue 39
writes, all inside cells 10..27, and every other cell keeps its content. -/
theorem C2_writes_stay_inside_region_witness :
    (1 ≤ 2 ∧ 2 ≤ 5 ∧ 10 + 4 + 7 * 2 ≤ UINT) ∧
    (run 2 10 0xC15E (begin (fresh (constStore 0xff)) 2 10 0xC15E false)
      [Call.insert 7 false ⟨66, 79, 66⟩, Call.reset]).EEPROM.writes.length = 39 ∧
    ∀ a, ¬ (10 ≤ a ∧ a < 10 + 4 + 7 * 2) →
      (run 2 10 0xC15E (begin (fresh (constStore 0xff)) 2 10 0xC15E false)
        [Call.insert 7 false ⟨66, 79, 66⟩, Call.reset]).EEPROM.cells a =
        (fresh (constStore 0xff)).EEPROM.cells a :=
  ⟨⟨by decide, by decide, by decide⟩, by decide,
    (C2_writes_stay_inside_region (fresh (constStore 0xff)) 2 10 0xC15E false
      [Call.insert 7 false ⟨66, 79, 66⟩, Call.reset] (by decide) (by decide) (by decide)).2.2⟩

/-! ## The region after the first persisted write -/

theorem frameLoop_cells (u : State) (n : Nat) (hA : u.address_ + 2 + 7 * n ≤ UINT) :
    (∀ i j, i < n → j < 7 →
      ((List.range n).foldl writeRecord u).EEPROM.cells (u.address_ + 2 + 7 * i + j) =
        (recordBytes (u.scores i)).getD j 0) ∧
    (∀ a, (a < u.address_ + 2 ∨ u.address_ + 2 + 7 * n ≤ a) →
      ((List.range n).foldl writeRecord u).EEPROM.cells a = u.EEPROM.cells a) := by
  induction n with
  | zero =>
    refine ⟨fun i j hi _ => absurd hi (Nat.not_lt_zero i), fun a _ => rfl⟩
  | succ n ih =>
    obtain ⟨ih1, ih2⟩ := ih (by omega)
    rw [List.range_succ, List.foldl_append]
    simp only [List.foldl_cons, List.foldl_nil]
    obtain ⟨⟨_, a2, _, a4, _, _⟩, _⟩ := foldl_writeRecord_same (List.range n) u
    constructor
    · intro i j hi hj
      rcases Nat.lt_succ_iff_lt_or_eq.mp hi with h | h
      · rw [writeRecord_cells_other, ih1 i j h hj]
        intro k hk
        rw [a2]
        unfold UINT at hA ⊢
        omega
      · subst h
        have := writeRecord_cells_at ((List.range i).foldl writeRecord u) i j hj
        rw [a2, a4] at this
        rw [← this]
        congr 1
        unfold UINT at hA ⊢
        omega
    · intro a ha
      rw [writeRecord_cells_other, ih2 a (by omega)]
      intro k hk
      rw [a2]
      unfold UINT at hA ⊢
      omega

theorem highByte_lt (w : Nat) : highByte w < 256 := Nat.mod_lt _ (by omega)

theorem lowByte_lt (w : Nat) : lowByte w < 256 := Nat.mod_lt _ (by omega)

theorem write_cells (e : EEPROMClass) (a v b : Nat) :
    (e.write a v).cells b = if b = a then v % 256 else e.cells b := rfl

/-- The framing part writes the whole region. -/
theorem writeFrame_region (s : State) (hA : s.address_ + 4 + 7 * s.number_ ≤ UINT) :
    RegionHolds (writeFrame s).EEPROM s.address_ s.number_ s.magic_ s.scores := by
  obtain ⟨l1, l2⟩ := frameLoop_cells (frameHead s) s.number_ (by
    show s.address_ + 2 + 7 * s.number_ ≤ UINT
    omega)
  have l1' : ∀ i j, i < s.number_ → j < 7 →
      (frameBody s).EEPROM.cells (s.address_ + 2 + 7 * i + j) =
        (recordBytes (s.scores i)).getD j 0 := l1
  have l2' : ∀ a, (a < s.address_ + 2 ∨ s.address_ + 2 + 7 * s.number_ ≤ a) →
      (frameBody s).EEPROM.cells a = (frameHead s).EEPROM.cells a := l2
  have m1 : (s.address_ + 1) % UINT = s.address_ + 1 := by unfold UINT at hA ⊢; omega
  have m2 : (s.address_ + 2 + 7 * s.number_) % UINT = s.address_ + 2 + 7 * s.number_ := by
    unfold UINT at hA ⊢; omega
  have m3 : (s.address_ + 3 + 7 * s.number_) % UINT = s.address_ + 3 + 7 * s.number_ := by
    unfold UINT at hA ⊢; omega
  have hh := Nat.mod_eq_of_lt (highByte_lt s.magic_)
  have hl := Nat.mod_eq_of_lt (lowByte_lt s.magic_)
  rw [writeFrame_EEPROM, m2, m3]
  refine ⟨?_, ?_, ?_, ?_, ?_⟩
  · rw [write_cells, if_neg (by omega), write_cells, if_neg (by omega), l2' _ (by omega)]
    simp only [frameHead, m1]
    rw [write_cells, if_neg (by omega), write_cells, if_pos rfl, hh]
  · rw [write_cells, if_neg (by omega), write_cells, if_neg (by omega), l2' _ (by omega)]
    simp only [frameHead, m1]
    rw [write_cells, if_pos rfl, hl]
  · intro i j hi hj
    rw [write_cells, if_neg (by omega), write_cells, if_neg (by omega), l1' i j hi hj]
  · rw [write_cells, if_neg (by omega), write_cells, if_pos rfl, hh]
  · rw [write_cells, if_pos rfl, hl]

/-- Writing a record again into a region that holds the table changes nothing of
what the region holds. -/
theorem writeRecord_region (u : State) (N M k : Nat) (hk : k < N)
    (hA : u.address_ + 4 + 7 * N ≤ UINT)
    (h : RegionHolds u.EEPROM u.address_ N M u.scores) :
    RegionHolds (writeRecord u k).EEPROM u.address_ N M u.scores := by
  obtain ⟨h1, h2, h3, h4, h5⟩ := h
  have other : ∀ a, (a < u.address_ + 2 ∨ u.address_ + 2 + 7 * N ≤ a) →
      (writeRecord u k).EEPROM.cells a = u.EEPROM.cells a := by
    intro a ha
    apply writeRecord_cells_other
    intro j hj
    unfold UINT at hA ⊢
    omega
  refine ⟨?_, ?_, ?_, ?_, ?_⟩
  · rw [other _ (by omega)]; exact h1
  · rw [other _ (by omega)]; exact h2
  · intro i j hi hj
    by_cases hik : i = k
    · subst hik
      have := writeRecord_cells_at u i j hj
      rw [← this]
      congr 1
      unfold UINT at hA ⊢
      omega
    · rw [writeRecord_cells_other, h3 i j hi hj]
      intro j' hj'
      have hm : (u.address_ + 2 + 7 * k + j') % UINT = u.address_ + 2 + 7 * k + j' :=
        Nat.mod_eq_of_lt (by unfold UINT at hA ⊢; omega)
      rw [hm]
      omega
  · rw [other _ (by omega)]; exact h4
  · rw [other _ (by omega)]; exact h5

/-- The first persisted write, made with `writeMagic_` set, leaves the store
holding the framing and all the records of the table. -/
theorem writeScore_pending_region (s : State) (k : Nat) (hk : k < s.number_)
    (hA : s.address_ + 4 + 7 * s.number_ ≤ UINT) (hwm : s.writeMagic_ = true) :
    RegionHolds (writeScore s k).EEPROM s.address_ s.number_ s.magic_ s.scores := by
  rw [writeScore_pending s k hwm]
  obtain ⟨⟨a1, a2, a3, a4, _, _⟩, _⟩ := writeFrame_same s
  have h := writeFrame_region s hA
  rw [← a2, ← a4] at h
  have := writeRecord_region (writeFrame s) s.number_ s.magic_ k hk (by rw [a2]; exact hA) h
  rw [a2, a4] at this
  exact this

/-! ## Loading a region -/

theorem read_lt (e : EEPROMClass) (a : Nat) : e.read a < 256 := Nat.mod_lt _ (by omega)

theorem readValue_eq (e : EEPROMClass) (a : Nat) (h : a + 3 < UINT) :
    readValue e a =
      e.read a + 256 * e.read (a + 1) + 65536 * e.read (a + 2) + 16777216 * e.read (a + 3) := by
  have r4 : List.range 4 = [0, 1, 2, 3] := by decide
  have m0 : (a + 3 - 0) % UINT = a + 3 := Nat.mod_eq_of_lt (by omega)
  have m1 : (a + 3 - 1) % UINT = a + 2 := by
    rw [Nat.mod_eq_of_lt (by omega)]; omega
  have m2 : (a + 3 - 2) % UINT = a + 1 := by
    rw [Nat.mod_eq_of_lt (by omega)]; omega
  have m3 : (a + 3 - 3) % UINT = a := by
    rw [Nat.mod_eq_of_lt (by omega)]; omega
  unfold readValue
  rw [r4]
  simp only [List.foldl_cons, List.foldl_nil, m0, m1, m2, m3, shl8]
  have b0 := read_lt e a
  have b1 := read_lt e (a + 1)
  have b2 := read_lt e (a + 2)
  have b3 := read_lt e (a + 3)
  unfold ULONG
  omega

theorem readScores_fst (e : EEPROMClass) (sc : Nat → DeuligneHiScore) (n a : Nat)
    (ha : a + 7 * n ≤ UINT) :
    (∀ i, i < n → (readScores e sc n a).1 i =
      ⟨readValue e (a + 7 * i),
        ⟨e.read (a + 7 * i + 4), e.read (a + 7 * i + 5), e.read (a + 7 * i + 6)⟩⟩) ∧
    ∀ i, n ≤ i → (readScores e sc n a).1 i = sc i := by
  induction n with
  | zero =>
    exact ⟨fun i hi => absurd hi (Nat.not_lt_zero i), fun i _ => rfl⟩
  | succ n ih =>
    obtain ⟨ih1, ih2⟩ := ih (by omega)
    have hs := readScores_snd e sc n a (by omega)
    have hm : (a + 7 * n) % UINT = a + 7 * n := Nat.mod_eq_of_lt (by omega)
    rw [hm] at hs
    have e1 : readScores e sc (n + 1) a = readScoreStep e (readScores e sc n a) n := by
      unfold readScores
      rw [List.range_succ, List.foldl_append]
      rfl
    rw [e1]
    have a0 : (a + 7 * n + 4) % UINT = a + 7 * n + 4 := Nat.mod_eq_of_lt (by omega)
    have a1 : (a + 7 * n + 4 + 1) % UINT = a + 7 * n + 5 := Nat.mod_eq_of_lt (by omega)
    have a2 : (a + 7 * n + 5 + 1) % UINT = a + 7 * n + 6 := Nat.mod_eq_of_lt (by omega)
    constructor
    · intro i hi
      simp only [readScoreStep, setScore, hs, a0, a1, a2]
      by_cases h : i = n
      · subst h; simp
      · simp only [if_neg h]
        exact ih1 i (by omega)
    · intro i hi
      simp only [readScoreStep, setScore]
      rw [if_neg (by omega)]
      exact ih2 i (by omega)

theorem recordBytes_value (x : DeuligneHiScore) (hv : x.value < ULONG)
    (b0 b1 b2 b3 : Nat)
    (h0 : b0 = (recordBytes x).getD 0 0) (h1 : b1 = (recordBytes x).getD 1 0)
    (h2 : b2 = (recordBytes x).getD 2 0) (h3 : b3 = (recordBytes x).getD 3 0) :
    b0 + 256 * b1 + 65536 * b2 + 16777216 * b3 = x.value := by
  simp [recordBytes] at h0 h1 h2 h3
  unfold ULONG at hv
  omega

/-- On a store whose region holds a framed table, `begin` accepts the region
without a dialogue and loads the table. -/
theorem begin_loads_region (t : State) (N A M : Nat) (overwrite : Bool)
    (sc : Nat → DeuligneHiScore) (hN1 : 1 ≤ N) (hN5 : N ≤ 5) (hA : A + 4 + 7 * N ≤ UINT)
    (h : RegionHolds t.EEPROM A N M sc)
    (hkey : ∀ i, i < N → (sc i).value < ULONG)
    (hname : ∀ i, i < N → (sc i).name.c0 < 256 ∧ (sc i).name.c1 < 256 ∧ (sc i).name.c2 < 256) :
    (begin t N A M overwrite).validMagicNumber_ = true ∧
    (begin t N A M overwrite).writeMagic_ = false ∧
    (begin t N A M overwrite).confirms = t.confirms ∧
    ∀ i, i < N → (begin t N A M overwrite).scores i = sc i := by
  obtain ⟨h1, h2, h3, h4, h5⟩ := h
  have hh := Nat.mod_eq_of_lt (highByte_lt M)
  have hl := Nat.mod_eq_of_lt (lowByte_lt M)
  have n5 : ¬ N > 5 := by omega
  have n1 : ¬ N < 1 := by omega
  have m1 : (A + 1) % UINT = A + 1 := Nat.mod_eq_of_lt (by omega)
  have m2 : (A + 1 + 1) % UINT = A + 2 := Nat.mod_eq_of_lt (by omega)
  have m3 : (A + 2 + 7 * N) % UINT = A + 2 + 7 * N := Nat.mod_eq_of_lt (by omega)
  have m4 : (A + 2 + 7 * N + 1) % UINT = A + 3 + 7 * N := by
    rw [Nat.mod_eq_of_lt (by omega)]; omega
  have r0 : t.EEPROM.read A = highByte M := by unfold EEPROMClass.read; rw [h1, hh]
  have r1 : t.EEPROM.read (A + 1) = lowByte M := by unfold EEPROMClass.read; rw [h2, hl]
  have r2 : t.EEPROM.read (A + 2 + 7 * N) = highByte M := by
    unfold EEPROMClass.read; rw [h4, hh]
  have r3 : t.EEPROM.read (A + 3 + 7 * N) = lowByte M := by
    unfold EEPROMClass.read; rw [h5, hl]
  have hs := readScores_snd t.EEPROM (initScores t.scores N) N (A + 2) (by omega)
  rw [m3] at hs
  obtain ⟨hf, _⟩ := readScores_fst t.EEPROM (initScores t.scores N) N (A + 2) (by omega)
  unfold begin
  simp only [n5, n1, if_false, m1, m2, r0, r1, and_self, if_true, hs, m4, r2, r3, decide_True,
    Bool.not_true, Bool.false_eq_true]
  refine ⟨trivial, trivial, trivial, ?_⟩
  intro i hi
  rw [hf i hi]
  have hb : ∀ j, j < 7 → t.EEPROM.read (A + 2 + 7 * i + j) = (recordBytes (sc i)).getD j 0 := by
    intro j hj
    unfold EEPROMClass.read
    rw [h3 i j hi hj]
    apply Nat.mod_eq_of_lt
    obtain ⟨x0, x1, x2⟩ := hname i hi
    unfold recordBytes
    interval_cases j <;> simp <;> omega
  have hv : readValue t.EEPROM (A + 2 + 7 * i) = (sc i).value := by
    rw [readValue_eq _ _ (by omega)]
    exact recordBytes_value (sc i) (hkey i hi) _ _ _ _ (hb 0 (by omega)) (hb 1 (by omega))
      (hb 2 (by omega)) (hb 3 (by omega))
  obtain ⟨x0, x1, x2⟩ := hname i hi
  have g4 := hb 4 (by omega)
  have g5 := hb 5 (by omega)
  have g6 := hb 6 (by omega)
  simp [recordBytes] at g4 g5 g6
  rw [hv, g4, g5, g6, Nat.mod_eq_of_lt x0, Nat.mod_eq_of_lt x1, Nat.mod_eq_of_lt x2]

/-- C3: with 1 to 5 slots, a region inside the 16-bit address range, any magic and
any table of 32-bit keys and byte-sized name characters: after a `writeScore` made
with `writeMagic_` set, `begin` with the same slot count, address and magic, on any
object next to the resulting store, runs no dialogue, ends with `validMagicNumber_`
true and `writeMagic_` false, and loads at every index the key and the name of the
table that was written; so the loaded score `value >> 4` is the stored one. -/
theorem C3_write_then_begin_round_trip (s t : State) (k : Nat) (overwrite : Bool)
    (hN1 : 1 ≤ s.number_) (hN5 : s.number_ ≤ 5)
    (hA : s.address_ + 4 + 7 * s.number_ ≤ UINT)
    (hkey : ∀ i, i < s.number_ → (s.scores i).value < ULONG)
    (hname : ∀ i, i < s.number_ →
      (s.scores i).name.c0 < 256 ∧ (s.scores i).name.c1 < 256 ∧ (s.scores i).name.c2 < 256)
    (hwm : s.writeMagic_ = true) (hk : k < s.number_) :
    (begin { t with EEPROM := (writeScore s k).EEPROM } s.number_ s.address_ s.magic_
      overwrite).validMagicNumber_ = true ∧
    (begin { t with EEPROM := (writeScore s k).EEPROM } s.number_ s.address_ s.magic_
      overwrite).writeMagic_ = false ∧
    (begin { t with EEPROM := (writeScore s k).EEPROM } s.number_ s.address_ s.magic_
      overwrite).confirms = t.confirms ∧
    ∀ i, i < s.number_ →
      (begin { t with EEPROM := (writeScore s k).EEPROM } s.number_ s.address_ s.magic_
        overwrite).scores i = s.scores i ∧
      scoreOf ((begin { t with EEPROM := (writeScore s k).EEPROM } s.number_ s.address_ s.magic_
        overwrite).scores i).value = scoreOf (s.scores i).value := by
  have hr := writeScore_pending_region s k hk hA hwm
  obtain ⟨b1, b2, b3, b4⟩ := begin_loads_region { t with EEPROM := (writeScore s k).EEPROM }
    s.number_ s.address_ s.magic_ overwrite s.scores hN1 hN5 hA hr hkey hname
  refine ⟨b1, b2, b3, fun i hi => ⟨b4 i hi, by rw [b4 i hi]⟩⟩

/-- C3 on `pendingState`: the table written by `writeScore(0)` is loaded back by `begin`. -/
theorem C3_write_then_begin_round_trip_witness :
    (1 ≤ pendingState.number_ ∧ pendingState.number_ ≤ 5 ∧
      pendingState.address_ + 4 + 7 * pendingState.number_ ≤ UINT ∧
      (∀ i, i < pendingState.number_ → (pendingState.scores i).value < ULONG) ∧
      (∀ i, i < pendingState.number_ →
        (pendingState.scores i).name.c0 < 256 ∧ (pendingState.scores i).name.c1 < 256 ∧
          (pendingState.scores i).name.c2 < 256) ∧
      pendingState.writeMagic_ = true ∧ 0 < pendingState.number_) ∧
    (begin { fresh (constStore 0) with EEPROM := (writeScore pendingState 0).EEPROM }
      pendingState.number_ pendingState.address_ pendingState.magic_ false).validMagicNumber_ =
        true ∧
    ∀ i, i < pendingState.number_ →
      (begin { fresh (constStore 0) with EEPROM := (writeScore pendingState 0).EEPROM }
        pendingState.number_ pendingState.address_ pendingState.magic_ false).scores i =
          pendingState.scores i ∧
      scoreOf ((begin { fresh (constStore 0) with EEPROM := (writeScore pendingState 0).EEPROM }
        pendingState.number_ pendingState.address_ pendingState.magic_ false).scores i).value =
          scoreOf (pendingState.scores i).value :=
  ⟨⟨by decide, by decide, by decide, by decide, by decide, by decide, by decide⟩,
    (C3_write_then_begin_round_trip pendingState (fresh (constStore 0)) 0 false
      (by decide) (by decide) (by decide) (by decide) (by decide) (by decide) (by decide)).1,
    (C3_write_then_begin_round_trip pendingState (fresh (constStore 0)) 0 false
      (by decide) (by decide) (by decide) (by decide) (by decide) (by decide) (by decide)).2.2.2⟩

/-! ## Disambiguators of one score form a block that ends at 15 -/

theorem upper_block (F : Finset ℕ) (h16 : ∀ x, x ∈ F → x ≤ 15)
    (hup : ∀ x, x ∈ F → ∀ d, x < d → d ≤ 15 → d ∈ F) (d : ℕ) :
    d ∈ F ↔ 16 - F.card ≤ d ∧ d ≤ 15 := by
  rcases F.eq_empty_or_nonempty with rfl | hne
  · simp
    omega
  · have hm : F.min' hne ∈ F := F.min'_mem hne
    have hmin : ∀ x, x ∈ F → F.min' hne ≤ x := fun x hx => F.min'_le x hx
    have hF : F = Finset.Icc (F.min' hne) 15 := by
      ext x
      rw [Finset.mem_Icc]
      constructor
      · intro hx; exact ⟨hmin x hx, h16 x hx⟩
      · rintro ⟨h1, h2⟩
        rcases Nat.eq_or_lt_of_le h1 with h | h
        · rw [← h]; exact hm
        · exact hup _ hm x h h2
    have hcard : F.card = 16 - F.min' hne := by
      conv_lhs => rw [hF]
      rw [Nat.card_Icc]
    have h15 := h16 _ hm
    constructor
    · intro hd
      have := hmin d hd
      have := h16 d hd
      omega
    · rintro ⟨h1, h2⟩
      rw [hF, Finset.mem_Icc]
      omega

theorem sameCount_eq_card (sc : Nat → DeuligneHiScore) (c n : Nat)
    (hv : ∀ i, i < n → (sc i).value < ULONG) :
    sameCount sc c n = (classOf sc c n).card := by
  unfold sameCount classOf
  have h1 : (List.range n).countP (fun i => decide ((sc i).value &&& 0xFFFFFFF0 = c)) =
      (List.range n).countP (fun i => decide ((sc i).value / 16 * 16 = c)) := by
    apply List.countP_congr
    intro i hi
    rw [List.mem_range] at hi
    rw [and_mask _ (hv i hi)]
  rw [h1]
  rw [Finset.card_def]
  simp only [Finset.filter_val, Finset.range_val, Multiset.range, Multiset.filter_coe,
    Multiset.coe_card, List.countP_eq_length_filter]

theorem class_block (sc : Nat → DeuligneHiScore) (n c : Nat) (hr : Ranked sc n)
    (hc : c % 16 = 0) :
    (∀ i, i < n → (sc i).value / 16 * 16 = c → 16 - sameCount sc c n ≤ (sc i).value % 16) ∧
    (∀ d, 16 - sameCount sc c n ≤ d → d ≤ 15 → ∃ j, j < n ∧ (sc j).value = c + d) := by
  obtain ⟨hv, hd, hu⟩ := hr
  have hmem : ∀ i, i ∈ classOf sc c n ↔ i < n ∧ (sc i).value / 16 * 16 = c := by
    intro i
    simp [classOf]
  have h16 : ∀ x, x ∈ (classOf sc c n).image (fun i => (sc i).value % 16) → x ≤ 15 := by
    intro x hx
    rw [Finset.mem_image] at hx
    obtain ⟨i, _, rfl⟩ := hx
    omega
  have hup : ∀ x, x ∈ (classOf sc c n).image (fun i => (sc i).value % 16) →
      ∀ d, x < d → d ≤ 15 → d ∈ (classOf sc c n).image (fun i => (sc i).value % 16) := by
    intro x hx d hxd hd15
    rw [Finset.mem_image] at hx ⊢
    obtain ⟨i, hi, rfl⟩ := hx
    obtain ⟨hin, hic⟩ := (hmem i).mp hi
    obtain ⟨j, hj, hjv⟩ := hu i hin d hxd hd15
    refine ⟨j, (hmem j).mpr ⟨hj, ?_⟩, ?_⟩
    · rw [hjv, hic]; omega
    · rw [hjv, hic]; omega
  have hcard : ((classOf sc c n).image (fun i => (sc i).value % 16)).card = sameCount sc c n := by
    rw [sameCount_eq_card sc c n hv]
    apply Finset.card_image_of_injOn
    intro i hi j hj hij
    have hi' := (hmem i).mp (Finset.mem_coe.mp hi)
    have hj' := (hmem j).mp (Finset.mem_coe.mp hj)
    apply hd i hi'.1 j hj'.1
    simp only at hij
    have := hi'.2
    have := hj'.2
    omega
  have hb := upper_block _ h16 hup
  rw [hcard] at hb
  constructor
  · intro i hi hic
    have : (sc i).value % 16 ∈ (classOf sc c n).image (fun i => (sc i).value % 16) :=
      Finset.mem_image.mpr ⟨i, (hmem i).mpr ⟨hi, hic⟩, rfl⟩
    exact ((hb _).mp this).1
  · intro d h1 h2
    have := (hb d).mpr ⟨h1, h2⟩
    rw [Finset.mem_image] at this
    obtain ⟨j, hj, hjd⟩ := this
    obtain ⟨hjn, hjc⟩ := (hmem j).mp hj
    exact ⟨j, hjn, by omega⟩

/-- Overwriting the minimum entry by the new key keeps the invariant. -/
theorem ranked_insert {sc : Nat → DeuligneHiScore} {n : Nat} (hr : Ranked sc n) (hn : n ≤ 15)
    (c k : Nat) (nm : Name) (hc : c % 16 = 0) (hcl : c + 15 < ULONG) (hk : k < n)
    (hlt : (sc k).value < c) (hmin : ∀ j, j < n → (sc k).value ≤ (sc j).value) :
    Ranked (setScore sc k ⟨c + 15 - sameCount sc c n, nm⟩) n := by
  obtain ⟨hA, hB⟩ := class_block sc n c hr hc
  obtain ⟨hv, hd, hu⟩ := hr
  have hle := sameCount_le sc c n
  have key : ∀ j, j < n → j ≠ k → (sc j).value ≠ c + 15 - sameCount sc c n := by
    intro j hj _ he
    have h1 : (sc j).value / 16 * 16 = c := by rw [he]; omega
    have := hA j hj h1
    rw [he] at this
    omega
  refine ⟨?_, ?_, ?_⟩
  · intro i hi
    simp only [setScore]
    split_ifs
    · simp only; omega
    · exact hv i hi
  · intro i hi j hj
    simp only [setScore]
    by_cases h1 : i = k <;> by_cases h2 : j = k
    · intro _; rw [h1, h2]
    · simp only [if_pos h1, if_neg h2]
      intro he
      exact absurd he.symm (key j hj h2)
    · simp only [if_neg h1, if_pos h2]
      intro he
      exact absurd he (key i hi h1)
    · simp only [if_neg h1, if_neg h2]
      exact hd i hi j hj
  · intro i hi d hid hd15
    simp only [setScore] at hid ⊢
    by_cases h1 : i = k
    · simp only [if_pos h1] at hid ⊢
      obtain ⟨j, hj, hjv⟩ := hB d (by omega) hd15
      have hjk : j ≠ k := by
        rintro rfl
        omega
      refine ⟨j, hj, ?_⟩
      simp only [if_neg hjk]
      rw [hjv]; omega
    · simp only [if_neg h1] at hid ⊢
      obtain ⟨j, hj, hjv⟩ := hu i hi d hid hd15
      have hjk : j ≠ k := by
        rintro rfl
        have := hmin i hi
        omega
      refine ⟨j, hj, ?_⟩
      simp only [if_neg hjk]
      exact hjv

/-! ## The invariant along a run of `insert` and `reset` -/

theorem initScores_apply (sc : Nat → DeuligneHiScore) (n i : Nat) :
    initScores sc n i = if i < n then ⟨0x0f - i, nameAAA⟩ else sc i := by
  unfold initScores
  induction n with
  | zero => simp
  | succ n ih =>
    rw [List.range_succ, List.foldl_append]
    simp only [List.foldl_cons, List.foldl_nil, setScore]
    by_cases h : i = n
    · subst h; simp
    · rw [if_neg h, ih]
      by_cases h2 : i < n
      · rw [if_pos h2, if_pos (by omega)]
      · rw [if_neg h2, if_neg (by omega)]

/-- A table whose first `n` keys are `0x0F - i` satisfies the invariant. -/
theorem ranked_of_sentinel (sc : Nat → DeuligneHiScore) (n : Nat) (hn : n ≤ 16)
    (h : ∀ i, i < n → (sc i).value = 0x0f - i) : Ranked sc n := by
  refine ⟨?_, ?_, ?_⟩
  · intro i hi
    rw [h i hi]; unfold ULONG; omega
  · intro i hi j hj he
    rw [h i hi, h j hj] at he
    omega
  · intro i hi d hid hd
    rw [h i hi] at hid ⊢
    refine ⟨15 - d, by omega, ?_⟩
    rw [h (15 - d) (by omega)]
    omega

theorem reset_fold_scores (l : List Nat) (s : State) :
    (l.foldl (fun s i => writeScore { s with scores := setScore s.scores i ⟨0x0f - i, nameAAA⟩ } i)
      s).scores = l.foldl (fun sc i => setScore sc i ⟨0x0f - i, nameAAA⟩) s.scores := by
  induction l generalizing s with
  | nil => rfl
  | cons i l ih =>
    simp only [List.foldl_cons]
    rw [ih]
    obtain ⟨_, _, _, a4, _, _⟩ :=
      writeScore_same { s with scores := setScore s.scores i ⟨0x0f - i, nameAAA⟩ } i
    rw [a4]

theorem reset_fold_number (l : List Nat) (s : State) :
    (l.foldl (fun s i => writeScore { s with scores := setScore s.scores i ⟨0x0f - i, nameAAA⟩ } i)
      s).number_ = s.number_ := by
  induction l generalizing s with
  | nil => rfl
  | cons i l ih =>
    simp only [List.foldl_cons]
    rw [ih]
    exact (writeScore_same { s with scores := setScore s.scores i ⟨0x0f - i, nameAAA⟩ } i).1

theorem reset_number (s : State) : (reset s).number_ = s.number_ :=
  reset_fold_number (List.range s.number_) s

theorem reset_scores (s : State) : (reset s).scores = initScores s.scores s.number_ :=
  reset_fold_scores (List.range s.number_) s

theorem reset_ranked (s : State) (hn : s.number_ ≤ 16) : Ranked (reset s).scores s.number_ := by
  apply ranked_of_sentinel _ _ hn
  intro i hi
  rw [reset_scores, initScores_apply, if_pos hi]

theorem insert_ranked (s : State) (v : Nat) (checkOnly : Bool) (entered : Name)
    (hn : s.number_ ≤ 15) (hr : Ranked s.scores s.number_) :
    Ranked (insert s v checkOnly entered).2.scores s.number_ := by
  cases checkOnly
  · cases hb : isBestScore s ((v <<< 4) % ULONG)
    · rw [insert_rejected s v entered hb]; exact hr
    · obtain ⟨_, hsc, _⟩ := insert_accepted s v entered hb
      obtain ⟨hk, hlt, hmin, _, _⟩ := scan_spec s _ ((isBestScore_iff s _).mp hb)
      rw [hsc, newKey_eq s v hn]
      have hc := cand_facts v
      exact ranked_insert hr hn _ _ _ (by omega) (by unfold ULONG at hc ⊢; omega) hk hlt hmin
  · rw [insert_checkOnly]; exact hr

theorem run_ranked (N A M : Nat) (hN : N ≤ 15) (cs : List Call)
    (hcs : ∀ c, c ∈ cs → c.isBegin = false) (s : State) (hn : s.number_ = N)
    (hr : Ranked s.scores N) :
    (run N A M s cs).number_ = N ∧ Ranked (run N A M s cs).scores N := by
  induction cs generalizing s with
  | nil => exact ⟨hn, hr⟩
  | cons c cs ih =>
    unfold run
    simp only [List.foldl_cons]
    have hstep : (step N A M s c).number_ = N ∧ Ranked (step N A M s c).scores N := by
      cases c with
      | begin overwrite =>
        have := hcs (Call.begin overwrite) (List.mem_cons_self _ _)
        simp [Call.isBegin] at this
      | insert value checkOnly entered =>
        have h1 := insert_ranked s value checkOnly entered (by omega) (by rw [hn]; exact hr)
        rw [hn] at h1
        refine ⟨?_, h1⟩
        cases checkOnly
        · cases hb : isBestScore s ((value <<< 4) % ULONG)
          · simp only [step]; rw [insert_rejected s value entered hb]; exact hn
          · simp only [step]
            exact (insert_accepted s value entered hb).2.2.1.trans hn
        · simp only [step]; rw [insert_checkOnly]; exact hn
      | reset =>
        have h1 := reset_ranked s (by omega)
        rw [hn] at h1
        exact ⟨(reset_number s).trans hn, h1⟩
    exact ih (fun c hc => hcs c (List.mem_cons_of_mem _ hc)) (step N A M s c) hstep.1 hstep.2

/-- C4: with at most 5 slots, starting from a table whose keys are the sentinel
keys `0x0F - i` and running any sequence of `insert` calls (any score, check-only
or not, any name) and `reset` calls, the rank keys of the table are pairwise
distinct. -/
theorem C4_rank_keys_pairwise_distinct (N A M : Nat) (s : State) (cs : List Call)
    (hN5 : N ≤ 5) (hn : s.number_ = N)
    (hs : ∀ i, i < N → (s.scores i).value = 0x0f - i)
    (hcs : ∀ c, c ∈ cs → c.isBegin = false) :
    Distinct (run N A M s cs).scores N :=
  (run_ranked N A M (by omega) cs hcs s hn (ranked_of_sentinel s.scores N (by omega) hs)).2.2.1

/-- C4 on the table `begin` builds over an erased store, three slots: after four
inserts (two of them equal, one above `2^28`) and a reset in between the keys are
pairwise distinct. -/
theorem C4_rank_keys_pairwise_distinct_witness :
    (3 ≤ 5 ∧ (begin (fresh (constStore 0xff)) 3 0 0xC15E false).number_ = 3 ∧
      (∀ i, i < 3 →
        ((begin (fresh (constStore 0xff)) 3 0 0xC15E false).scores i).value = 0x0f - i) ∧
      ∀ c, c ∈ [Call.insert 7 false nameAAA, Call.reset, Call.insert 7 false nameAAA,
        Call.insert 7 false nameAAA, Call.insert 4294967295 false nameAAA] →
          c.isBegin = false) ∧
    Distinct (run 3 0 0xC15E (begin (fresh (constStore 0xff)) 3 0 0xC15E false)
      [Call.insert 7 false nameAAA, Call.reset, Call.insert 7 false nameAAA,
        Call.insert 7 false nameAAA, Call.insert 4294967295 false nameAAA]).scores 3 :=
  ⟨⟨by decide, by decide, by decide, by decide⟩,
    C4_rank_keys_pairwise_distinct 3 0 0xC15E (begin (fresh (constStore 0xff)) 3 0 0xC15E false)
      [Call.insert 7 false nameAAA, Call.reset, Call.insert 7 false nameAAA,
        Call.insert 7 false nameAAA, Call.insert 4294967295 false nameAAA]
      (by decide) (by decide) (by decide) (by decide)⟩

theorem reachable_ranked {N : Nat} {s : State} (h : Reachable N s) (hN : N ≤ 15) :
    s.number_ = N ∧ Ranked s.scores N := by
  obtain ⟨A, M, s0, cs, hn, hs, hcs, rfl⟩ := h
  exact run_ranked N A M hN cs hcs s0 hn (ranked_of_sentinel s0.scores N (by omega) hs)

/-- C5 as stated fails for a score of more than 28 bits: on `afterFive` the insert
of `2^28 + 1` is accepted and puts key 31 in slot 0, below the key 95 of the entry
with score 5, although `5 < 2^28 + 1`. -/
theorem C5_order_fails_above_28_bits :
    (insert afterFive 268435457 false nameAAA).1 = true ∧
    (∀ j, j ≠ 0 → (insert afterFive 268435457 false nameAAA).2.scores j = afterFive.scores j) ∧
    ¬ (∀ j, j < 2 → scoreOf (afterFive.scores j).value < 268435457 →
        (afterFive.scores j).value <
          ((insert afterFive 268435457 false nameAAA).2.scores 0).value) := by
  refine ⟨by decide, ?_, by decide⟩
  have hb : isBestScore afterFive ((268435457 <<< 4) % ULONG) = true := by decide
  have he : evicted afterFive 268435457 = 0 := by decide
  intro j hj
  rw [(insert_accepted afterFive 268435457 nameAAA hb).2.1, he]
  simp [setScore, hj]

/-- C5 amended: in a state reached from the sentinel table (at most 5 slots), when
`insert(v)` with `v < 2^28` is accepted, one slot `k` takes the new key and the
others are unchanged; the new key has score `v`, is below the key of every other
entry whose score is `v` and above the key of every entry whose score is below `v`. -/
theorem C5_tie_break_order (N : Nat) (s : State) (v : Nat) (entered : Name)
    (hN5 : N ≤ 5) (hr : Reachable N s) (hv : v < 2 ^ 28)
    (hacc : (insert s v false entered).1 = true) :
    ∃ k, k < N ∧
      (∀ j, j ≠ k → (insert s v false entered).2.scores j = s.scores j) ∧
      scoreOf ((insert s v false entered).2.scores k).value = v ∧
      (∀ j, j < N → j ≠ k → scoreOf (s.scores j).value = v →
        ((insert s v false entered).2.scores k).value < (s.scores j).value) ∧
      (∀ j, j < N → scoreOf (s.scores j).value < v →
        (s.scores j).value < ((insert s v false entered).2.scores k).value) := by
  obtain ⟨hn, hrk⟩ := reachable_ranked hr (by omega)
  have hv' : v < 268435456 := by simpa using hv
  have hb : isBestScore s ((v <<< 4) % ULONG) = true := by
    cases h : isBestScore s ((v <<< 4) % ULONG)
    · rw [insert_rejected s v entered h] at hacc
      exact absurd hacc (by simp)
    · rfl
  obtain ⟨_, hsc, _⟩ := insert_accepted s v entered hb
  obtain ⟨hk, hlt, _⟩ := scan_spec s _ ((isBestScore_iff s _).mp hb)
  have hkey := newKey_eq s v (by omega)
  have hks := newKey_score s v (by omega)
  have hc := cand_facts v
  have hle := sameCount_le s.scores ((v <<< 4) % ULONG) s.number_
  obtain ⟨hA, _⟩ := class_block s.scores N ((v <<< 4) % ULONG) hrk (by omega)
  rw [hn] at hkey hle hk
  have hnew : ((insert s v false entered).2.scores (evicted s v)).value = newKey s v := by
    rw [hsc]; simp [setScore]
  refine ⟨evicted s v, hk, ?_, ?_, ?_, ?_⟩
  · intro j hj
    rw [hsc]; simp [setScore, hj]
  · rw [hnew, hks.1]; omega
  · intro j hj _ hjs
    rw [hnew, hkey]
    unfold scoreOf at hjs
    rw [shr4] at hjs
    have := hA j hj (by omega)
    omega
  · intro j _ hjs
    rw [hnew, hkey]
    unfold scoreOf at hjs
    rw [shr4] at hjs
    omega

/-- C5 on `afterFive`: a second `insert(5)` is accepted and its key ranks below the
key 95 of the first one. -/
theorem C5_tie_break_order_witness :
    (2 ≤ 5 ∧ Reachable 2 afterFive ∧ 5 < 2 ^ 28 ∧
      (insert afterFive 5 false nameAAA).1 = true) ∧
    ∃ k, k < 2 ∧
      (∀ j, j ≠ k → (insert afterFive 5 false nameAAA).2.scores j = afterFive.scores j) ∧
      scoreOf ((insert afterFive 5 false nameAAA).2.scores k).value = 5 ∧
      (∀ j, j < 2 → j ≠ k → scoreOf (afterFive.scores j).value = 5 →
        ((insert afterFive 5 false nameAAA).2.scores k).value < (afterFive.scores j).value) ∧
      (∀ j, j < 2 → scoreOf (afterFive.scores j).value < 5 →
        (afterFive.scores j).value < ((insert afterFive 5 false nameAAA).2.scores k).value) :=
  ⟨⟨by decide,
      ⟨0, 0xC15E, begin (fresh (constStore 0xff)) 2 0 0xC15E false,
        [Call.insert 5 false nameAAA], by decide, by decide, by decide, rfl⟩,
      by decide, by decide⟩,
    C5_tie_break_order 2 afterFive 5 nameAAA (by decide)
      ⟨0, 0xC15E, begin (fresh (constStore 0xff)) 2 0 0xC15E false,
        [Call.insert 5 false nameAAA], by decide, by decide, by decide, rfl⟩
      (by decide) (by decide)⟩

/-! ## The shift keeps 28 bits of the score -/

theorem shift_mod (v : Nat) : ((v % 268435456) <<< 4) % ULONG = (v <<< 4) % ULONG := by
  rw [shl4, shl4]; unfold ULONG; omega

theorem shift_multiple (v : Nat) : ((268435456 * v) <<< 4) % ULONG = 0 := by
  rw [shl4]; unfold ULONG; omega

theorem isBestScore_zero (s : State) : isBestScore s 0 = false := by
  cases h : isBestScore s 0
  · rfl
  · obtain ⟨i, _, hi⟩ := (isBestScore_iff s 0).mp h
    exact absurd hi (Nat.not_lt_zero _)

/-- C20: for every state, score, check-only flag and entered name, `insert` of the
score and `insert` of the score reduced modulo `2^28` give the same return value
and the same state (table, store cells and write log): the 32-bit shift by 4 drops
the top 4 bits. A score that is a multiple of `2^28` is shifted to 0, no key is
below 0, and the insert is rejected without any change. -/
theorem C20_score_taken_modulo_2_pow_28 (s : State) (v : Nat) (checkOnly : Bool)
    (entered : Name) :
    insert s v checkOnly entered = insert s (v % 2 ^ 28) checkOnly entered ∧
    (insert s (2 ^ 28 * v) checkOnly entered).1 = false ∧
    (insert s (2 ^ 28 * v) checkOnly entered).2 = s := by
  have h28 : (2 : Nat) ^ 28 = 268435456 := by norm_num
  rw [h28]
  refine ⟨?_, ?_, ?_⟩
  · unfold insert
    simp only [shift_mod]
  · cases checkOnly
    · rw [insert_rejected s _ entered (by rw [shift_multiple]; exact isBestScore_zero s)]
    · rw [insert_checkOnly, shift_multiple]; exact isBestScore_zero s
  · cases checkOnly
    · rw [insert_rejected s _ entered (by rw [shift_multiple]; exact isBestScore_zero s)]
    · rw [insert_checkOnly]

/-! ## Memory-only mode -/

/-- C16: with `validMagicNumber_` false an insert leaves the store (cells and write
log) as it was; and for any two states with the same slot count and the same rank
keys, whatever their flags, stores and names and whatever names are entered, the
insert returns the same value and leaves the same rank keys. -/
theorem C16_insert_result_independent_of_persistence (s t : State) (v : Nat)
    (checkOnly : Bool) (entered entered' : Name)
    (hinvalid : s.validMagicNumber_ = false)
    (hn : s.number_ = t.number_)
    (hkeys : ∀ i, (s.scores i).value = (t.scores i).value) :
    (insert s v checkOnly entered).2.EEPROM = s.EEPROM ∧
    (insert s v checkOnly entered).1 = (insert t v checkOnly entered').1 ∧
    ∀ i, ((insert s v checkOnly entered).2.scores i).value =
      ((insert t v checkOnly entered').2.scores i).value := by
  have hb := isBestScore_congr s t ((v <<< 4) % ULONG) hn hkeys
  cases checkOnly
  · cases h : isBestScore s ((v <<< 4) % ULONG)
    · rw [insert_rejected s v entered h, insert_rejected t v entered' (by rw [← hb]; exact h)]
      exact ⟨rfl, rfl, hkeys⟩
    · have h' : isBestScore t ((v <<< 4) % ULONG) = true := by rw [← hb]; exact h
      obtain ⟨a1, a2, _⟩ := insert_accepted s v entered h
      obtain ⟨b1, b2, _⟩ := insert_accepted t v entered' h'
      refine ⟨?_, by rw [a1, b1], ?_⟩
      · rw [insert_accepted_eq s v entered h, hinvalid]
        rfl
      · intro i
        rw [a2, b2, evicted_congr s t v hn hkeys, newKey_congr s t v hn hkeys]
        simp only [setScore]
        by_cases hi : i = evicted t v
        · simp only [if_pos hi]
        · simp only [if_neg hi]
          exact hkeys i
  · rw [insert_checkOnly, insert_checkOnly, hb]
    exact ⟨rfl, rfl, hkeys⟩

/-- C16 on the example table: the insert of 90 without persistence issues no write
and gives the keys the persisted insert gives. -/
theorem C16_insert_result_independent_of_persistence_witness :
    ({ exampleState with validMagicNumber_ := false }.validMagicNumber_ = false ∧
      { exampleState with validMagicNumber_ := false }.number_ = exampleState.number_ ∧
      ∀ i, ({ exampleState with validMagicNumber_ := false }.scores i).value =
        (exampleState.scores i).value) ∧
    (insert { exampleState with validMagicNumber_ := false } 90 false nameAAA).2.EEPROM.writes
      = [] ∧
    (insert exampleState 90 false nameAAA).2.EEPROM.writes.length = 7 ∧
    ∀ i, ((insert { exampleState with validMagicNumber_ := false } 90 false nameAAA).2.scores
        i).value = ((insert exampleState 90 false ⟨66, 79, 66⟩).2.scores i).value :=
  ⟨⟨rfl, rfl, fun _ => rfl⟩, by decide, by decide,
    (C16_insert_result_independent_of_persistence
      { exampleState with validMagicNumber_ := false } exampleState 90 false nameAAA ⟨66, 79, 66⟩
      rfl rfl (fun _ => rfl)).2.2⟩

/-! ## An erased region -/

theorem magic_bytes_not_erased (M : Nat) (hM : M < 65536) (hne : M ≠ 0xFFFF) :
    ¬ (0xff = highByte M ∧ 0xff = lowByte M) := by
  unfold highByte lowByte
  rw [shr8, and_ff]
  omega

theorem regionErased_true (e : EEPROMClass) (N a : Nat)
    (h : ∀ i, i < 7 * N → e.read ((a + i) % UINT) = 0xff) (hN : N ≤ 5) :
    regionErased e N a = true := by
  unfold regionErased
  rw [List.all_eq_true]
  intro i hi
  rw [List.mem_range] at hi
  have : 7 * N % UINT = 7 * N := Nat.mod_eq_of_lt (by unfold UINT; omega)
  rw [this] at hi
  simp [h i hi]

/-- C11 as stated fails for the magic `0xFFFF`: on an all-erased store the two
leading bytes are the magic, so `begin` takes the first branch: `writeMagic_` stays
false and the table is loaded from the erased bytes (key `0xFFFFFFFF`, name bytes
`0xFF`), not set to the sentinel entries. -/
theorem C11_erased_region_with_magic_ffff_is_loaded :
    (begin (fresh (constStore 0xff)) 1 0 0xFFFF false).writeMagic_ = false ∧
    ((begin (fresh (constStore 0xff)) 1 0 0xFFFF false).scores 0).value = 0xFFFFFFFF ∧
    ¬ ((begin (fresh (constStore 0xff)) 1 0 0xFFFF false).writeMagic_ = true ∧
        (begin (fresh (constStore 0xff)) 1 0 0xFFFF false).scores 0 = ⟨0x0f - 0, nameAAA⟩) := by
  refine ⟨by decide, by decide, ?_⟩
  intro h
  exact absurd h.1 (by decide)

/-- C11 amended: with 1 to 5 slots, a base address in the `unsigned int` range and a
16-bit magic other than `0xFFFF`, if every byte of the region (addresses
`A .. A + 3 + 7N` in `unsigned int` arithmetic) reads `0xFF`, then `begin` runs no
dialogue, ends with `validMagicNumber_` true and `writeMagic_` true, and the table
holds the sentinel entries: key `0x0F - i`, name `AAA`. -/
theorem C11_erased_region_is_empty_region (s : State) (N A M : Nat) (overwrite : Bool)
    (hN1 : 1 ≤ N) (hN5 : N ≤ 5) (hA : A < UINT) (hM : M < 65536) (hne : M ≠ 0xFFFF)
    (herased : ∀ k, k < 4 + 7 * N → s.EEPROM.read ((A + k) % UINT) = 0xff) :
    (begin s N A M overwrite).validMagicNumber_ = true ∧
    (begin s N A M overwrite).confirms = s.confirms ∧
    (begin s N A M overwrite).writeMagic_ = true ∧
    ∀ i, i < N → (begin s N A M overwrite).scores i = ⟨0x0f - i, nameAAA⟩ := by
  have n5 : ¬ N > 5 := by omega
  have n1 : ¬ N < 1 := by omega
  have r0 : s.EEPROM.read A = 0xff := by
    have := herased 0 (by omega)
    rwa [Nat.add_zero, Nat.mod_eq_of_lt hA] at this
  have r1 : s.EEPROM.read ((A + 1) % UINT) = 0xff := herased 1 (by omega)
  have hmag := magic_bytes_not_erased M hM hne
  have her : regionErased s.EEPROM N (((A + 1) % UINT + 1) % UINT) = true := by
    apply regionErased_true _ _ _ _ hN5
    intro i hi
    have := herased (2 + i) (by omega)
    have e : (((A + 1) % UINT + 1) % UINT + i) % UINT = (A + (2 + i)) % UINT := by
      unfold UINT; omega
    rw [e]; exact this
  unfold begin
  simp only [n5, n1, if_false, r0, r1, hmag, and_self, if_true, her, Bool.not_true,
    Bool.false_eq_true]
  refine ⟨trivial, trivial, trivial, ?_⟩
  intro i hi
  rw [initScores_apply, if_pos hi]

/-- C11 on an erased store, two slots at address 10, magic `0xC15E`. -/
theorem C11_erased_region_is_empty_region_witness :
    (1 ≤ 2 ∧ 2 ≤ 5 ∧ 10 < UINT ∧ 0xC15E < 65536 ∧ 0xC15E ≠ 0xFFFF ∧
      ∀ k, k < 4 + 7 * 2 → (fresh (constStore 0xff)).EEPROM.read ((10 + k) % UINT) = 0xff) ∧
    (begin (fresh (constStore 0xff)) 2 10 0xC15E false).validMagicNumber_ = true ∧
    (begin (fresh (constStore 0xff)) 2 10 0xC15E false).confirms =
      (fresh (constStore 0xff)).confirms ∧
    (begin (fresh (constStore 0xff)) 2 10 0xC15E false).writeMagic_ = true ∧
    ∀ i, i < 2 →
      (begin (fresh (constStore 0xff)) 2 10 0xC15E false).scores i = ⟨0x0f - i, nameAAA⟩ :=
  ⟨⟨by decide, by decide, by decide, by decide, by decide, by decide⟩,
    C11_erased_region_is_empty_region (fresh (constStore 0xff)) 2 10 0xC15E false
      (by decide) (by decide) (by decide) (by decide) (by decide) (by decide)⟩

/-! ## A torn region after a Yes -/

/-- C15 fails on the code: one slot at address 0, magic `0xC15E`. On the torn store
a Yes gives `validMagicNumber_` true but leaves `writeMagic_` false, while on
foreign data (all cells 0) the same answer sets `writeMagic_`. The first insert on
the torn region then writes the 7 record bytes only, the trailing magic cells 9
and 10 keep their content, and the next `begin` asks for confirmation again. -/
theorem C15_torn_region_keeps_frame_flag_clear :
    (begin (fresh tornStore) 1 0 0xC15E true).confirms = 1 ∧
    (begin (fresh tornStore) 1 0 0xC15E true).validMagicNumber_ = true ∧
    (begin (fresh tornStore) 1 0 0xC15E true).writeMagic_ = false ∧
    (begin (fresh (constStore 0)) 1 0 0xC15E true).confirms = 1 ∧
    (begin (fresh (constStore 0)) 1 0 0xC15E true).validMagicNumber_ = true ∧
    (begin (fresh (constStore 0)) 1 0 0xC15E true).writeMagic_ = true ∧
    (insert (begin (fresh tornStore) 1 0 0xC15E true) 7 false nameAAA).2.EEPROM.writes =
      [(2, 127), (3, 0), (4, 0), (5, 0), (6, 65), (7, 65), (8, 65)] ∧
    (insert (begin (fresh tornStore) 1 0 0xC15E true) 7 false nameAAA).2.EEPROM.cells 9 = 0 ∧
    (insert (begin (fresh tornStore) 1 0 0xC15E true) 7 false nameAAA).2.EEPROM.cells 10 = 0 ∧
    (begin (insert (begin (fresh tornStore) 1 0 0xC15E true) 7 false nameAAA).2
      1 0 0xC15E false).confirms = 2 := by
  decide

/-! ## A key of zero is never displayed -/

/-- C19 fails on the code: `begin` accepts `zeroKeyStore` without a dialogue and
loads the keys 95 and 0, which are distinct; `display` then shows index 0 on both
rows and never shows index 1, because no key is above the initial `maxScore = 0`
on the second row. -/
theorem C19_display_repeats_index_zero :
    (begin (fresh zeroKeyStore) 2 0 0xC15E false).validMagicNumber_ = true ∧
    (begin (fresh zeroKeyStore) 2 0 0xC15E false).confirms = 0 ∧
    (begin (fresh zeroKeyStore) 2 0 0xC15E false).number_ = 2 ∧
    ((begin (fresh zeroKeyStore) 2 0 0xC15E false).scores 0).value = 95 ∧
    ((begin (fresh zeroKeyStore) 2 0 0xC15E false).scores 1).value = 0 ∧
    Distinct (begin (fresh zeroKeyStore) 2 0 0xC15E false).scores 2 ∧
    display (begin (fresh zeroKeyStore) 2 0 0xC15E false) = [0, 0] := by
  refine ⟨by decide, by decide, by decide, by decide, by decide, ?_, by decide⟩
  unfold Distinct
  decide

/-! ## `reset` writes every record -/

theorem extends_refl (e : EEPROMClass) : Extends e e := ⟨[], by simp⟩

theorem extends_trans {e1 e2 e3 : EEPROMClass} (h12 : Extends e1 e2) (h23 : Extends e2 e3) :
    Extends e1 e3 := by
  obtain ⟨l1, w1⟩ := h12
  obtain ⟨l2, w2⟩ := h23
  exact ⟨l1 ++ l2, by rw [w2, w1, List.append_assoc]⟩

theorem extends_write (e : EEPROMClass) (a v : Nat) : Extends e (e.write a v) :=
  ⟨[(a, v % 256)], rfl⟩

theorem writeRecord_extends (s : State) (i : Nat) : Extends s.EEPROM (writeRecord s i).EEPROM :=
  ⟨recordWrites s i, writeRecord_writes s i⟩

theorem foldl_writeRecord_extends (l : List Nat) (s : State) :
    Extends s.EEPROM (l.foldl writeRecord s).EEPROM := by
  induction l generalizing s with
  | nil => exact extends_refl _
  | cons i l ih =>
    simp only [List.foldl_cons]
    exact extends_trans (writeRecord_extends s i) (ih (writeRecord s i))

theorem writeFrame_extends (s : State) : Extends s.EEPROM (writeFrame s).EEPROM := by
  rw [writeFrame_EEPROM]
  have h1 : Extends s.EEPROM (frameHead s).EEPROM :=
    extends_trans (extends_write _ _ _) (extends_write _ _ _)
  have h2 : Extends (frameHead s).EEPROM (frameBody s).EEPROM :=
    foldl_writeRecord_extends (List.range s.number_) (frameHead s)
  exact extends_trans (extends_trans h1 h2)
    (extends_trans (extends_write _ _ _) (extends_write _ _ _))

/-- The record `i` written by `writeScore s i`: the state whose record part runs. -/
theorem writeScore_record (s : State) (i : Nat) :
    ∃ u, writeScore s i = writeRecord u i ∧ SameObject s u ∧ Extends s.EEPROM u.EEPROM ∧
      (s.writeMagic_ = false → u = s) := by
  cases h : s.writeMagic_
  · exact ⟨s, writeScore_steady s i h, sameObject_refl s, extends_refl _, fun _ => rfl⟩
  · exact ⟨writeFrame s, writeScore_pending s i h, (writeFrame_same s).1, writeFrame_extends s,
      fun hf => absurd hf (by simp)⟩

/-- Two offsets from the same base fall on different 16-bit addresses. -/
theorem mod_add_ne (b x y : Nat) (hx : x < 65536) (hy : y < 65536) (hxy : x ≠ y) :
    (b + x) % UINT ≠ (b + y) % UINT := by
  unfold UINT
  omega

theorem sentinel_bytes (i : Nat) (hi : i ≤ 15) :
    recordBytes ⟨0x0f - i, nameAAA⟩ = [0x0f - i, 0, 0, 0, 65, 65, 65] := by
  have h0 : (0x0f - i) % 256 = 0x0f - i := by omega
  have h1 : (0x0f - i) / 256 % 256 = 0 := by omega
  have h2 : (0x0f - i) / 65536 % 256 = 0 := by omega
  have h3 : (0x0f - i) / 16777216 % 256 = 0 := by omega
  simp only [recordBytes, nameAAA, h0, h1, h2, h3]

theorem resetUpTo_succ (s : State) (m : Nat) :
    resetUpTo s (m + 1) =
      writeScore { resetUpTo s m with
        scores := setScore (resetUpTo s m).scores m ⟨0x0f - m, nameAAA⟩ } m := by
  unfold resetUpTo
  rw [List.range_succ, List.foldl_append]
  rfl

theorem resetUpTo_inv (s : State) (m : Nat) (hm : m ≤ 5) :
    (resetUpTo s m).address_ = s.address_ ∧
    (1 ≤ m → (resetUpTo s m).writeMagic_ = false) ∧
    (∀ i, i < m → (resetUpTo s m).scores i = ⟨0x0f - i, nameAAA⟩) ∧
    (∀ i j, i < m → j < 7 →
      (resetUpTo s m).EEPROM.cells ((s.address_ + 2 + 7 * i + j) % UINT) =
        [0x0f - i, 0, 0, 0, 65, 65, 65].getD j 0) ∧
    ∃ l, (resetUpTo s m).EEPROM.writes = s.EEPROM.writes ++ l ∧
      ∀ i j, i < m → j < 7 →
        ((s.address_ + 2 + 7 * i + j) % UINT, [0x0f - i, 0, 0, 0, 65, 65, 65].getD j 0) ∈ l := by
  induction m with
  | zero =>
    refine ⟨rfl, fun h => absurd h (by omega), fun i hi => absurd hi (Nat.not_lt_zero i),
      fun i j hi _ => absurd hi (Nat.not_lt_zero i), [], by simp [resetUpTo],
      fun i j hi _ => absurd hi (Nat.not_lt_zero i)⟩
  | succ m ih =>
    obtain ⟨ia, iw, isc, ic, l, il, im⟩ := ih (by omega)
    rw [resetUpTo_succ]
    obtain ⟨u, hu, ⟨_, ua, _, us, _, _⟩, ⟨l', hl'⟩, hsteady⟩ :=
      writeScore_record { resetUpTo s m with
        scores := setScore (resetUpTo s m).scores m ⟨0x0f - m, nameAAA⟩ } m
    have ua' : u.address_ = s.address_ := by rw [ua]; exact ia
    have us' : u.scores = setScore (resetUpTo s m).scores m ⟨0x0f - m, nameAAA⟩ := us
    have hbytes : ∀ j, j < 7 → (recordBytes (u.scores m)).getD j 0 =
        [0x0f - m, 0, 0, 0, 65, 65, 65].getD j 0 := by
      intro j _
      rw [us']
      simp only [setScore, if_true]
      rw [sentinel_bytes m (by omega)]
    refine ⟨?_, ?_, ?_, ?_, ?_⟩
    · rw [(writeScore_same _ m).2.1]; exact ia
    · intro _; exact writeScore_writeMagic _ m
    · intro i hi
      rw [(writeScore_same _ m).2.2.2.1]
      simp only [setScore]
      by_cases h : i = m
      · rw [if_pos h, h]
      · rw [if_neg h]; exact isc i (by omega)
    · intro i j hi hj
      rw [hu]
      by_cases h : i = m
      · subst h
        have := writeRecord_cells_at u i j hj
        rw [ua'] at this
        rw [this, hbytes j hj]
      · have him : i < m := by omega
        rw [writeRecord_cells_other]
        · have hflag : ({ resetUpTo s m with
              scores := setScore (resetUpTo s m).scores m ⟨0x0f - m, nameAAA⟩ } : State).writeMagic_
              = false := iw (by omega)
          rw [hsteady hflag]
          exact ic i j him hj
        · intro j' hj'
          rw [ua']
          have := mod_add_ne s.address_ (2 + 7 * i + j) (2 + 7 * m + j') (by omega) (by omega)
            (by omega)
          simpa [Nat.add_assoc] using this
    · rw [hu, writeRecord_writes, hl']
      refine ⟨l ++ l' ++ recordWrites u m, ?_, ?_⟩
      · show (resetUpTo s m).EEPROM.writes ++ l' ++ recordWrites u m = _
        rw [il]; simp
      · intro i j hi hj
        by_cases h : i = m
        · subst h
          apply List.mem_append_right
          unfold recordWrites
          rw [List.mem_map]
          exact ⟨j, List.mem_range.mpr hj, by rw [ua', hbytes j hj]⟩
        · apply List.mem_append_left
          apply List.mem_append_left
          exact im i j (by omega) hj
/-- C12: with at most 5 slots, for every state (whatever `validMagicNumber_` and
`writeMagic_`), after `reset()` every entry `i` has key `0x0F - i` and name `AAA`,
and for every record `i` and byte `j < 7` the cell `address_ + 2 + 7i + j` (in
`unsigned int` arithmetic) holds byte `j` of `0x0F - i, 0, 0, 0, 'A', 'A', 'A'` and
a write of that byte to that cell is among the writes `reset` added to the log. -/
theorem C12_reset_writes_all_sentinel_records (s : State) (hN5 : s.number_ ≤ 5) :
    (∀ i, i < s.number_ → (reset s).scores i = ⟨0x0f - i, nameAAA⟩) ∧
    (∀ i j, i < s.number_ → j < 7 →
      (reset s).EEPROM.cells ((s.address_ + 2 + 7 * i + j) % UINT) =
        [0x0f - i, 0, 0, 0, 65, 65, 65].getD j 0) ∧
    ∃ l, (reset s).EEPROM.writes = s.EEPROM.writes ++ l ∧
      ∀ i j, i < s.number_ → j < 7 →
        ((s.address_ + 2 + 7 * i + j) % UINT, [0x0f - i, 0, 0, 0, 65, 65, 65].getD j 0) ∈ l := by
  obtain ⟨_, _, h3, h4, h5⟩ := resetUpTo_inv s s.number_ hN5
  exact ⟨h3, h4, h5⟩

/-- C12 on `pendingState` (two slots at address 10, framing pending): after `reset`
the table is the sentinel table and cells 12..25 hold the two sentinel records. -/
theorem C12_reset_writes_all_sentinel_records_witness :
    pendingState.number_ ≤ 5 ∧
    (reset pendingState).EEPROM.writes.length = 32 ∧
    (∀ i, i < pendingState.number_ → (reset pendingState).scores i = ⟨0x0f - i, nameAAA⟩) ∧
    (∀ i j, i < pendingState.number_ → j < 7 →
      (reset pendingState).EEPROM.cells ((pendingState.address_ + 2 + 7 * i + j) % UINT) =
        [0x0f - i, 0, 0, 0, 65, 65, 65].getD j 0) :=
  ⟨by decide, by decide,
    (C12_reset_writes_all_sentinel_records pendingState (by decide)).1,
    (C12_reset_writes_all_sentinel_records pendingState (by decide)).2.1⟩

/-! ## The write log determines the cells -/

theorem applyWrites_append (c : Nat → Nat) (l1 l2 : List (Nat × Nat)) :
    applyWrites c (l1 ++ l2) = applyWrites (applyWrites c l1) l2 := by
  unfold applyWrites
  rw [List.foldl_append]

theorem tracks_nil (e : EEPROMClass) : Tracks e e [] := ⟨by simp, rfl⟩

theorem tracks_trans {e1 e2 e3 : EEPROMClass} {l1 l2 : List (Nat × Nat)}
    (h12 : Tracks e1 e2 l1) (h23 : Tracks e2 e3 l2) : Tracks e1 e3 (l1 ++ l2) := by
  refine ⟨by rw [h23.1, h12.1, List.append_assoc], ?_⟩
  rw [h23.2, h12.2, applyWrites_append]

theorem tracks_write (e : EEPROMClass) (a v : Nat) (hv : v < 256) :
    Tracks e (e.write a v) [(a, v)] := by
  unfold Tracks EEPROMClass.write applyWrites
  simp [Nat.mod_eq_of_lt hv]

theorem writeRecord_tracks (s : State) (i : Nat) :
    Tracks s.EEPROM (writeRecord s i).EEPROM (recordWrites s i) := by
  refine ⟨writeRecord_writes s i, ?_⟩
  funext a
  rw [writeRecord_cells]
  have r7 : List.range 7 = [0, 1, 2, 3, 4, 5, 6] := by decide
  unfold recordWrites recordBytes applyWrites
  rw [r7]
  simp only [List.map_cons, List.map_nil, List.foldl_cons, List.foldl_nil]
  rfl

theorem foldl_writeRecord_tracks (l : List Nat) (s : State) :
    Tracks s.EEPROM (l.foldl writeRecord s).EEPROM (l.flatMap (recordWrites s)) := by
  induction l generalizing s with
  | nil => exact tracks_nil _
  | cons i l ih =>
    simp only [List.foldl_cons, List.flatMap_cons]
    have h2 := ih (writeRecord s i)
    have e : recordWrites (writeRecord s i) = recordWrites s := rfl
    rw [e] at h2
    exact tracks_trans (writeRecord_tracks s i) h2

theorem writeFrame_tracks (s : State) : Tracks s.EEPROM (writeFrame s).EEPROM (frameWrites s) := by
  rw [writeFrame_EEPROM]
  have h1 : Tracks s.EEPROM (frameHead s).EEPROM
      [(s.address_, highByte s.magic_), ((s.address_ + 1) % UINT, lowByte s.magic_)] :=
    tracks_trans (tracks_write _ _ _ (highByte_lt _)) (tracks_write _ _ _ (lowByte_lt _))
  have h2 : Tracks (frameHead s).EEPROM (frameBody s).EEPROM
      ((List.range s.number_).flatMap (recordWrites s)) :=
    foldl_writeRecord_tracks (List.range s.number_) (frameHead s)
  have h3 := tracks_trans (tracks_write (frameBody s).EEPROM
    ((s.address_ + 2 + 7 * s.number_) % UINT) _ (highByte_lt s.magic_))
    (tracks_write _ ((s.address_ + 3 + 7 * s.number_) % UINT) _ (lowByte_lt s.magic_))
  exact tracks_trans (tracks_trans h1 h2) h3

theorem writeScore_pending_tracks (s : State) (k : Nat) (hwm : s.writeMagic_ = true) :
    Tracks s.EEPROM (writeScore s k).EEPROM (frameWrites s ++ recordWrites s k) := by
  rw [writeScore_pending s k hwm]
  have h := writeRecord_tracks (writeFrame s) k
  obtain ⟨⟨_, a2, _, a4, _, _⟩, _⟩ := writeFrame_same s
  have e : recordWrites (writeFrame s) k = recordWrites s k := by
    unfold recordWrites
    rw [a2, a4]
  rw [e] at h
  exact tracks_trans (writeFrame_tracks s) h

/-! ## The layout of the region -/

theorem applyWrites_untouched (c : Nat → Nat) (l : List (Nat × Nat)) (a : Nat)
    (h : ∀ w, w ∈ l → w.1 ≠ a) : applyWrites c l a = c a := by
  induction l generalizing c with
  | nil => rfl
  | cons w0 l ih =>
    unfold applyWrites
    simp only [List.foldl_cons]
    have := ih (fun a => if a = w0.1 then w0.2 else c a)
      (fun w hw => h w (List.mem_cons_of_mem _ hw))
    unfold applyWrites at this
    rw [this]
    have hne : a ≠ w0.1 := fun e => h w0 (List.mem_cons_self _ _) e.symm
    simp only [if_neg hne]

/-- When no two writes of the list put different bytes at one address, every
written address ends up holding the byte written to it. -/
theorem applyWrites_mem (c : Nat → Nat) (l : List (Nat × Nat))
    (hf : ∀ w, w ∈ l → ∀ w', w' ∈ l → w.1 = w'.1 → w.2 = w'.2) (w : Nat × Nat) (hw : w ∈ l) :
    applyWrites c l w.1 = w.2 := by
  induction l generalizing c w with
  | nil => exact absurd hw (List.not_mem_nil _)
  | cons w0 l ih =>
    have hstep : applyWrites c (w0 :: l) =
        applyWrites (fun a => if a = w0.1 then w0.2 else c a) l := rfl
    rw [hstep]
    by_cases hex : ∃ w', w' ∈ l ∧ w'.1 = w.1
    · obtain ⟨w', hw', hadr⟩ := hex
      have := ih (fun a => if a = w0.1 then w0.2 else c a)
        (fun x hx y hy => hf x (List.mem_cons_of_mem _ hx) y (List.mem_cons_of_mem _ hy)) w' hw'
      rw [← hadr, this]
      exact hf w' (List.mem_cons_of_mem _ hw') w hw hadr
    · have hnone : ∀ w', w' ∈ l → w'.1 ≠ w.1 := fun w' hw' e => hex ⟨w', hw', e⟩
      rw [applyWrites_untouched _ _ _ hnone]
      rcases List.mem_cons.mp hw with h | h
      · rw [h]; simp
      · exact absurd rfl (hnone w h)

theorem inLayout_functional (s : State) (hN5 : s.number_ ≤ 5) (w w' : Nat × Nat)
    (hw : InLayout s (4 + 7 * s.number_) w) (hw' : InLayout s (4 + 7 * s.number_) w')
    (h : w.1 = w'.1) : w.2 = w'.2 := by
  obtain ⟨x, hx, rfl⟩ := hw
  obtain ⟨x', hx', rfl⟩ := hw'
  simp only at h ⊢
  by_cases hxx : x = x'
  · rw [hxx]
  · exact absurd h (mod_add_ne s.address_ x x' (by omega) (by omega) hxx)

theorem inLayout_mono (s : State) (b b' : Nat) (hb : b ≤ b') (w : Nat × Nat)
    (h : InLayout s b w) : InLayout s b' w := by
  obtain ⟨x, hx, e⟩ := h
  exact ⟨x, by omega, e⟩

theorem recordWrites_layout (s : State) (i : Nat) (hi : i < s.number_) (w : Nat × Nat)
    (hw : w ∈ recordWrites s i) : InLayout s (2 + 7 * s.number_) w := by
  unfold recordWrites at hw
  rw [List.mem_map] at hw
  obtain ⟨j, hj, rfl⟩ := hw
  rw [List.mem_range] at hj
  refine ⟨2 + 7 * i + j, by omega, ?_⟩
  have e1 : s.address_ + 2 + 7 * i + j = s.address_ + (2 + 7 * i + j) := by omega
  have e2 : (2 + 7 * i + j - 2) / 7 = i := by omega
  have e3 : (2 + 7 * i + j - 2) % 7 = j := by omega
  unfold regionByte
  rw [e1, if_neg (by omega), if_neg (by omega), if_pos (by omega), e2, e3]

theorem recordWrites_mem (s : State) (i j : Nat) (hj : j < 7) :
    ((s.address_ + (2 + 7 * i + j)) % UINT, (recordBytes (s.scores i)).getD j 0) ∈
      recordWrites s i := by
  unfold recordWrites
  rw [List.mem_map]
  refine ⟨j, List.mem_range.mpr hj, ?_⟩
  have e1 : s.address_ + 2 + 7 * i + j = s.address_ + (2 + 7 * i + j) := by omega
  rw [e1]

theorem frameWrites_split (s : State) : frameWrites s = frameFront s ++ frameTail s := rfl

theorem frameFront_layout (s : State) (hA : s.address_ < UINT) (w : Nat × Nat)
    (hw : w ∈ frameFront s) : InLayout s (2 + 7 * s.number_) w := by
  unfold frameFront at hw
  rcases List.mem_append.mp hw with h | h
  · simp only [List.mem_cons, List.mem_singleton, List.not_mem_nil, or_false] at h
    rcases h with rfl | rfl
    · exact ⟨0, by omega, by simp [regionByte, Nat.mod_eq_of_lt hA]⟩
    · exact ⟨1, by omega, by simp [regionByte]⟩
  · rw [List.mem_flatMap] at h
    obtain ⟨i, hi, hwi⟩ := h
    exact recordWrites_layout s i (List.mem_range.mp hi) w hwi

theorem frameTail_layout (s : State) (w : Nat × Nat) (hw : w ∈ frameTail s) :
    InLayout s (4 + 7 * s.number_) w := by
  unfold frameTail at hw
  simp only [List.mem_cons, List.mem_singleton, List.not_mem_nil, or_false] at hw
  rcases hw with rfl | rfl
  · refine ⟨2 + 7 * s.number_, by omega, ?_⟩
    have e : s.address_ + 2 + 7 * s.number_ = s.address_ + (2 + 7 * s.number_) := by omega
    unfold regionByte
    rw [e, if_neg (by omega), if_neg (by omega), if_neg (by omega), if_pos rfl]
  · refine ⟨3 + 7 * s.number_, by omega, ?_⟩
    have e : s.address_ + 3 + 7 * s.number_ = s.address_ + (3 + 7 * s.number_) := by omega
    unfold regionByte
    rw [e, if_neg (by omega), if_neg (by omega), if_neg (by omega), if_neg (by omega)]

theorem frameFront_mem (s : State) (hA : s.address_ < UINT) (x : Nat)
    (hx : x < 2 + 7 * s.number_) :
    ((s.address_ + x) % UINT, regionByte s x) ∈ frameFront s := by
  unfold frameFront
  by_cases h0 : x = 0
  · subst h0
    apply List.mem_append_left
    simp [regionByte, Nat.mod_eq_of_lt hA]
  · by_cases h1 : x = 1
    · subst h1
      apply List.mem_append_left
      simp [regionByte]
    · apply List.mem_append_right
      rw [List.mem_flatMap]
      refine ⟨(x - 2) / 7, List.mem_range.mpr (by omega), ?_⟩
      have := recordWrites_mem s ((x - 2) / 7) ((x - 2) % 7) (by omega)
      have e : 2 + 7 * ((x - 2) / 7) + (x - 2) % 7 = x := by omega
      rw [e] at this
      unfold regionByte
      rw [if_neg h0, if_neg h1, if_pos hx]
      exact this

theorem frameTail_mem (s : State) (x : Nat) (hlo : 2 + 7 * s.number_ ≤ x)
    (hx : x < 4 + 7 * s.number_) :
    ((s.address_ + x) % UINT, regionByte s x) ∈ frameTail s := by
  unfold frameTail regionByte
  by_cases h : x = 2 + 7 * s.number_
  · subst h
    rw [if_neg (by omega), if_neg (by omega), if_neg (by omega), if_pos rfl]
    have e : s.address_ + 2 + 7 * s.number_ = s.address_ + (2 + 7 * s.number_) := by omega
    rw [e]
    exact List.mem_cons_self _ _
  · have h3 : x = 3 + 7 * s.number_ := by omega
    subst h3
    rw [if_neg (by omega), if_neg (by omega), if_neg (by omega), if_neg (by omega)]
    have e : s.address_ + 3 + 7 * s.number_ = s.address_ + (3 + 7 * s.number_) := by omega
    rw [e]
    exact List.mem_cons_of_mem _ (List.mem_cons_self _ _)

/-- After the first persisted write the cell at every offset of the region holds
the byte of the layout. -/
theorem first_write_layout (s : State) (k : Nat) (hN5 : s.number_ ≤ 5)
    (hA : s.address_ < UINT) (hwm : s.writeMagic_ = true) (hk : k < s.number_)
    (x : Nat) (hx : x < 4 + 7 * s.number_) :
    (writeScore s k).EEPROM.cells ((s.address_ + x) % UINT) = regionByte s x := by
  obtain ⟨_, hc⟩ := writeScore_pending_tracks s k hwm
  rw [hc]
  have hall : ∀ w, w ∈ frameWrites s ++ recordWrites s k → InLayout s (4 + 7 * s.number_) w := by
    intro w hw
    rw [frameWrites_split] at hw
    rcases List.mem_append.mp hw with h | h
    · rcases List.mem_append.mp h with h | h
      · exact inLayout_mono s _ _ (by omega) w (frameFront_layout s hA w h)
      · exact frameTail_layout s w h
    · exact inLayout_mono s _ _ (by omega) w (recordWrites_layout s k hk w h)
  have hmem : ((s.address_ + x) % UINT, regionByte s x) ∈ frameWrites s ++ recordWrites s k := by
    apply List.mem_append_left
    rw [frameWrites_split]
    by_cases h : x < 2 + 7 * s.number_
    · exact List.mem_append_left _ (frameFront_mem s hA x h)
    · exact List.mem_append_right _ (frameTail_mem s x (by omega) hx)
  exact applyWrites_mem _ _
    (fun w hw w' hw' => inLayout_functional s hN5 w w' (hall w hw) (hall w' hw')) _ hmem

theorem regionByte_record (s : State) (i j : Nat) (hi : i < s.number_) (hj : j < 7) :
    regionByte s (2 + 7 * i + j) = (recordBytes (s.scores i)).getD j 0 := by
  have e2 : (2 + 7 * i + j - 2) / 7 = i := by omega
  have e3 : (2 + 7 * i + j - 2) % 7 = j := by omega
  unfold regionByte
  rw [if_neg (by omega), if_neg (by omega), if_pos (by omega), e2, e3]

theorem key_byte (v : Nat) (n : Name) (j : Nat) (hj : j < 4) :
    (recordBytes ⟨v, n⟩).getD j 0 = (v >>> (8 * j)) &&& 0xFF := by
  rw [and_ff, Nat.shiftRight_eq_div_pow]
  unfold recordBytes
  interval_cases j <;> simp

theorem name_byte (e : DeuligneHiScore) (j : Nat) (hj : j < 3) :
    (recordBytes e).getD (4 + j) 0 = e.name.get j % 256 := by
  unfold recordBytes Name.get
  interval_cases j <;> simp

/-- C13: with at most 5 slots, a base address `A` in the `unsigned int` range and a
16-bit magic `M`, after a `writeScore` made with `writeMagic_` set the store holds
`M >> 8` at `A` and `M & 0xFF` at `A + 1`; byte `k < 4` of record `i` at
`A + 2 + 7i + k` is `(key_i >> 8k) & 0xFF`; byte `k < 3` of the name at
`A + 2 + 7i + 4 + k` is the character `name_i[k]` as a byte; and `A + 2 + 7N`,
`A + 3 + 7N` hold `M >> 8` and `M & 0xFF` again. Addresses are taken in
`unsigned int` arithmetic. -/
theorem C13_first_write_lays_out_region (s : State) (idx : Nat) (hN5 : s.number_ ≤ 5)
    (hA : s.address_ < UINT) (hM : s.magic_ < 65536) (hwm : s.writeMagic_ = true)
    (hidx : idx < s.number_) :
    (writeScore s idx).EEPROM.cells s.address_ = s.magic_ >>> 8 ∧
    (writeScore s idx).EEPROM.cells ((s.address_ + 1) % UINT) = s.magic_ &&& 0xFF ∧
    (∀ i k, i < s.number_ → k < 4 →
      (writeScore s idx).EEPROM.cells ((s.address_ + 2 + 7 * i + k) % UINT) =
        ((s.scores i).value >>> (8 * k)) &&& 0xFF) ∧
    (∀ i k, i < s.number_ → k < 3 →
      (writeScore s idx).EEPROM.cells ((s.address_ + 2 + 7 * i + 4 + k) % UINT) =
        (s.scores i).name.get k % 256) ∧
    (writeScore s idx).EEPROM.cells ((s.address_ + 2 + 7 * s.number_) % UINT) = s.magic_ >>> 8 ∧
    (writeScore s idx).EEPROM.cells ((s.address_ + 3 + 7 * s.number_) % UINT) =
      s.magic_ &&& 0xFF := by
  have lay := first_write_layout s idx hN5 hA hwm hidx
  have hhi : highByte s.magic_ = s.magic_ >>> 8 := by
    unfold highByte; rw [shr8]; omega
  have hlo : lowByte s.magic_ = s.magic_ &&& 0xFF := by
    unfold lowByte; rw [and_ff]; omega
  refine ⟨?_, ?_, ?_, ?_, ?_, ?_⟩
  · have := lay 0 (by omega)
    rw [Nat.add_zero, Nat.mod_eq_of_lt hA] at this
    rw [this, ← hhi]; simp [regionByte]
  · rw [lay 1 (by omega), ← hlo]; simp [regionByte]
  · intro i k hi hk
    have e : s.address_ + 2 + 7 * i + k = s.address_ + (2 + 7 * i + k) := by omega
    rw [e, lay _ (by omega), regionByte_record s i k hi (by omega)]
    exact key_byte _ _ k hk
  · intro i k hi hk
    have e : s.address_ + 2 + 7 * i + 4 + k = s.address_ + (2 + 7 * i + (4 + k)) := by omega
    rw [e, lay _ (by omega), regionByte_record s i (4 + k) hi (by omega)]
    exact name_byte _ k hk
  · have e : s.address_ + 2 + 7 * s.number_ = s.address_ + (2 + 7 * s.number_) := by omega
    rw [e, lay _ (by omega), ← hhi]
    unfold regionByte
    rw [if_neg (by omega), if_neg (by omega), if_neg (by omega), if_pos rfl]
  · have e : s.address_ + 3 + 7 * s.number_ = s.address_ + (3 + 7 * s.number_) := by omega
    rw [e, lay _ (by omega), ← hlo]
    unfold regionByte
    rw [if_neg (by omega), if_neg (by omega), if_neg (by omega), if_neg (by omega)]

/-- C13 on `pendingState` (two slots at address 10, magic `0xC15E`, keys 1455 and
975): cell 10 holds `0xC1`, cell 12 holds `1455 & 0xFF = 175` and cell 26 holds `0xC1`. -/
theorem C13_first_write_lays_out_region_witness :
    (pendingState.number_ ≤ 5 ∧ pendingState.address_ < UINT ∧ pendingState.magic_ < 65536 ∧
      pendingState.writeMagic_ = true ∧ 0 < pendingState.number_) ∧
    (writeScore pendingState 0).EEPROM.cells 12 = 175 ∧
    (writeScore pendingState 0).EEPROM.cells pendingState.address_ = pendingState.magic_ >>> 8 ∧
    (writeScore pendingState 0).EEPROM.cells
      ((pendingState.address_ + 2 + 7 * pendingState.number_) % UINT) =
        pendingState.magic_ >>> 8 :=
  ⟨⟨by decide, by decide, by decide, by decide, by decide⟩, by decide,
    (C13_first_write_lays_out_region pendingState 0 (by decide) (by decide) (by decide)
      (by decide) (by decide)).1,
    (C13_first_write_lays_out_region pendingState 0 (by decide) (by decide) (by decide)
      (by decide) (by decide)).2.2.2.2.1⟩

/-! ## An interrupted initialisation -/

theorem recordWrites_length (s : State) (i : Nat) : (recordWrites s i).length = 7 := by
  simp [recordWrites]

theorem flatMap_recordWrites_length (s : State) (n : Nat) :
    ((List.range n).flatMap (recordWrites s)).length = 7 * n := by
  induction n with
  | zero => simp
  | succ n ih =>
    rw [List.range_succ, List.flatMap_append, List.length_append, ih]
    simp [recordWrites_length]
    omega

theorem frameFront_length (s : State) : (frameFront s).length = 2 + 7 * s.number_ := by
  unfold frameFront
  rw [List.length_append, flatMap_recordWrites_length]
  simp

theorem firstWrites_split (s : State) (idx : Nat) :
    firstWrites s idx = frameFront s ++ (frameTail s ++ recordWrites s idx) := by
  unfold firstWrites
  rw [frameWrites_split, List.append_assoc]

theorem firstWrites_layout (s : State) (idx : Nat) (hA : s.address_ < UINT)
    (hidx : idx < s.number_) (w : Nat × Nat) (hw : w ∈ firstWrites s idx) :
    InLayout s (4 + 7 * s.number_) w := by
  rw [firstWrites_split] at hw
  rcases List.mem_append.mp hw with h | h
  · exact inLayout_mono s _ _ (by omega) w (frameFront_layout s hA w h)
  · rcases List.mem_append.mp h with h | h
    · exact frameTail_layout s w h
    · exact inLayout_mono s _ _ (by omega) w (recordWrites_layout s idx hidx w h)

/-- When the leading bytes are the magic, `begin` leaves `writeMagic_` false. -/
theorem begin_leading_match (s : State) (N A M : Nat) (overwrite : Bool)
    (hN1 : 1 ≤ N) (hN5 : N ≤ 5)
    (h : s.EEPROM.read A = highByte M ∧ s.EEPROM.read ((A + 1) % UINT) = lowByte M) :
    (begin s N A M overwrite).writeMagic_ = false := by
  have n5 : ¬ N > 5 := by omega
  have n1 : ¬ N < 1 := by omega
  unfold begin confirmOverwrite
  simp only [n5, n1, if_false, h.1, h.2, and_self, if_true]
  split_ifs <;> rfl

/-- When `begin` ends with no framing pending and no dialogue run, the trailing
bytes are the magic. -/
theorem begin_valid_trailing (s : State) (N A M : Nat) (overwrite : Bool)
    (hN1 : 1 ≤ N) (hN5 : N ≤ 5)
    (hw : (begin s N A M overwrite).writeMagic_ = false)
    (hc : (begin s N A M overwrite).confirms = s.confirms) :
    s.EEPROM.read ((A + 2 + 7 * N) % UINT) = highByte M ∧
    s.EEPROM.read ((A + 3 + 7 * N) % UINT) = lowByte M := by
  have n5 : ¬ N > 5 := by omega
  have n1 : ¬ N < 1 := by omega
  have ha : ((A + 1) % UINT + 1) % UINT < UINT := Nat.mod_lt _ (by unfold UINT; omega)
  have e2 : (((A + 1) % UINT + 1) % UINT + 7 * N) % UINT = (A + 2 + 7 * N) % UINT := by
    unfold UINT; omega
  have e3 : ((A + 2 + 7 * N) % UINT + 1) % UINT = (A + 3 + 7 * N) % UINT := by
    unfold UINT; omega
  by_cases hl : s.EEPROM.read A = highByte M ∧ s.EEPROM.read ((A + 1) % UINT) = lowByte M
  · by_cases ht : s.EEPROM.read ((A + 2 + 7 * N) % UINT) = highByte M ∧
        s.EEPROM.read ((A + 3 + 7 * N) % UINT) = lowByte M
    · exact ht
    · exfalso
      have hd : decide (s.EEPROM.read ((A + 2 + 7 * N) % UINT) = highByte M ∧
          s.EEPROM.read ((A + 3 + 7 * N) % UINT) = lowByte M) = false :=
        decide_eq_false_iff_not.mpr ht
      unfold begin at hc
      simp only [n5, n1, if_false, hl.1, hl.2, and_self, if_true] at hc
      rw [readScores_snd _ _ _ _ ha, e2, e3] at hc
      simp only [hd] at hc
      simp [confirmOverwrite] at hc
  · exfalso
    unfold begin confirmOverwrite at hw
    simp only [n5, n1, if_false, hl] at hw
    split_ifs at hw
theorem storeAfter_read (e : EEPROMClass) (p : List (Nat × Nat)) (a : Nat)
    (h : ∀ w, w ∈ p → w.1 ≠ a) : (storeAfter e p).read a = e.read a := by
  unfold storeAfter EEPROMClass.read
  simp only
  rw [applyWrites_untouched _ _ _ h]

/-- C18: with 1 to 5 slots, a base address in the `unsigned int` range, a region
that reads `0xFF` at every offset and that `begin` classifies as empty (framing
pending, no dialogue), let `W` be the writes of the first `writeScore` (it is made
with `writeMagic_` set). The log of that `writeScore` is the old log followed by
`W`; and if, on the store reached by the first `n` writes of `W` only, `begin`
accepts the region without a dialogue and with no framing pending, then more than
`2 + 7N` writes were made, that is the leading magic and all `N` records, and every
record byte in that store is the byte of the in-memory entry. -/
theorem C18_interrupted_initialisation_not_accepted (s u : State) (idx n : Nat)
    (overwrite : Bool) (hN1 : 1 ≤ s.number_) (hN5 : s.number_ ≤ 5) (hA : s.address_ < UINT)
    (herased : ∀ x, x < 4 + 7 * s.number_ → s.EEPROM.read ((s.address_ + x) % UINT) = 0xff)
    (hclass : (begin s s.number_ s.address_ s.magic_ false).writeMagic_ = true ∧
      (begin s s.number_ s.address_ s.magic_ false).confirms = s.confirms)
    (hwm : s.writeMagic_ = true) (hidx : idx < s.number_)
    (hvalid :
      (begin { u with EEPROM := storeAfter s.EEPROM ((firstWrites s idx).take n) }
        s.number_ s.address_ s.magic_ overwrite).validMagicNumber_ = true ∧
      (begin { u with EEPROM := storeAfter s.EEPROM ((firstWrites s idx).take n) }
        s.number_ s.address_ s.magic_ overwrite).writeMagic_ = false ∧
      (begin { u with EEPROM := storeAfter s.EEPROM ((firstWrites s idx).take n) }
        s.number_ s.address_ s.magic_ overwrite).confirms = u.confirms) :
    (writeScore s idx).EEPROM.writes = s.EEPROM.writes ++ firstWrites s idx ∧
    2 + 7 * s.number_ < n ∧
    ∀ i j, i < s.number_ → j < 7 →
      (storeAfter s.EEPROM ((firstWrites s idx).take n)).cells
        ((s.address_ + 2 + 7 * i + j) % UINT) = (recordBytes (s.scores i)).getD j 0 := by
  have hlog := (writeScore_pending_tracks s idx hwm).1
  -- the magic is not the erased pattern
  have hmag : ¬ (0xff = highByte s.magic_ ∧ 0xff = lowByte s.magic_) := by
    intro hm
    have r0 : s.EEPROM.read s.address_ = 0xff := by
      have := herased 0 (by omega)
      rwa [Nat.add_zero, Nat.mod_eq_of_lt hA] at this
    have r1 : s.EEPROM.read ((s.address_ + 1) % UINT) = 0xff := herased 1 (by omega)
    have := begin_leading_match s s.number_ s.address_ s.magic_ false hN1 hN5
      ⟨by rw [r0]; exact hm.1, by rw [r1]; exact hm.2⟩
    rw [this] at hclass
    exact absurd hclass.1 (by simp)
  obtain ⟨t1, t2⟩ := begin_valid_trailing
    { u with EEPROM := storeAfter s.EEPROM ((firstWrites s idx).take n) }
    s.number_ s.address_ s.magic_ overwrite hN1 hN5 hvalid.2.1 hvalid.2.2
  have t1' : (storeAfter s.EEPROM ((firstWrites s idx).take n)).read
      ((s.address_ + 2 + 7 * s.number_) % UINT) = highByte s.magic_ := t1
  have t2' : (storeAfter s.EEPROM ((firstWrites s idx).take n)).read
      ((s.address_ + 3 + 7 * s.number_) % UINT) = lowByte s.magic_ := t2
  have hlen := frameFront_length s
  have hn : 2 + 7 * s.number_ < n := by
    by_contra hcon
    have hle : n ≤ (frameFront s).length := by omega
    have hp : (firstWrites s idx).take n = (frameFront s).take n := by
      rw [firstWrites_split, List.take_append_of_le_length hle]
    have hfront : ∀ w, w ∈ (firstWrites s idx).take n → InLayout s (2 + 7 * s.number_) w := by
      intro w hw
      rw [hp] at hw
      exact frameFront_layout s hA w (List.mem_of_mem_take hw)
    have hun : ∀ x, 2 + 7 * s.number_ ≤ x → x < 4 + 7 * s.number_ →
        (storeAfter s.EEPROM ((firstWrites s idx).take n)).read ((s.address_ + x) % UINT) =
          0xff := by
      intro x hx1 hx2
      rw [storeAfter_read, herased x hx2]
      intro w hw
      obtain ⟨y, hy, rfl⟩ := hfront w hw
      exact mod_add_ne s.address_ y x (by omega) (by omega) (by omega)
    have u1 := hun (2 + 7 * s.number_) (by omega) (by omega)
    have u2 := hun (3 + 7 * s.number_) (by omega) (by omega)
    have e1 : s.address_ + (2 + 7 * s.number_) = s.address_ + 2 + 7 * s.number_ := by omega
    have e2 : s.address_ + (3 + 7 * s.number_) = s.address_ + 3 + 7 * s.number_ := by omega
    rw [e1] at u1
    rw [e2] at u2
    exact hmag ⟨by rw [← u1, t1'], by rw [← u2, t2']⟩
  refine ⟨hlog, hn, ?_⟩
  intro i j hi hj
  have hp : (firstWrites s idx).take n =
      frameFront s ++ (frameTail s ++ recordWrites s idx).take (n - (frameFront s).length) := by
    rw [firstWrites_split, List.take_append_eq_append_take, List.take_of_length_le (by omega)]
  have hfun : ∀ w, w ∈ (firstWrites s idx).take n → ∀ w', w' ∈ (firstWrites s idx).take n →
      w.1 = w'.1 → w.2 = w'.2 := by
    intro w hw w' hw'
    exact inLayout_functional s hN5 w w'
      (firstWrites_layout s idx hA hidx w (List.mem_of_mem_take hw))
      (firstWrites_layout s idx hA hidx w' (List.mem_of_mem_take hw'))
  have hmem : ((s.address_ + (2 + 7 * i + j)) % UINT, regionByte s (2 + 7 * i + j)) ∈
      (firstWrites s idx).take n := by
    rw [hp]
    exact List.mem_append_left _ (frameFront_mem s hA _ (by omega))
  have := applyWrites_mem s.EEPROM.cells _ hfun _ hmem
  simp only at this
  have e : s.address_ + 2 + 7 * i + j = s.address_ + (2 + 7 * i + j) := by omega
  rw [e]
  show applyWrites s.EEPROM.cells ((firstWrites s idx).take n) _ = _
  rw [this, regionByte_record s i j hi hj]

/-- C18 on `pendingState` (two slots at address 10 over an erased store): after the
first 18 writes (framing and both records) `begin` accepts the region and the
records in the store are those of the table in memory. -/
theorem C18_interrupted_initialisation_not_accepted_witness :
    (1 ≤ pendingState.number_ ∧ pendingState.number_ ≤ 5 ∧ pendingState.address_ < UINT ∧
      (∀ x, x < 4 + 7 * pendingState.number_ →
        pendingState.EEPROM.read ((pendingState.address_ + x) % UINT) = 0xff) ∧
      ((begin pendingState pendingState.number_ pendingState.address_ pendingState.magic_
          false).writeMagic_ = true ∧
        (begin pendingState pendingState.number_ pendingState.address_ pendingState.magic_
          false).confirms = pendingState.confirms) ∧
      pendingState.writeMagic_ = true ∧ 0 < pendingState.number_ ∧
      (begin { fresh (constStore 0) with
          EEPROM := storeAfter pendingState.EEPROM ((firstWrites pendingState 0).take 18) }
        pendingState.number_ pendingState.address_ pendingState.magic_ false).validMagicNumber_
          = true) ∧
    (begin { fresh (constStore 0) with
        EEPROM := storeAfter pendingState.EEPROM ((firstWrites pendingState 0).take 17) }
      pendingState.number_ pendingState.address_ pendingState.magic_ false).confirms = 1 ∧
    2 + 7 * pendingState.number_ < 18 ∧
    ∀ i j, i < pendingState.number_ → j < 7 →
      (storeAfter pendingState.EEPROM ((firstWrites pendingState 0).take 18)).cells
        ((pendingState.address_ + 2 + 7 * i + j) % UINT) =
          (recordBytes (pendingState.scores i)).getD j 0 :=
  ⟨⟨by decide, by decide, by decide, by decide, by decide, by decide, by decide, by decide⟩,
    by decide,
    (C18_interrupted_initialisation_not_accepted pendingState (fresh (constStore 0)) 0 18 false
      (by decide) (by decide) (by decide) (by decide) (by decide) (by decide) (by decide)
      (by decide)).2⟩

/-! ## `display`: one row -/

theorem and_two_pow_eq_zero (d j : Nat) : d &&& 2 ^ j = 0 ↔ d.testBit j = false := by
  constructor
  · intro h
    have := Nat.testBit_and d (2 ^ j) j
    rw [h, Nat.zero_testBit, Nat.testBit_two_pow_self, Bool.and_true] at this
    exact this.symm
  · intro h
    apply Nat.eq_of_testBit_eq
    intro i
    rw [Nat.testBit_and, Nat.zero_testBit, Nat.testBit_two_pow]
    by_cases hji : j = i
    · subst hji; simp [h]
    · simp [hji]

theorem pickStep_mask (sc : Nat → DeuligneHiScore) (d : Nat) (p : Pick) (j : Nat) :
    (pickStep sc d p j).mask = (p.mask <<< 1) % UINT := by
  unfold pickStep
  simp only
  split_ifs <;> rfl

theorem pickStep_rest (sc : Nat → DeuligneHiScore) (d : Nat) (p : Pick) (j : Nat) :
    (pickStep sc d p j).maxScore =
      (if d &&& p.mask = 0 ∧ (sc j).value > p.maxScore then (sc j).value else p.maxScore) ∧
    (pickStep sc d p j).maxIndex =
      (if d &&& p.mask = 0 ∧ (sc j).value > p.maxScore then j else p.maxIndex) := by
  unfold pickStep
  simp only
  split_ifs <;> simp_all

theorem pick_fold_inv (sc : Nat → DeuligneHiScore) (d n : Nat) (hn : n ≤ 15) :
    PickInv sc d n ((List.range n).foldl (pickStep sc d) ⟨1, 0, 0⟩) := by
  induction n with
  | zero =>
    exact ⟨rfl, Or.inl ⟨rfl, rfl, fun j hj => absurd hj (Nat.not_lt_zero j)⟩⟩
  | succ n ih =>
    rw [List.range_succ, List.foldl_append]
    simp only [List.foldl_cons, List.foldl_nil]
    have ih' := ih (by omega)
    generalize (List.range n).foldl (pickStep sc d) ⟨1, 0, 0⟩ = p at ih'
    obtain ⟨hmask, hrest⟩ := ih'
    obtain ⟨hs, hi⟩ := pickStep_rest sc d p n
    have hpow : (2 : Nat) ^ n ≤ 16384 := by
      have : (2 : Nat) ^ n ≤ 2 ^ 14 := Nat.pow_le_pow_right (by norm_num) (by omega)
      omega
    refine ⟨?_, ?_⟩
    · have hsh : (2 ^ n) <<< 1 = 2 ^ n * 2 := by simp [Nat.shiftLeft_eq]
      rw [pickStep_mask, hmask, hsh, Nat.pow_succ]
      generalize (2 : Nat) ^ n = x at hpow ⊢
      exact Nat.mod_eq_of_lt (by unfold UINT; omega)
    · rw [hs, hi, hmask]
      by_cases hc : d &&& 2 ^ n = 0 ∧ (sc n).value > p.maxScore
      · rw [if_pos hc, if_pos hc]
        right
        refine ⟨by omega, (and_two_pow_eq_zero d n).mp hc.1, rfl, by omega, ?_⟩
        intro j hj hav
        rcases Nat.lt_succ_iff_lt_or_eq.mp hj with h | h
        · rcases hrest with ⟨a, _, c⟩ | ⟨_, _, _, _, e⟩
          · have := c j h hav; omega
          · have := e j h hav; omega
        · subst h; exact le_refl _
      · rw [if_neg hc, if_neg hc]
        rcases hrest with ⟨a, b, c⟩ | ⟨a, b, c, e, f⟩
        · left
          refine ⟨a, b, ?_⟩
          intro j hj hav
          rcases Nat.lt_succ_iff_lt_or_eq.mp hj with h | h
          · exact c j h hav
          · subst h
            by_contra hne
            exact hc ⟨(and_two_pow_eq_zero d j).mpr hav, by omega⟩
        · right
          refine ⟨by omega, b, c, e, ?_⟩
          intro j hj hav
          rcases Nat.lt_succ_iff_lt_or_eq.mp hj with h | h
          · exact f j h hav
          · subst h
            by_contra hne
            exact hc ⟨(and_two_pow_eq_zero d j).mpr hav, by omega⟩

/-- The bit set of `display` after the bit `k` has been set. -/
theorem displayed_bit (d k i : Nat) (hk : k < 16) (hi : i < 16) :
    ((d ||| ((1 <<< k) % UINT)) % UINT).testBit i = (d.testBit i || decide (k = i)) := by
  have hU : UINT = 2 ^ 16 := by norm_num [UINT]
  have hlt : (2 : Nat) ^ k < 2 ^ 16 := Nat.pow_lt_pow_right (by norm_num) hk
  rw [hU, Nat.testBit_mod_two_pow, Nat.testBit_or, Nat.one_shiftLeft, Nat.mod_eq_of_lt hlt,
    Nat.testBit_two_pow]
  simp [hi]

/-- One row of `display` when some entry not displayed yet has a key above 0: the
row shows the entry with the largest key among those, and marks it. -/
theorem displayRow_spec (s : State) (d : Nat) (hN : s.number_ ≤ 15)
    (hex : ∃ i, i < s.number_ ∧ d.testBit i = false ∧ 0 < (s.scores i).value) :
    (displayRow s d).1 < s.number_ ∧ d.testBit (displayRow s d).1 = false ∧
    (∀ j, j < s.number_ → d.testBit j = false →
      (s.scores j).value ≤ (s.scores (displayRow s d).1).value) ∧
    ∀ i, i < 16 → (displayRow s d).2.testBit i = (d.testBit i || decide ((displayRow s d).1 = i)) := by
  have hinv := pick_fold_inv s.scores d s.number_ hN
  unfold displayRow
  simp only
  generalize (List.range s.number_).foldl (pickStep s.scores d) ⟨1, 0, 0⟩ = p at hinv
  obtain ⟨_, hrest⟩ := hinv
  rcases hrest with ⟨_, _, c⟩ | ⟨a, b, c, _, f⟩
  · obtain ⟨i, hi, hav, hpos⟩ := hex
    have := c i hi hav
    omega
  · refine ⟨a, b, ?_, ?_⟩
    · intro j hj hav
      rw [c]; exact f j hj hav
    · intro i hi
      exact displayed_bit d p.maxIndex i (by omega) hi

/-! ## `display`: all rows -/

theorem display_eq (s : State) : display s = (displayUpTo s s.number_).1 := rfl

theorem displayUpTo_succ (s : State) (r : Nat) :
    displayUpTo s (r + 1) =
      ((displayUpTo s r).1 ++ [(displayRow s (displayUpTo s r).2).1],
        (displayRow s (displayUpTo s r).2).2) := by
  unfold displayUpTo
  rw [List.range_succ, List.foldl_append]
  rfl

/-- A list of fewer than `n` different indices below `n` misses one of them. -/
theorem exists_not_shown (L : List Nat) (n : Nat) (hlen : L.length < n) :
    ∃ i, i < n ∧ i ∉ L := by
  by_contra hcon
  have hsub : List.range n ⊆ L := by
    intro i hi
    by_contra hni
    exact hcon ⟨i, List.mem_range.mp hi, hni⟩
  have := (List.subperm_of_subset (List.nodup_range n) hsub).length_le
  rw [List.length_range] at this
  omega

theorem display_rows (s : State) (hN : s.number_ ≤ 15) (hd : Distinct s.scores s.number_)
    (hpos : ∀ i, i < s.number_ → 0 < (s.scores i).value) (r : Nat) (hr : r ≤ s.number_) :
    RowsInv s r (displayUpTo s r) := by
  induction r with
  | zero =>
    refine ⟨rfl, ?_, List.nodup_nil, ?_, List.Pairwise.nil, ?_⟩
    · intro i _
      simp [displayUpTo]
    · intro x hx; exact absurd hx (List.not_mem_nil _)
    · intro x hx; exact absurd hx (List.not_mem_nil _)
  | succ r ih =>
    obtain ⟨hlen, hbits, hnd, hlt, hpw, htop⟩ := ih (by omega)
    rw [displayUpTo_succ]
    generalize displayUpTo s r = acc at hlen hbits hnd hlt hpw htop
    obtain ⟨L, d⟩ := acc
    simp only at hlen hbits hnd hlt hpw htop ⊢
    obtain ⟨i0, hi0, hni0⟩ := exists_not_shown L s.number_ (by omega)
    have hav : ∀ i, i < s.number_ → (d.testBit i = false ↔ i ∉ L) := by
      intro i hi
      have := hbits i (by omega)
      constructor
      · intro h hm
        rw [this.mpr hm] at h
        exact absurd h (by simp)
      · intro h
        cases hb : d.testBit i
        · rfl
        · exact absurd (this.mp hb) h
    obtain ⟨hk, hkav, hmax, hbit⟩ :=
      displayRow_spec s d hN ⟨i0, hi0, (hav i0 hi0).mpr hni0, hpos i0 hi0⟩
    generalize (displayRow s d).1 = k at hk hkav hmax hbit
    have hkL : k ∉ L := (hav k hk).mp hkav
    refine ⟨?_, ?_, ?_, ?_, ?_, ?_⟩
    · simp [hlen]
    · intro i hi
      rw [hbit i hi, List.mem_append, List.mem_singleton, Bool.or_eq_true, hbits i hi]
      simp [eq_comm]
    · rw [List.nodup_append]
      refine ⟨hnd, List.nodup_singleton k, ?_⟩
      intro a ha hb
      rw [List.mem_singleton] at hb
      exact hkL (hb ▸ ha)
    · intro x hx
      rcases List.mem_append.mp hx with h | h
      · exact hlt x h
      · rw [List.mem_singleton] at h; rw [h]; exact hk
    · rw [List.pairwise_append]
      refine ⟨hpw, List.pairwise_singleton _ _, ?_⟩
      intro a ha b hb
      rw [List.mem_singleton] at hb
      rw [hb]
      exact htop a ha k hk hkL
    · intro x hx i hi hni
      have hniL : i ∉ L := fun h => hni (List.mem_append_left _ h)
      have hik : i ≠ k := fun h => hni (List.mem_append_right _ (by simp [h]))
      rcases List.mem_append.mp hx with h | h
      · exact htop x h i hi hniL
      · rw [List.mem_singleton] at h
        rw [h]
        have hle := hmax i hi ((hav i hi).mpr hniL)
        have hne : (s.scores i).value ≠ (s.scores k).value := fun e => hik (hd i hi k hk e)
        omega

/-- With at most 15 slots, pairwise distinct keys and no key 0, `display` shows
every index once, keys going down. -/
theorem display_spec (s : State) (hN : s.number_ ≤ 15) (hd : Distinct s.scores s.number_)
    (hpos : ∀ i, i < s.number_ → 0 < (s.scores i).value) :
    (display s).Perm (List.range s.number_) ∧
    (display s).Pairwise (fun a b => (s.scores a).value > (s.scores b).value) := by
  obtain ⟨hlen, _, hnd, hlt, hpw, _⟩ := display_rows s hN hd hpos s.number_ (le_refl _)
  rw [display_eq]
  refine ⟨?_, hpw⟩
  have hsub : (displayUpTo s s.number_).1 ⊆ List.range s.number_ :=
    fun x hx => List.mem_range.mpr (hlt x hx)
  exact (List.subperm_of_subset hnd hsub).perm_of_length_le (by rw [List.length_range, hlen])

/-- With at most 15 slots the invariant excludes the key 0. -/
theorem ranked_pos (sc : Nat → DeuligneHiScore) (n : Nat) (hr : Ranked sc n) (hn : n ≤ 15)
    (i : Nat) (hi : i < n) : 0 < (sc i).value := by
  obtain ⟨hA, _⟩ := class_block sc n 0 hr (by omega)
  have hle := sameCount_le sc 0 n
  by_contra h0
  have hz : (sc i).value = 0 := by omega
  have := hA i hi (by rw [hz])
  rw [hz] at this
  omega
/-- C14: with at most 5 slots, in every state reached from the sentinel table by
`insert` and `reset` calls, the list of indices that `display` shows, first row
first, is a permutation of `0 .. N-1` and the keys of the rows are strictly
descending. -/
theorem C14_display_rows_are_ranked_permutation (N : Nat) (s : State) (hN5 : N ≤ 5)
    (hr : Reachable N s) :
    (display s).Perm (List.range N) ∧
    (display s).Pairwise (fun a b => (s.scores a).value > (s.scores b).value) := by
  obtain ⟨hn, hrk⟩ := reachable_ranked hr (by omega)
  rw [← hn] at hrk ⊢
  exact display_spec s (by omega) hrk.2.1 (ranked_pos s.scores s.number_ hrk (by omega))

/-- C14 on `afterFive` (keys 15 and 95): `display` shows index 1, then index 0. -/
theorem C14_display_rows_are_ranked_permutation_witness :
    (2 ≤ 5 ∧ Reachable 2 afterFive) ∧ display afterFive = [1, 0] ∧
    (display afterFive).Perm (List.range 2) ∧
    (display afterFive).Pairwise
      (fun a b => (afterFive.scores a).value > (afterFive.scores b).value) :=
  ⟨⟨by decide,
      ⟨0, 0xC15E, begin (fresh (constStore 0xff)) 2 0 0xC15E false,
        [Call.insert 5 false nameAAA], by decide, by decide, by decide, rfl⟩⟩,
    by decide,
    C14_display_rows_are_ranked_permutation 2 afterFive (by decide)
      ⟨0, 0xC15E, begin (fresh (constStore 0xff)) 2 0 0xC15E false,
        [Call.insert 5 false nameAAA], by decide, by decide, by decide, rfl⟩⟩

/-! ## The largest elements of a multiset -/

theorem multiset_exists_max (T : Multiset Nat) (h : T ≠ 0) :
    ∃ m, m ∈ T ∧ ∀ x, x ∈ T → x ≤ m := by
  induction T using Multiset.induction with
  | empty => exact absurd rfl h
  | cons a T ih =>
    by_cases hT : T = 0
    · subst hT
      exact ⟨a, by simp, by simp⟩
    · obtain ⟨m, hm, hmax⟩ := ih hT
      by_cases ham : a ≤ m
      · refine ⟨m, Multiset.mem_cons_of_mem hm, ?_⟩
        intro x hx
        rcases Multiset.mem_cons.mp hx with h | h
        · rw [h]; exact ham
        · exact hmax x h
      · refine ⟨a, Multiset.mem_cons_self a T, ?_⟩
        intro x hx
        rcases Multiset.mem_cons.mp hx with h | h
        · rw [h]
        · have := hmax x h; omega

theorem isTopN_reject (n v : Nat) (T U : Multiset Nat) (h : IsTopN n T U)
    (hv : ∀ x, x ∈ T → v ≤ x) : IsTopN n T (v ::ₘ U) := by
  obtain ⟨R, hU, hc, hle⟩ := h
  refine ⟨v ::ₘ R, by rw [hU, Multiset.add_cons], hc, ?_⟩
  intro x hx y hy
  rcases Multiset.mem_cons.mp hy with h | h
  · rw [h]; exact hv x hx
  · exact hle x hx y h

theorem isTopN_accept (n v m : Nat) (T0 U : Multiset Nat) (h : IsTopN n (m ::ₘ T0) U)
    (hmv : m < v) (hm : ∀ x, x ∈ T0 → m ≤ x) : IsTopN n (v ::ₘ T0) (v ::ₘ U) := by
  obtain ⟨R, hU, hc, hle⟩ := h
  refine ⟨m ::ₘ R, ?_, ?_, ?_⟩
  · rw [hU, Multiset.cons_add, Multiset.cons_add, Multiset.add_cons, Multiset.cons_swap]
  · rw [Multiset.card_cons] at hc ⊢; exact hc
  · intro x hx y hy
    have hyle : y ≤ m := by
      rcases Multiset.mem_cons.mp hy with h | h
      · rw [h]
      · exact hle m (Multiset.mem_cons_self m T0) y h
    rcases Multiset.mem_cons.mp hx with h | h
    · rw [h]; omega
    · have := hm x h; omega

/-- The largest element of `U` is in every top-`(n+1)` part of it. -/
theorem isTopN_max_mem (n m : Nat) (T U : Multiset Nat) (h : IsTopN (n + 1) T U)
    (hmU : m ∈ U) (hmax : ∀ x, x ∈ U → x ≤ m) : m ∈ T := by
  obtain ⟨R, hU, hc, hle⟩ := h
  have hT : T ≠ 0 := by
    intro h0
    rw [h0] at hc
    simp at hc
  obtain ⟨t, ht, _⟩ := multiset_exists_max T hT
  rw [hU, Multiset.mem_add] at hmU
  rcases hmU with h | h
  · exact h
  · have h1 := hle t ht m h
    have h2 := hmax t (by rw [hU]; exact Multiset.mem_add.mpr (Or.inl ht))
    have : t = m := by omega
    rw [← this]; exact ht

theorem isTopN_unique (n : Nat) : ∀ (T T' U : Multiset Nat), IsTopN n T U → IsTopN n T' U →
    T = T' := by
  induction n with
  | zero =>
    intro T T' U h h'
    obtain ⟨_, _, hc, _⟩ := h
    obtain ⟨_, _, hc', _⟩ := h'
    rw [Multiset.card_eq_zero.mp hc, Multiset.card_eq_zero.mp hc']
  | succ n ih =>
    intro T T' U h h'
    have hU0 : U ≠ 0 := by
      obtain ⟨R, hU, hc, _⟩ := h
      intro h0
      have : Multiset.card (T + R) = 0 := by rw [← hU, h0]; simp
      rw [Multiset.card_add] at this
      omega
    obtain ⟨m, hmU, hmax⟩ := multiset_exists_max U hU0
    have hmT := isTopN_max_mem n m T U h hmU hmax
    have hmT' := isTopN_max_mem n m T' U h' hmU hmax
    obtain ⟨T0, rfl⟩ := Multiset.exists_cons_of_mem hmT
    obtain ⟨T0', rfl⟩ := Multiset.exists_cons_of_mem hmT'
    obtain ⟨R, hU, hc, hle⟩ := h
    obtain ⟨R', hU', hc', hle'⟩ := h'
    have e : T0 + R = T0' + R' := by
      rw [hU, Multiset.cons_add, Multiset.cons_add] at hU'
      exact (Multiset.cons_inj_right m).mp hU'
    have a1 : IsTopN n T0 (T0 + R) :=
      ⟨R, rfl, by rw [Multiset.card_cons] at hc; omega,
        fun x hx y hy => hle x (Multiset.mem_cons_of_mem hx) y hy⟩
    have a2 : IsTopN n T0' (T0 + R) :=
      ⟨R', e, by rw [Multiset.card_cons] at hc'; omega,
        fun x hx y hy => hle' x (Multiset.mem_cons_of_mem hx) y hy⟩
    rw [ih T0 T0' (T0 + R) a1 a2]

/-- Sorting in descending order and keeping the first `n` gives a top-`n` part. -/
theorem topN_isTopN (n : Nat) (l : List Nat) (hn : n ≤ l.length) :
    IsTopN n (topN n l : List Nat) (l : List Nat) := by
  have hperm := List.perm_insertionSort (fun a b : Nat => a ≥ b) l
  have hsorted := List.sorted_insertionSort (fun a b : Nat => a ≥ b) l
  unfold topN
  generalize l.insertionSort (fun a b => a ≥ b) = L at hperm hsorted
  refine ⟨(L.drop n : List Nat), ?_, ?_, ?_⟩
  · rw [Multiset.coe_add, List.take_append_drop]
    exact (Multiset.coe_eq_coe.mpr hperm).symm
  · rw [Multiset.coe_card, List.length_take, hperm.length_eq]
    omega
  · intro x hx y hy
    rw [Multiset.mem_coe] at hx hy
    have hs : List.Pairwise (fun a b : Nat => a ≥ b) (L.take n ++ L.drop n) := by
      rw [List.take_append_drop]; exact hsorted
    exact (List.pairwise_append.mp hs).2.2 x hx y hy

/-! ## The table keeps the largest scores -/

theorem scoreOf_eq (v : Nat) : scoreOf v = v / 16 := by
  unfold scoreOf; rw [shr4]

/-- Changing the value of a function at one index below `n`: the multiset of its
values over `0 .. n-1` loses the old value and gains the new one. -/
theorem map_range_update (f g : Nat → Nat) (n k : Nat) (hk : k < n)
    (hg : ∀ j, j ≠ k → g j = f j) :
    ∃ T0 : Multiset Nat, (((List.range n).map f : List Nat) : Multiset Nat) = f k ::ₘ T0 ∧
      (((List.range n).map g : List Nat) : Multiset Nat) = g k ::ₘ T0 ∧
      ∀ x, x ∈ T0 → ∃ j, j < n ∧ x = f j := by
  have hperm : List.Perm (List.range n) (k :: (List.range n).erase k) :=
    List.perm_cons_erase (List.mem_range.mpr hk)
  have hnot : k ∉ (List.range n).erase k :=
    List.Nodup.not_mem_erase (List.nodup_range n)
  refine ⟨(((List.range n).erase k).map f : List Nat), ?_, ?_, ?_⟩
  · rw [Multiset.cons_coe, Multiset.coe_eq_coe]
    exact (hperm.map f)
  · rw [Multiset.cons_coe, Multiset.coe_eq_coe]
    have : ((List.range n).erase k).map f = ((List.range n).erase k).map g := by
      apply List.map_congr_left
      intro j hj
      exact (hg j (fun e => hnot (e ▸ hj))).symm
    rw [this]
    exact (hperm.map g)
  · intro x hx
    rw [Multiset.mem_coe, List.mem_map] at hx
    obtain ⟨j, hj, rfl⟩ := hx
    exact ⟨j, List.mem_range.mp (List.mem_of_mem_erase hj), rfl⟩

/-- An insert of a score below `2^28` on the multiset of scores: rejected, the
scores stay and none is below the new one; accepted, a smallest score, below the
new one, is replaced by it. -/
theorem insert_scoresOf (s : State) (v : Nat) (entered : Name) (hN : s.number_ ≤ 15)
    (hv : v < 268435456) :
    ((insert s v false entered).1 = false ∧ (insert s v false entered).2 = s ∧
      ∀ x, x ∈ scoresOf s → v ≤ x) ∨
    ((insert s v false entered).1 = true ∧
      (insert s v false entered).2.number_ = s.number_ ∧
      ∃ m T0, scoresOf s = m ::ₘ T0 ∧ scoresOf (insert s v false entered).2 = v ::ₘ T0 ∧
        m < v ∧ ∀ x, x ∈ T0 → m ≤ x) := by
  have hc := cand_small v hv
  cases hb : isBestScore s ((v <<< 4) % ULONG)
  · left
    rw [insert_rejected s v entered hb]
    refine ⟨rfl, rfl, ?_⟩
    intro x hx
    unfold scoresOf at hx
    rw [Multiset.mem_coe, List.mem_map] at hx
    obtain ⟨j, hj, rfl⟩ := hx
    rw [List.mem_range] at hj
    have hnb : ¬ (s.scores j).value < (v <<< 4) % ULONG := by
      intro hlt
      have := (isBestScore_iff s _).mpr ⟨j, hj, hlt⟩
      rw [hb] at this
      exact absurd this (by simp)
    rw [hc, shl4] at hnb
    rw [scoreOf_eq]
    omega
  · right
    obtain ⟨h1, hsc, hnum, _⟩ := insert_accepted s v entered hb
    obtain ⟨hk, hlt, hmin, _, _⟩ := scan_spec s _ ((isBestScore_iff s _).mp hb)
    have hks := (newKey_score s v hN).1
    refine ⟨h1, hnum, ?_⟩
    obtain ⟨T0, e1, e2, e3⟩ := map_range_update
      (fun i => scoreOf (s.scores i).value)
      (fun i => scoreOf ((insert s v false entered).2.scores i).value)
      s.number_ (evicted s v) hk (by
        intro j hj
        simp only [hsc, setScore, if_neg hj])
    refine ⟨scoreOf (s.scores (evicted s v)).value, T0, e1, ?_, ?_, ?_⟩
    · unfold scoresOf
      rw [hnum, e2]
      simp only [hsc, setScore, if_true]
      rw [hks, Nat.mod_eq_of_lt hv]
    · change (s.scores (evicted s v)).value < (v <<< 4) % ULONG at hlt
      rw [hc, shl4] at hlt
      rw [scoreOf_eq]
      omega
    · intro x hx
      obtain ⟨j, hj, rfl⟩ := e3 x hx
      have := hmin j hj
      change (s.scores (evicted s v)).value ≤ (s.scores j).value at this
      simp only [scoreOf_eq]
      omega

theorem insertAll_isTopN (N : Nat) (hN : N ≤ 15) (vs : List (Nat × Name)) :
    ∀ (s : State) (U : Multiset Nat), s.number_ = N → IsTopN N (scoresOf s) U →
      (∀ p, p ∈ vs → p.1 < 268435456) →
      (insertAll s vs).number_ = N ∧
      IsTopN N (scoresOf (insertAll s vs)) (U + ((vs.map Prod.fst : List Nat) : Multiset Nat)) := by
  induction vs with
  | nil =>
    intro s U hn h _
    refine ⟨hn, ?_⟩
    simpa [insertAll] using h
  | cons p vs ih =>
    intro s U hn h hvs
    have hp := hvs p (List.mem_cons_self _ _)
    have hstep : (insert s p.1 false p.2).2.number_ = N ∧
        IsTopN N (scoresOf (insert s p.1 false p.2).2) (p.1 ::ₘ U) := by
      rcases insert_scoresOf s p.1 p.2 (by omega) hp with ⟨_, hs, hle⟩ | ⟨_, hnum, m, T0, e1, e2, hmv, hm⟩
      · rw [hs]
        exact ⟨hn, isTopN_reject N p.1 _ U h hle⟩
      · refine ⟨hnum.trans hn, ?_⟩
        rw [e2]
        rw [e1] at h
        exact isTopN_accept N p.1 m T0 U h hmv hm
    obtain ⟨r1, r2⟩ := ih (insert s p.1 false p.2).2 (p.1 ::ₘ U) hstep.1 hstep.2
      (fun q hq => hvs q (List.mem_cons_of_mem _ hq))
    refine ⟨r1, ?_⟩
    have e : U + (((p :: vs).map Prod.fst : List Nat) : Multiset Nat) =
        p.1 ::ₘ U + ((vs.map Prod.fst : List Nat) : Multiset Nat) := by
      rw [List.map_cons, ← Multiset.cons_coe, Multiset.add_cons, Multiset.cons_add]
    rw [e]
    exact r2

theorem sentinel_scoresOf (s : State)
    (hs : ∀ i, i < s.number_ → (s.scores i).value = 0x0f - i) :
    scoresOf s = ((List.replicate s.number_ 0 : List Nat) : Multiset Nat) := by
  unfold scoresOf
  have : (List.range s.number_).map (fun i => scoreOf (s.scores i).value) =
      (List.range s.number_).map (fun _ => 0) := by
    apply List.map_congr_left
    intro i hi
    rw [List.mem_range] at hi
    rw [hs i hi, scoreOf_eq]
    omega
  rw [this]
  simp
/-- C17: with at most 5 slots, after inserting any scores below `2^28` in order into
the sentinel table, the multiset of the scores `value >> 4` of the table is the
multiset of the `N` largest elements of `N` zeros together with the inserted scores
(sorted in descending order, first `N` kept); and on every table of `N` slots an
insert of a score below `2^28` is accepted exactly when an entry of smallest score
has a score strictly below it. -/
theorem C17_table_holds_the_largest_scores (N : Nat) (s : State) (vs : List (Nat × Name))
    (hN5 : N ≤ 5) (hn : s.number_ = N)
    (hs : ∀ i, i < N → (s.scores i).value = 0x0f - i)
    (hvs : ∀ p, p ∈ vs → p.1 < 2 ^ 28) :
    scoresOf (insertAll s vs) =
      ((topN N (List.replicate N 0 ++ vs.map Prod.fst) : List Nat) : Multiset Nat) ∧
    ∀ (t : State) (v : Nat) (entered : Name), t.number_ = N → v < 2 ^ 28 →
      ((insert t v false entered).1 = true ↔
        ∃ i, i < N ∧
          (∀ j, j < N → scoreOf (t.scores i).value ≤ scoreOf (t.scores j).value) ∧
          scoreOf (t.scores i).value < v) := by
  have h28 : (2 : Nat) ^ 28 = 268435456 := by norm_num
  rw [h28] at hvs
  constructor
  · have h0 : IsTopN N (scoresOf s) ((List.replicate N 0 : List Nat) : Multiset Nat) := by
      rw [sentinel_scoresOf s (by rw [hn]; exact hs), hn]
      exact ⟨0, by simp, by simp, by simp⟩
    obtain ⟨_, h1⟩ := insertAll_isTopN N (by omega) vs s _ hn h0 hvs
    rw [Multiset.coe_add] at h1
    have h2 := topN_isTopN N (List.replicate N 0 ++ vs.map Prod.fst) (by simp)
    exact isTopN_unique N _ _ _ h1 h2
  · intro t v entered ht hv
    rw [h28] at hv
    have hc := cand_small v hv
    constructor
    · intro hacc
      have hb : isBestScore t ((v <<< 4) % ULONG) = true := by
        cases h : isBestScore t ((v <<< 4) % ULONG)
        · rw [insert_rejected t v entered h] at hacc
          exact absurd hacc (by simp)
        · rfl
      obtain ⟨hk, hlt, hmin, _, _⟩ := scan_spec t _ ((isBestScore_iff t _).mp hb)
      rw [ht] at hk hmin
      change (t.scores (evicted t v)).value < (v <<< 4) % ULONG at hlt
      rw [hc, shl4] at hlt
      refine ⟨evicted t v, hk, ?_, ?_⟩
      · intro j hj
        have := hmin j hj
        change (t.scores (evicted t v)).value ≤ (t.scores j).value at this
        simp only [scoreOf_eq]
        omega
      · rw [scoreOf_eq]; omega
    · rintro ⟨i, hi, _, hlt⟩
      rw [scoreOf_eq] at hlt
      have hb : isBestScore t ((v <<< 4) % ULONG) = true := by
        apply (isBestScore_iff t _).mpr
        refine ⟨i, by rw [ht]; exact hi, ?_⟩
        rw [hc, shl4]
        omega
      exact (insert_accepted t v entered hb).1

/-- C17 on three slots: after inserting 7, 3, 7, 9, 1 into the sentinel table that
`begin` builds over an erased store the table holds the scores 9, 7, 7. -/
theorem C17_table_holds_the_largest_scores_witness :
    (3 ≤ 5 ∧ (begin (fresh (constStore 0xff)) 3 0 0xC15E false).number_ = 3 ∧
      (∀ i, i < 3 →
        ((begin (fresh (constStore 0xff)) 3 0 0xC15E false).scores i).value = 0x0f - i) ∧
      ∀ p, p ∈ [(7, nameAAA), (3, nameAAA), (7, nameAAA), (9, nameAAA), (1, nameAAA)] →
        p.1 < 2 ^ 28) ∧
    topN 3 (List.replicate 3 0 ++
      [(7, nameAAA), (3, nameAAA), (7, nameAAA), (9, nameAAA), (1, nameAAA)].map Prod.fst) =
        [9, 7, 7] ∧
    scoresOf (insertAll (begin (fresh (constStore 0xff)) 3 0 0xC15E false)
      [(7, nameAAA), (3, nameAAA), (7, nameAAA), (9, nameAAA), (1, nameAAA)]) =
      ((topN 3 (List.replicate 3 0 ++
        [(7, nameAAA), (3, nameAAA), (7, nameAAA), (9, nameAAA), (1, nameAAA)].map Prod.fst) :
          List Nat) : Multiset Nat) :=
  ⟨⟨by decide, by decide, by decide, by decide⟩, by decide,
    (C17_table_holds_the_largest_scores 3 (begin (fresh (constStore 0xff)) 3 0 0xC15E false)
      [(7, nameAAA), (3, nameAAA), (7, nameAAA), (9, nameAAA), (1, nameAAA)]
      (by decide) (by decide) (by decide) (by decide)).1⟩

end DeuligneHiScores
